import Mathlib

/-!
Verification development for the geoindex repository: an R-tree storage
engine (`internal` rtree copied from tidwall/rtree v1.2.5), a
capability-driven incremental kNN engine (`Index.Nearby` with a binary
min-heap `queue`), and the bundled box-distance metric
(`algo/simplebox.go`).

Go `float64` coordinates and distances are modeled as rationals `ℚ`
(exact arithmetic); `interface{}` item payloads are modeled as `ℕ`.
-/

set_option maxHeartbeats 1000000
set_option maxRecDepth 100000

attribute [local semireducible] Rat.add Rat.sub Rat.mul

namespace Geoindex

/-- A 2-d coordinate vector, embedding Go `[2]float64`.
`.1` is index 0, `.2` is index 1. -/
abbrev Pt : Type := ℚ × ℚ

/-- An axis-aligned box: the `min`/`max` fields shared by `rect`
(internal rtree) and `child.Child`. -/
structure Box where
  min : Pt
  max : Pt
deriving DecidableEq, Repr, Inhabited

/-- `boxDist` from `algo/simplebox.go` lines 18-50: per axis, the gap
between the larger `min` and the smaller `max` contributes its square
when positive; both axes are summed. -/
def boxDist (amin amax bmin bmax : Pt) : ℚ :=
  let dist0 : ℚ := 0
  let min0 : ℚ := if amin.1 > bmin.1 then amin.1 else bmin.1
  let max0 : ℚ := if amax.1 < bmax.1 then amax.1 else bmax.1
  let squared0 : ℚ := min0 - max0
  let dist1 : ℚ := if squared0 > 0 then dist0 + squared0 * squared0 else dist0
  let min1 : ℚ := if amin.2 > bmin.2 then amin.2 else bmin.2
  let max1 : ℚ := if amax.2 < bmax.2 then amax.2 else bmax.2
  let squared1 : ℚ := min1 - max1
  if squared1 > 0 then dist1 + squared1 * squared1 else dist1

/-- One axis of `boxDist`: the squared positive gap between the
intervals `[alo, ahi]` and `[blo, bhi]`. -/
def axisGap (alo ahi blo bhi : ℚ) : ℚ :=
  let m : ℚ := if alo > blo then alo else blo
  let M : ℚ := if ahi < bhi then ahi else bhi
  if m - M > 0 then (m - M) * (m - M) else 0

theorem boxDist_eq_axisGap (amin amax bmin bmax : Pt) :
    boxDist amin amax bmin bmax =
      axisGap amin.1 amax.1 bmin.1 bmax.1 + axisGap amin.2 amax.2 bmin.2 bmax.2 := by
  unfold boxDist axisGap
  dsimp only
  split_ifs <;> ring

theorem axisGap_nonneg (alo ahi blo bhi : ℚ) : 0 ≤ axisGap alo ahi blo bhi := by
  unfold axisGap
  dsimp only
  split_ifs <;> nlinarith

theorem axisGap_le_sq {alo ahi blo bhi p q : ℚ}
    (hp1 : alo ≤ p) (hp2 : p ≤ ahi) (hq1 : blo ≤ q) (hq2 : q ≤ bhi) :
    axisGap alo ahi blo bhi ≤ (p - q) ^ 2 := by
  unfold axisGap
  dsimp only
  split_ifs with h1 h2 hg hg hg hg <;> nlinarith

theorem axisGap_mono {tlo thi clo chi blo bhi : ℚ}
    (h1 : clo ≤ blo) (h2 : bhi ≤ chi) :
    axisGap tlo thi clo chi ≤ axisGap tlo thi blo bhi := by
  unfold axisGap
  dsimp only
  split_ifs <;> nlinarith

/-- `rect.intersects` from the internal rtree (part_003 lines 315-323):
boxes touching on a boundary count as intersecting. -/
def Box.intersectsB (r b : Box) : Bool :=
  if b.min.1 > r.max.1 ∨ b.max.1 < r.min.1 then false
  else if b.min.2 > r.max.2 ∨ b.max.2 < r.min.2 then false
  else true

/-- `rect.contains` from the internal rtree (part_003 lines 209-217). -/
def Box.containsB (r b : Box) : Bool :=
  if b.min.1 < r.min.1 ∨ b.max.1 > r.max.1 then false
  else if b.min.2 < r.min.2 ∨ b.max.2 > r.max.2 then false
  else true

/-- `rect.expand` from the internal rtree (part_003 lines 38-51). -/
def Box.expand (r b : Box) : Box :=
  { min := (if b.min.1 < r.min.1 then b.min.1 else r.min.1,
            if b.min.2 < r.min.2 then b.min.2 else r.min.2),
    max := (if b.max.1 > r.max.1 then b.max.1 else r.max.1,
            if b.max.2 > r.max.2 then b.max.2 else r.max.2) }

/-- `rect.onEdge` from the internal rtree (part_003 lines 494-502). -/
def Box.onEdgeB (r b : Box) : Bool :=
  if r.min.1 = b.min.1 ∨ r.max.1 = b.max.1 then true
  else if r.min.2 = b.min.2 ∨ r.max.2 = b.max.2 then true
  else false

/-- `rect.area` from the internal rtree (part_003 lines 53-55). -/
def Box.area (r : Box) : ℚ :=
  (r.max.1 - r.min.1) * (r.max.2 - r.min.2)

/-- `rect.enlargedArea` from the internal rtree (part_003 lines 93-122);
`chooseLeastEnlargement` inlines the identical arithmetic
(`inlineEnlargedArea = true`). -/
def Box.enlargedArea (r b : Box) : ℚ :=
  (if b.max.1 > r.max.1 then
     (if b.min.1 < r.min.1 then b.max.1 - b.min.1 else b.max.1 - r.min.1)
   else
     (if b.min.1 < r.min.1 then r.max.1 - b.min.1 else r.max.1 - r.min.1)) *
  (if b.max.2 > r.max.2 then
     (if b.min.2 < r.min.2 then b.max.2 - b.min.2 else b.max.2 - r.min.2)
   else
     (if b.min.2 < r.min.2 then r.max.2 - b.min.2 else r.max.2 - r.min.2))

theorem containsB_iff (r b : Box) :
    r.containsB b = true ↔
      r.min.1 ≤ b.min.1 ∧ b.max.1 ≤ r.max.1 ∧ r.min.2 ≤ b.min.2 ∧ b.max.2 ≤ r.max.2 := by
  unfold Box.containsB
  split_ifs with h1 h2
  · simp only [false_iff]
    intro hc
    rcases h1 with h | h <;> linarith [hc.1, hc.2.1]
  · simp only [false_iff]
    intro hc
    rcases h2 with h | h <;> linarith [hc.2.2.1, hc.2.2.2]
  · push_neg at h1 h2
    simp only [true_iff]
    exact ⟨by linarith [h1.1], by linarith [h1.2], by linarith [h2.1], by linarith [h2.2]⟩

theorem intersectsB_iff (r b : Box) :
    r.intersectsB b = true ↔
      b.min.1 ≤ r.max.1 ∧ r.min.1 ≤ b.max.1 ∧ b.min.2 ≤ r.max.2 ∧ r.min.2 ≤ b.max.2 := by
  unfold Box.intersectsB
  split_ifs with h1 h2
  · simp only [false_iff]
    intro hc
    rcases h1 with h | h <;> linarith [hc.1, hc.2.1]
  · simp only [false_iff]
    intro hc
    rcases h2 with h | h <;> linarith [hc.2.2.1, hc.2.2.2]
  · push_neg at h1 h2
    simp only [true_iff]
    exact ⟨by linarith [h1.1], by linarith [h1.2], by linarith [h2.1], by linarith [h2.2]⟩

/-! ## The internal R-tree (part_003)

Go `rect` carries a box and an `interface{}` payload that is either
caller data (a leaf item, modeled as `ℕ`) or a `*node` holding up to
`maxEntries + 1` child rects (modeled as a `List Rect`).  The fixed-size
array plus count is modeled as a list; mutation becomes functional
update. -/

/-- `maxEntries` from part_003 line 16. -/
def maxEntries : ℕ := 32

/-- `minEntries` from part_003 line 17. -/
def minEntries : ℕ := maxEntries * 20 / 100

/-- A `rect`: box plus payload (leaf data or child node). -/
inductive Rect where
  | item (box : Box) (data : ℕ)
  | node (box : Box) (children : List Rect)

instance : Inhabited Rect := ⟨Rect.node default []⟩

/-- The `min`/`max` fields of a `rect`. -/
def Rect.box : Rect → Box
  | .item b _ => b
  | .node b _ => b

/-- Replace the `min`/`max` fields, keeping `data`. -/
def Rect.setBox : Rect → Box → Rect
  | .item _ d, b => .item b d
  | .node _ cs, b => .node b cs

/-- `r.data.(*node)` viewed as the list of live entries
(`n.rects[0:n.count]`); empty for a leaf item (where Go would panic on
the type assertion - unreachable in well-formed trees). -/
def Rect.children : Rect → List Rect
  | .item _ _ => []
  | .node _ cs => cs

/-- Number of live entries (`n.count`). -/
def Rect.childCount (r : Rect) : ℕ := r.children.length

/-- Whether the payload is caller data rather than a `*node`. -/
def Rect.isItem : Rect → Bool
  | .item _ _ => true
  | .node _ _ => false

/-- Leaf payload (0 for a node, where Go would expose a `*node` value). -/
def Rect.dataD : Rect → ℕ
  | .item _ d => d
  | .node _ _ => 0

/-- The Go comparison `rects[i].data == item.data` at leaf level:
interface equality of the stored payload against the target payload.  A
`*node` payload never equals caller data. -/
def Rect.dataEq (c : Rect) (d : ℕ) : Bool :=
  match c with
  | .item _ d2 => d2 == d
  | .node _ _ => false

/-- `rect.recalc` (part_003 lines 199-206): box of `rects[0]` expanded
by the remaining entries.  Go reads the (stale) slot `rects[0]` even
when `count = 0`; that case is unreachable in well-formed trees and is
modeled by the default box. -/
def recalcBox : List Rect → Box
  | [] => default
  | c :: cs => cs.foldl (fun b x => b.expand x.box) c.box

/-- Go swap-remove `rects[i] = rects[len-1]; count--` seen from
position `i`: the tail that followed position `i` with its last element
moved to the front. -/
def rotateLast : List Rect → List Rect
  | [] => []
  | a :: as => (a :: as).getLast (by simp) :: (a :: as).dropLast

theorem rotateLast_length (l : List Rect) : (rotateLast l).length = l.length := by
  cases l with
  | nil => rfl
  | cons a as => simp [rotateLast]

/-- The containment fast path of `rect.insert` (part_003 lines 280-288):
index of the containing child with smallest area, first index winning
ties; carries `(index, area)`. -/
def chooseContainLoop (b : Box) : List Rect → ℕ → Option (ℕ × ℚ) → Option (ℕ × ℚ)
  | [], _, best => best
  | c :: cs, i, best =>
    let best2 :=
      if c.box.containsB b then
        match best with
        | none => some (i, c.box.area)
        | some (j, narea) =>
          if c.box.area < narea then some (i, c.box.area) else some (j, narea)
      else best
    chooseContainLoop b cs (i + 1) best2

def chooseContain (cs : List Rect) (b : Box) : Option ℕ :=
  (chooseContainLoop b cs 0 none).map (fun p => p.1)

/-- `rect.chooseLeastEnlargement` (part_003 lines 153-197); the loop
carries `(index, enlargement, area)` and prefers smaller enlargement,
breaking ties by smaller current area, earlier index winning exact
ties. -/
def cleLoop (b : Box) : List Rect → ℕ → Option (ℕ × ℚ × ℚ) → Option (ℕ × ℚ × ℚ)
  | [], _, best => best
  | c :: cs, i, best =>
    let earea := c.box.enlargedArea b
    let area := c.box.area
    let enlargement := earea - area
    let best2 :=
      match best with
      | none => some (i, enlargement, area)
      | some (j, je, ja) =>
        if enlargement < je ∨ (enlargement = je ∧ area < ja) then
          some (i, enlargement, area)
        else some (j, je, ja)
    cleLoop b cs (i + 1) best2

/-- Result index of `chooseLeastEnlargement`; Go returns -1 for an empty
node (and the caller would panic indexing with it) - modeled as 0,
unreachable for well-formed nodes. -/
def chooseLeastEnlargement (cs : List Rect) (b : Box) : ℕ :=
  match cleLoop b cs 0 none with
  | some (j, _, _) => j
  | none => 0

/-- `rect.largestAxis` (part_003 lines 219-224): `true` means axis 1.
The returned size is unused at the call site and omitted. -/
def Box.largestAxis (r : Box) : Bool :=
  r.max.2 - r.min.2 > r.max.1 - r.min.1

def Box.minA (r : Box) (axis : Bool) : ℚ := if axis then r.min.2 else r.min.1

def Box.maxA (r : Box) (axis : Bool) : ℚ := if axis then r.max.2 else r.max.1

/-- The partition loop of `rect.splitLargestAxisEdgeSnap` (part_003
lines 234-253): each entry stays left when strictly nearer the min edge,
moves right when strictly nearer the max edge, and is set aside on an
exact tie; moving an entry swap-removes it, bringing the original last
entry to the current position (`rotateLast`).  The loop handles one
array position per step; `fuel` counts the remaining positions (the
wrapper passes the list length, which `rotateLast` preserves), making
the recursion structural. -/
def snapLoopF (nodeBox : Box) (axis : Bool) : ℕ → List Rect → List Rect × List Rect × List Rect
  | _, [] => ([], [], [])
  | 0, _ :: _ => ([], [], [])
  | fuel + 1, c :: rest =>
    let minDist := c.box.minA axis - nodeBox.minA axis
    let maxDist := nodeBox.maxA axis - c.box.maxA axis
    if minDist < maxDist then
      let (l, r, e) := snapLoopF nodeBox axis fuel rest
      (c :: l, r, e)
    else if minDist > maxDist then
      let (l, r, e) := snapLoopF nodeBox axis fuel (rotateLast rest)
      (l, c :: r, e)
    else
      let (l, r, e) := snapLoopF nodeBox axis fuel (rotateLast rest)
      (l, r, c :: e)

def snapLoop (nodeBox : Box) (axis : Bool) (cs : List Rect) :
    List Rect × List Rect × List Rect :=
  snapLoopF nodeBox axis cs.length cs

/-- The tie-distribution loop of `rect.splitLargestAxisEdgeSnap`
(part_003 lines 254-262): each tied entry joins whichever half currently
has fewer members, the right half on equal counts. -/
def distribute : List Rect → List Rect → List Rect → List Rect × List Rect
  | [], ls, rs => (ls, rs)
  | b :: bs, ls, rs =>
    if ls.length < rs.length then distribute bs (ls ++ [b]) rs
    else distribute bs ls (rs ++ [b])

/-- `rect.splitLargestAxisEdgeSnap` (part_003 lines 226-265) on a node
with box `b` and entries `cs`: returns the left and right halves, each
with its box recomputed. -/
def splitLargestAxisEdgeSnap (b : Box) (cs : List Rect) : Rect × Rect :=
  let axis := b.largestAxis
  let (ls, rs, es) := snapLoop b axis cs
  let (ls2, rs2) := distribute es ls rs
  (Rect.node (recalcBox ls2) ls2, Rect.node (recalcBox rs2) rs2)

/-- The subtree choice of `rect.insert` (part_003 lines 276-292): the
containment fast path, else least enlargement. -/
def insertIndex (cs : List Rect) (ib : Box) : ℕ :=
  match chooseContain cs ib with
  | some i => i
  | none => chooseLeastEnlargement cs ib

/-- `rect.insert` (part_003 lines 267-305).  Returns the updated rect
and the `grown` flag.  The `item` case is unreachable (Go would panic on
`r.data.(*node)`). -/
def Rect.insertR (item : Rect) : ℕ → Rect → Rect × Bool
  | _, .item b d => (.item b d, false)
  | 0, .node b cs => (.node b (cs ++ [item]), !(b.containsB item.box))
  | h + 1, .node b cs =>
    let index := insertIndex cs item.box
    let child := cs.getD index default
    let c1 := (Rect.insertR item h child).1
    let grown := (Rect.insertR item h child).2
    let c2 := if grown then c1.setBox (c1.box.expand item.box) else c1
    let grown2 := if grown then !(b.containsB item.box) else false
    if c2.childCount = maxEntries + 1 then
      (.node b ((cs.set index (splitLargestAxisEdgeSnap c2.box c2.children).1) ++
        [(splitLargestAxisEdgeSnap c2.box c2.children).2]), grown2)
    else
      (.node b (cs.set index c2), grown2)

/-- The R-tree root structure (part_003 lines 31-36).  Go `root rect`
with nil `data` is modeled as `none`; the `reinsert` buffer is always
empty at operation boundaries and is modeled as the list threaded
through `Delete`. -/
structure RTree where
  height : ℕ
  root : Option Rect
  count : ℤ

def RTree.empty : RTree := ⟨0, none, 0⟩

/-- `RTree.insert` (part_003 lines 131-149): create the root from the
item box when absent, insert, expand the root box if grown, and split
the root beneath a fresh root when it overflows. -/
def RTree.insertRect (tr : RTree) (item : Rect) : RTree :=
  let root0 :=
    match tr.root with
    | none => Rect.node item.box []
    | some r => r
  let r1 := (Rect.insertR item tr.height root0).1
  let grown := (Rect.insertR item tr.height root0).2
  let r2 := if grown then r1.setBox (r1.box.expand item.box) else r1
  if r2.childCount = maxEntries + 1 then
    { height := tr.height + 1,
      root := some (Rect.node
        (recalcBox [(splitLargestAxisEdgeSnap r2.box r2.children).1,
          (splitLargestAxisEdgeSnap r2.box r2.children).2])
        [(splitLargestAxisEdgeSnap r2.box r2.children).1,
          (splitLargestAxisEdgeSnap r2.box r2.children).2]),
      count := tr.count + 1 }
  else
    { height := tr.height, root := some r2, count := tr.count + 1 }

/-- `RTree.Insert` (part_003 lines 125-129). -/
def RTree.Insert (tr : RTree) (min max : Pt) (data : ℕ) : RTree :=
  tr.insertRect (Rect.item ⟨min, max⟩ data)

/-- `rect.flatten` (part_003 lines 481-491): append all leaf entries of
a subtree to `all`. -/
def flattenR : ℕ → Rect → List Rect → List Rect
  | 0, r, all => all ++ r.children
  | h + 1, r, all => r.children.foldl (fun acc c => flattenR h c acc) all

/-- The leaf branch of `rect.delete` (part_003 lines 438-451): find the
first entry whose payload equals the target payload, record whether it
lay on the edge of the node box, and swap-remove it. -/
def leafDel (rbox : Box) (d : ℕ) : List Rect → Option (List Rect × Bool)
  | [] => none
  | c :: rest =>
    if c.dataEq d then some (rotateLast rest, rbox.onEdgeB c.box)
    else (leafDel rbox d rest).map (fun p => (c :: p.1, p.2))

/-- The internal branch of `rect.delete` (part_003 lines 452-476):
scan for a child whose box contains the target and whose recursive
delete succeeds; on underflow, flatten that child into the reinsertion
list and swap-remove it. -/
def nodeDelLoop (ibox : Box) (flat : Rect → List Rect → List Rect)
    (delChild : Rect → Option (Rect × Bool × List Rect)) (rbox : Box) :
    List Rect → Option (List Rect × Bool × List Rect)
  | [] => none
  | c :: rest =>
    if c.box.containsB ibox then
      match delChild c with
      | some (c1, rcl, rei) =>
        if c1.childCount < minEntries then
          let rcl2 := rcl || rbox.onEdgeB c1.box
          let rei2 := flat c1 rei
          some (rotateLast rest, rcl2, rei2)
        else some (c1 :: rest, rcl, rei)
      | none =>
        (nodeDelLoop ibox flat delChild rbox rest).map
          (fun p => (c :: p.1, p.2.1, p.2.2))
    else
      (nodeDelLoop ibox flat delChild rbox rest).map
        (fun p => (c :: p.1, p.2.1, p.2.2))

/-- `rect.delete` (part_003 lines 434-478): returns `none` when nothing
was removed, otherwise the updated rect, the `recalced` flag and the
entries appended to the reinsertion buffer. -/
def deleteR (ibox : Box) (d : ℕ) : ℕ → Rect → Option (Rect × Bool × List Rect)
  | 0, .node b cs =>
    (leafDel b d cs).map (fun p =>
      (Rect.node (if p.2 then recalcBox p.1 else b) p.1, p.2, []))
  | h + 1, .node b cs =>
    (nodeDelLoop ibox (fun c acc => flattenR h c acc) (deleteR ibox d h) b cs).map
      (fun p => (Rect.node (if p.2.1 then recalcBox p.1 else b) p.1, p.2.1, p.2.2))
  | _, .item _ _ => none

/-- `rect.recalc` applied to a rect in place. -/
def Rect.recalcSelf : Rect → Rect
  | .node _ cs => .node (recalcBox cs) cs
  | .item b d => .item b d

/-- The root-collapse loop of `RTree.Delete` (part_003 lines 416-420):
while the root is a single-child internal node, promote the child
(recomputing its box) and decrement the height. -/
def collapseLoop : ℕ → Rect → ℕ × Rect
  | 0, r => (0, r)
  | h + 1, r =>
    if r.childCount = 1 then collapseLoop h (r.children.headD default).recalcSelf
    else (h + 1, r)

/-- `RTree.Delete` (part_003 lines 400-432). -/
def RTree.Delete (tr : RTree) (min max : Pt) (data : ℕ) : RTree :=
  let ibox : Box := ⟨min, max⟩
  match tr.root with
  | none => tr
  | some root =>
    if !(root.box.containsB ibox) then tr
    else
      match deleteR ibox data tr.height root with
      | none => tr
      | some (root1, rcl, rei) =>
        let count1 := tr.count - (rei.length + 1)
        if count1 = 0 then
          rei.foldl (fun acc r => acc.insertRect r)
            { height := tr.height, root := none, count := (0 : ℤ) }
        else
          let (h2, root2) := collapseLoop tr.height root1
          let root3 := if rcl then root2.recalcSelf else root2
          rei.foldl (fun acc r => acc.insertRect r)
            { height := h2, root := some root3, count := count1 }

/-- `RTree.Replace` (part_003 lines 562-568): Delete then Insert. -/
def RTree.Replace (tr : RTree) (omin omax : Pt) (odata : ℕ)
    (nmin nmax : Pt) (ndata : ℕ) : RTree :=
  (tr.Delete omin omax odata).Insert nmin nmax ndata

/-- `RTree.Len` (part_003 lines 505-507). -/
def RTree.Len (tr : RTree) : ℤ := tr.count

/-- `RTree.Bounds` (part_003 lines 510-515): the zero box for an empty
root (Go returns zero-valued `[2]float64`s), else the root box. -/
def RTree.BoundsB (tr : RTree) : Box :=
  match tr.root with
  | none => ⟨(0, 0), (0, 0)⟩
  | some r => r.box

/-! Search and scan.  The Go visitors are closures over caller state;
they are modeled as state-threading functions `σ → Box → ℕ → σ × Bool`
returning the new state and the continue flag. -/

/-- The leaf loop of `rect.search` (part_003 lines 330-337). -/
def searchLeafLoop {σ : Type _} (target : Box) (f : σ → Box → ℕ → σ × Bool) :
    List Rect → σ → σ × Bool
  | [], s => (s, true)
  | c :: rest, s =>
    if target.intersectsB c.box then
      let (s1, cont) := f s c.box c.dataD
      if cont then searchLeafLoop target f rest s1 else (s1, false)
    else searchLeafLoop target f rest s

/-- The internal loop of `rect.search` (part_003 lines 338-346). -/
def searchNodeLoop {σ : Type _} (target : Box) (g : Rect → σ → σ × Bool) :
    List Rect → σ → σ × Bool
  | [], s => (s, true)
  | c :: rest, s =>
    if target.intersectsB c.box then
      let (s1, cont) := g c s
      if cont then searchNodeLoop target g rest s1 else (s1, false)
    else searchNodeLoop target g rest s

/-- `rect.search` (part_003 lines 325-348). -/
def searchR {σ : Type _} (target : Box) (f : σ → Box → ℕ → σ × Bool) :
    ℕ → Rect → σ → σ × Bool
  | 0, r, s => searchLeafLoop target f r.children s
  | h + 1, r, s => searchNodeLoop target (searchR target f h) r.children s

/-- `RTree.Search` / `RTree.search` (part_003 lines 350-368). -/
def RTree.SearchSt {σ : Type _} (tr : RTree) (min max : Pt)
    (f : σ → Box → ℕ → σ × Bool) (s : σ) : σ :=
  match tr.root with
  | none => s
  | some root =>
    if (⟨min, max⟩ : Box).intersectsB root.box then
      (searchR ⟨min, max⟩ f tr.height root s).1
    else s

/-- The leaf loop of `rect.scan` (part_003 lines 375-380). -/
def scanLeafLoop {σ : Type _} (f : σ → Box → ℕ → σ × Bool) :
    List Rect → σ → σ × Bool
  | [], s => (s, true)
  | c :: rest, s =>
    let (s1, cont) := f s c.box c.dataD
    if cont then scanLeafLoop f rest s1 else (s1, false)

/-- The internal loop of `rect.scan` (part_003 lines 381-387). -/
def scanNodeLoop {σ : Type _} (g : Rect → σ → σ × Bool) :
    List Rect → σ → σ × Bool
  | [], s => (s, true)
  | c :: rest, s =>
    let (s1, cont) := g c s
    if cont then scanNodeLoop g rest s1 else (s1, false)

/-- `rect.scan` (part_003 lines 370-389). -/
def scanR {σ : Type _} (f : σ → Box → ℕ → σ × Bool) : ℕ → Rect → σ → σ × Bool
  | 0, r, s => scanLeafLoop f r.children s
  | h + 1, r, s => scanNodeLoop (scanR f h) r.children s

/-- `RTree.Scan` (part_003 lines 392-397). -/
def RTree.ScanSt {σ : Type _} (tr : RTree) (f : σ → Box → ℕ → σ × Bool) (s : σ) : σ :=
  match tr.root with
  | none => s
  | some root => (scanR f tr.height root s).1

/-- The items stored in a subtree, in scan/traversal order. -/
def scanList : ℕ → Rect → List (Box × ℕ)
  | 0, r => r.children.map (fun c => (c.box, c.dataD))
  | h + 1, r => r.children.flatMap (scanList h)

/-- All items stored in the tree, in scan order. -/
def RTree.scanAll (tr : RTree) : List (Box × ℕ) :=
  match tr.root with
  | none => []
  | some r => scanList tr.height r

/-- The items `Search` would visit under a never-stopping visitor, in
visit order: the scan order restricted to subtrees and items whose boxes
intersect the target. -/
def searchList (target : Box) : ℕ → Rect → List (Box × ℕ)
  | 0, r =>
    (r.children.filter (fun c => target.intersectsB c.box)).map
      (fun c => (c.box, c.dataD))
  | h + 1, r =>
    (r.children.filter (fun c => target.intersectsB c.box)).flatMap
      (searchList target h)

/-- All items `Search` visits under a never-stopping visitor. -/
def RTree.searchAll (tr : RTree) (min max : Pt) : List (Box × ℕ) :=
  match tr.root with
  | none => []
  | some root =>
    if (⟨min, max⟩ : Box).intersectsB root.box then
      searchList ⟨min, max⟩ tr.height root
    else []

/-- Run a stateful visitor over a list of items, stopping at the first
`false`. -/
def runVisits {σ : Type _} (f : σ → Box → ℕ → σ × Bool) :
    List (Box × ℕ) → σ → σ × Bool
  | [], s => (s, true)
  | e :: rest, s =>
    let (s1, cont) := f s e.1 e.2
    if cont then runVisits f rest s1 else (s1, false)

/-- A public operation on the tree. -/
inductive Op where
  | ins (min max : Pt) (data : ℕ)
  | del (min max : Pt) (data : ℕ)
  | rep (omin omax : Pt) (odata : ℕ) (nmin nmax : Pt) (ndata : ℕ)

def applyOp (tr : RTree) : Op → RTree
  | .ins mn mx d => tr.Insert mn mx d
  | .del mn mx d => tr.Delete mn mx d
  | .rep omn omx od nmn nmx nd => tr.Replace omn omx od nmn nmx nd

/-- The tree reached from the empty tree by a sequence of public
operations. -/
def run (ops : List Op) : RTree := ops.foldl applyOp RTree.empty

/-! ## The kNN engine (part_001): priority queue

The Go `queue` is a slice of `qnode` managed as a binary min-heap keyed
by `dist` (part_001 lines 164-211).  The backing slice is modeled as a
list indexed with `getD`. -/

/-- `qnode` (part_001 lines 166-169). -/
structure Qnode where
  dist : ℚ
  child : Rect

instance : Inhabited Qnode := ⟨⟨0, default⟩⟩

/-- Element at index `i` of the backing array. -/
def qget (q : List Qnode) (i : ℕ) : Qnode := q.getD i default

/-- The parallel-assignment swap `nodes[a], nodes[b] = nodes[b], nodes[a]`. -/
def swapL (q : List Qnode) (i j : ℕ) : List Qnode :=
  (q.set i (qget q j)).set j (qget q i)

/-- The sift-up loop of `queue.push` (part_001 lines 176-180): while not
at the root and the parent is strictly larger, swap with the parent. -/
def siftUp (q : List Qnode) (i : ℕ) : List Qnode :=
  if h : i = 0 then q
  else
    if (qget q ((i - 1) / 2)).dist > (qget q i).dist then
      siftUp (swapL q ((i - 1) / 2) i) ((i - 1) / 2)
    else q
  termination_by i
  decreasing_by omega

/-- `queue.push` (part_001 lines 173-181): append, then sift up from the
last position. -/
def qpush (q : List Qnode) (n : Qnode) : List Qnode :=
  siftUp (q ++ [n]) q.length

theorem swapL_length (q : List Qnode) (i j : ℕ) :
    (swapL q i j).length = q.length := by
  simp [swapL]

/-- The sift-down loop of `queue.pop` (part_001 lines 193-209): pick the
smaller-or-equal child (left checked first, then right against the
current candidate) and swap while a child wins. -/
def downTarget (q : List Qnode) (i : ℕ) : ℕ :=
  let left := i * 2 + 1
  let right := i * 2 + 2
  let s1 := if left < q.length ∧ (qget q left).dist ≤ (qget q i).dist then left else i
  if right < q.length ∧ (qget q right).dist ≤ (qget q s1).dist then right else s1

theorem downTarget_bounds (q : List Qnode) (i : ℕ) :
    downTarget q i = i ∨ (i < downTarget q i ∧ downTarget q i < q.length) := by
  unfold downTarget
  dsimp only
  split_ifs <;> omega

def siftDown (q : List Qnode) (i : ℕ) : List Qnode :=
  if hs : downTarget q i = i then q
  else siftDown (swapL q i (downTarget q i)) (downTarget q i)
  termination_by q.length - i
  decreasing_by
    rcases downTarget_bounds q i with h | h
    · exact absurd h hs
    · simp only [swapL_length]
      omega

/-- `queue.pop` (part_001 lines 183-211): take the root, move the last
element to the root, shrink, and sift down. -/
def qpop (q : List Qnode) : Option (Qnode × List Qnode) :=
  match q with
  | [] => none
  | _ :: _ =>
    let n := qget q 0
    let q1 := (q.set 0 (qget q (q.length - 1))).dropLast
    some (n, siftDown q1 0)

/-! Structural views of a subtree, used to state and prove the `Nearby`
properties: the expansion performed by `Nearby` is driven by the tree
structure (via `Children`), not by a height counter. -/

/-- Number of rects in a subtree. -/
def Rect.size : Rect → ℕ
  | .item _ _ => 1
  | .node _ cs => 1 + (cs.attach.map (fun c => Rect.size c.1)).sum
  decreasing_by
    have := List.sizeOf_lt_of_mem c.2
    simp only [Rect.node.sizeOf_spec]
    omega

/-- The leaf item rects of a subtree, left to right (a single item for
an item rect). -/
def itemRects : Rect → List Rect
  | .item b d => [.item b d]
  | .node _ cs => cs.attach.flatMap (fun c => itemRects c.1)
  decreasing_by
    have := List.sizeOf_lt_of_mem c.2
    simp only [Rect.node.sizeOf_spec]
    omega

/-- All node rects of a subtree, the subtree root included. -/
def subnodesS : Rect → List Rect
  | .item _ _ => []
  | .node b cs => .node b cs :: cs.attach.flatMap (fun c => subnodesS c.1)
  decreasing_by
    have := List.sizeOf_lt_of_mem c.2
    simp only [Rect.node.sizeOf_spec]
    omega

/-- All nodes of a subtree paired with their height, driven by the
height counter like the storage-engine recursions. -/
def treeNodesH : ℕ → Rect → List (ℕ × Rect)
  | 0, r => [(0, r)]
  | h + 1, r => (h + 1, r) :: r.children.flatMap (treeNodesH h)

/-- All nodes of the tree paired with their height. -/
def RTree.nodesH (tr : RTree) : List (ℕ × Rect) :=
  match tr.root with
  | none => []
  | some r => treeNodesH tr.height r

/-- The non-root nodes of the tree. -/
def RTree.nonRootNodes (tr : RTree) : List (ℕ × Rect) :=
  match tr.root with
  | none => []
  | some r =>
    match tr.height with
    | 0 => []
    | h + 1 => r.children.flatMap (treeNodesH h)

/-! ## Heap verification: the `queue` is a binary min-heap -/

/-- The binary-heap ordering invariant on the backing array. -/
def heapInv (q : List Qnode) : Prop :=
  ∀ i, 0 < i → i < q.length → (qget q ((i - 1) / 2)).dist ≤ (qget q i).dist

theorem qget_lt {q : List Qnode} {i : ℕ} (h : i < q.length) : qget q i = q[i] :=
  List.getD_eq_getElem q default h

theorem qget_set_self {q : List Qnode} {i : ℕ} (x : Qnode) (h : i < q.length) :
    qget (q.set i x) i = x := by
  rw [qget_lt (by simpa using h)]
  simp [List.getElem_set_self]

theorem qget_set_ne (q : List Qnode) {i j : ℕ} (x : Qnode) (h : i ≠ j) :
    qget (q.set i x) j = qget q j := by
  simp [qget, List.getD, List.getElem?_set_ne h]

theorem qget_append_lt {q : List Qnode} {i : ℕ} (n : Qnode) (h : i < q.length) :
    qget (q ++ [n]) i = qget q i := by
  rw [qget_lt (by simp; omega), qget_lt h]
  exact List.getElem_append_left h

theorem qget_append_len (q : List Qnode) (n : Qnode) : qget (q ++ [n]) q.length = n := by
  rw [qget_lt (by simp)]
  simp

theorem swap_get_left {q : List Qnode} {i j : ℕ} (hi : i < q.length) :
    qget (swapL q i j) i = qget q j := by
  unfold swapL
  by_cases hij : j = i
  · subst hij
    rw [qget_set_self _ (by simpa using hi)]
  · rw [qget_set_ne _ _ hij, qget_set_self _ hi]

theorem swap_get_right {q : List Qnode} {i : ℕ} (j : ℕ) (hj : j < q.length) :
    qget (swapL q i j) j = qget q i := by
  unfold swapL
  rw [qget_set_self _ (by simpa using hj)]

theorem swap_get_other {q : List Qnode} {i j k : ℕ} (h1 : k ≠ i) (h2 : k ≠ j) :
    qget (swapL q i j) k = qget q k := by
  unfold swapL
  rw [qget_set_ne _ _ (Ne.symm h2), qget_set_ne _ _ (Ne.symm h1)]

theorem get_cons_set_perm :
    ∀ (t : List Qnode) (k : ℕ) (a : Qnode), k < t.length →
      (qget t k :: t.set k a).Perm (a :: t)
  | b :: u, 0, a, _ => by
    simpa [qget] using List.Perm.swap a b u
  | b :: u, k + 1, a, h => by
    have ih := get_cons_set_perm u k a (by simpa using h)
    have e1 : qget (b :: u) (k + 1) = qget u k := by simp [qget]
    have e2 : (b :: u).set (k + 1) a = b :: u.set k a := rfl
    rw [e1, e2]
    exact ((List.Perm.swap b (qget u k) _).trans ((ih.cons b).trans
      (List.Perm.swap a b u))).symm.symm

theorem set_self_eq : ∀ (q : List Qnode) {i : ℕ}, i < q.length → q.set i (qget q i) = q
  | _ :: _, 0, _ => by simp [qget]
  | a :: t, i + 1, h => by
    rw [show qget (a :: t) (i + 1) = qget t i from by simp [qget]]
    show a :: t.set i (qget t i) = a :: t
    rw [set_self_eq t (by simpa using h)]

theorem swapL_perm {q : List Qnode} {i j : ℕ} (hi : i < q.length) (hj : j < q.length) :
    (swapL q i j).Perm q := by
  by_cases hij : i = j
  · subst hij
    unfold swapL
    rw [set_self_eq q hi, set_self_eq q hi]
  · have h1 := get_cons_set_perm q i (qget q j) hi
    have h2 := get_cons_set_perm (q.set i (qget q j)) j (qget q i) (by simpa using hj)
    rw [qget_set_ne _ _ hij] at h2
    have h3 : (qget q j :: swapL q i j).Perm (qget q j :: q) := by
      unfold swapL
      exact h2.trans h1
    exact h3.cons_inv

theorem heapInv_root_min {q : List Qnode} (hq : heapInv q) :
    ∀ i, i < q.length → (qget q 0).dist ≤ (qget q i).dist := by
  intro i
  induction i using Nat.strong_induction_on with
  | _ i ih =>
    intro hi
    rcases Nat.eq_zero_or_pos i with h0 | hpos
    · subst h0
      exact le_refl _
    · exact le_trans (ih ((i - 1) / 2) (by omega) (by omega)) (hq i hpos hi)

/-- Heap invariant except possibly at the edge into position `i`, with
the grand-link property for the children of `i`. -/
def upInv (q : List Qnode) (i : ℕ) : Prop :=
  (∀ j, 0 < j → j < q.length → j ≠ i →
    (qget q ((j - 1) / 2)).dist ≤ (qget q j).dist) ∧
  (∀ j, 0 < j → j < q.length → (j - 1) / 2 = i → 0 < i →
    (qget q ((i - 1) / 2)).dist ≤ (qget q j).dist)

theorem upInv_swap_step {q : List Qnode} {i : ℕ} (hi : i < q.length) (hi0 : i ≠ 0)
    (hup : upInv q i)
    (hgt : (qget q ((i - 1) / 2)).dist > (qget q i).dist) :
    upInv (swapL q ((i - 1) / 2) i) ((i - 1) / 2) := by
  obtain ⟨h1, h2⟩ := hup
  have hpi : (i - 1) / 2 < i := by omega
  have hplen : (i - 1) / 2 < q.length := lt_trans hpi hi
  constructor
  · intro j hj0 hjlen hjp
    rw [swapL_length] at hjlen
    by_cases hji : j = i
    · rw [hji, swap_get_left hplen, swap_get_right _ hi]
      exact le_of_lt hgt
    · by_cases hpj : (j - 1) / 2 = i
      · rw [hpj, swap_get_other (by omega) hji, swap_get_right _ hi]
        exact h2 j hj0 hjlen hpj (by omega)
      · by_cases hpp : (j - 1) / 2 = (i - 1) / 2
        · rw [hpp, swap_get_other (by omega) hji, swap_get_left hplen]
          exact le_trans (le_of_lt hgt) (by rw [← hpp]; exact h1 j hj0 hjlen hji)
        · rw [swap_get_other hpp hpj, swap_get_other hjp hji]
          exact h1 j hj0 hjlen hji
  · intro j hj0 hjlen hpj hp0
    rw [swapL_length] at hjlen
    have hgp1 : ((i - 1) / 2 - 1) / 2 ≠ (i - 1) / 2 := by omega
    have hgp2 : ((i - 1) / 2 - 1) / 2 ≠ i := by omega
    rw [swap_get_other hgp1 hgp2]
    have hjgt : (i - 1) / 2 < j := by omega
    by_cases hji : j = i
    · rw [hji, swap_get_right _ hi]
      exact h1 ((i - 1) / 2) hp0 hplen (by omega)
    · rw [swap_get_other (by omega) hji]
      exact le_trans (h1 ((i - 1) / 2) hp0 hplen (by omega))
        (by rw [← hpj]; exact h1 j hj0 hjlen hji)

theorem upInv_push {q : List Qnode} (n : Qnode) (hq : heapInv q) :
    upInv (q ++ [n]) q.length := by
  constructor
  · intro j hj0 hjlen hjne
    have hjq : j < q.length := by
      simp only [List.length_append, List.length_cons, List.length_nil] at hjlen
      omega
    rw [qget_append_lt _ hjq, qget_append_lt _ (by omega)]
    exact hq j hj0 hjq
  · intro j hj0 hjlen hpj hp0
    simp only [List.length_append, List.length_cons, List.length_nil] at hjlen
    omega

theorem siftUp_perm : ∀ (i : ℕ) (q : List Qnode), i < q.length → (siftUp q i).Perm q := by
  intro i
  induction i using Nat.strong_induction_on with
  | _ i ih =>
    intro q hi
    rw [siftUp]
    split
    · exact List.Perm.refl q
    · split
      · rename_i hi0 _
        have hplen : (i - 1) / 2 < q.length := by omega
        exact (ih ((i - 1) / 2) (by omega) _ (by rw [swapL_length]; omega)).trans
          (swapL_perm hplen hi)
      · exact List.Perm.refl q

theorem siftUp_heapInv : ∀ (i : ℕ) (q : List Qnode), i < q.length → upInv q i →
    heapInv (siftUp q i) := by
  intro i
  induction i using Nat.strong_induction_on with
  | _ i ih =>
    intro q hi hup
    rw [siftUp]
    split
    · rename_i hi0
      subst hi0
      intro j hj0 hjlen
      exact hup.1 j hj0 hjlen (by omega)
    · split
      · rename_i hi0 hgt
        exact ih ((i - 1) / 2) (by omega) _ (by rw [swapL_length]; omega)
          (upInv_swap_step hi hi0 hup hgt)
      · rename_i hi0 hle
        intro j hj0 hjlen
        by_cases hji : j = i
        · subst hji
          exact le_of_not_lt hle
        · exact hup.1 j hj0 hjlen hji

theorem qpush_perm (q : List Qnode) (n : Qnode) : (qpush q n).Perm (n :: q) := by
  unfold qpush
  exact (siftUp_perm q.length (q ++ [n]) (by simp)).trans (List.perm_append_singleton n q)

theorem qpush_heapInv {q : List Qnode} (n : Qnode) (hq : heapInv q) :
    heapInv (qpush q n) :=
  siftUp_heapInv q.length (q ++ [n]) (by simp) (upInv_push n hq)

/-- Heap invariant except possibly on the edges out of position `i`,
with the grand-link property for the children of `i`. -/
def downInv (q : List Qnode) (i : ℕ) : Prop :=
  (∀ j, 0 < j → j < q.length → (j - 1) / 2 ≠ i →
    (qget q ((j - 1) / 2)).dist ≤ (qget q j).dist) ∧
  (∀ j, 0 < j → j < q.length → (j - 1) / 2 = i → 0 < i →
    (qget q ((i - 1) / 2)).dist ≤ (qget q j).dist)

theorem downTarget_eq_spec {q : List Qnode} {i : ℕ} (h : downTarget q i = i) :
    ∀ j, ((j - 1) / 2 = i ∧ 0 < j) → j < q.length →
      (qget q i).dist < (qget q j).dist := by
  intro j hj hjlen
  have hj2 : j = i * 2 + 1 ∨ j = i * 2 + 2 := by omega
  unfold downTarget at h
  dsimp only at h
  split_ifs at h with h1 h2 h2 <;>
    [skip; skip; skip; skip] <;>
    first
    | omega
    | (push_neg at h1 h2
       rcases hj2 with hj2 | hj2 <;> subst hj2 <;>
         first
         | exact lt_of_not_le (by intro hle; omega)
         | (first
            | exact lt_of_not_le (fun hle => absurd (h1 hjlen) (not_lt_of_le hle))
            | exact lt_of_not_le (fun hle => absurd (h2 hjlen) (not_lt_of_le hle))))

theorem downTarget_ne_spec {q : List Qnode} {i : ℕ} (h : downTarget q i ≠ i) :
    (downTarget q i = i * 2 + 1 ∨ downTarget q i = i * 2 + 2) ∧
      downTarget q i < q.length ∧
      (qget q (downTarget q i)).dist ≤ (qget q i).dist ∧
      ∀ j, (j = i * 2 + 1 ∨ j = i * 2 + 2) → j < q.length →
        (qget q (downTarget q i)).dist ≤ (qget q j).dist := by
  unfold downTarget at h ⊢
  dsimp only at h ⊢
  split_ifs at h ⊢ with h1 h2 h2
  · refine ⟨Or.inr rfl, h2.1, le_trans h2.2 h1.2, ?_⟩
    intro j hj hjlen
    rcases hj with hj | hj <;> subst hj
    · exact h2.2
    · exact le_refl _
  · refine ⟨Or.inl rfl, h1.1, h1.2, ?_⟩
    intro j hj hjlen
    rcases hj with hj | hj <;> subst hj
    · exact le_refl _
    · push_neg at h2
      exact le_of_lt (h2 hjlen)
  · refine ⟨Or.inr rfl, h2.1, h2.2, ?_⟩
    intro j hj hjlen
    rcases hj with hj | hj <;> subst hj
    · push_neg at h1
      exact le_trans h2.2 (le_of_lt (h1 hjlen))
    · exact le_refl _
  · omega

theorem downInv_swap_step {q : List Qnode} {i : ℕ} (hne : downTarget q i ≠ i)
    (hdown : downInv q i) :
    downInv (swapL q i (downTarget q i)) (downTarget q i) := by
  obtain ⟨hchild, hslen, hsle, hsch⟩ := downTarget_ne_spec hne
  have his : i < downTarget q i := by omega
  have hilen : i < q.length := lt_trans his hslen
  have hps : (downTarget q i - 1) / 2 = i := by omega
  obtain ⟨h1, h2⟩ := hdown
  constructor
  · intro j hj0 hjlen hjp
    rw [swapL_length] at hjlen
    by_cases hjs : j = downTarget q i
    · rw [hjs, hps, swap_get_left hilen, swap_get_right _ hslen]
      exact hsle
    · by_cases hji : j = i
      · have hpi : (i - 1) / 2 ≠ i := by omega
        have hpis : (i - 1) / 2 ≠ downTarget q i := by omega
        rw [hji, swap_get_other hpi hpis, swap_get_left hilen]
        exact h2 (downTarget q i) (by omega) hslen hps (by omega)
      · by_cases hpj : (j - 1) / 2 = i
        · rw [hpj, swap_get_left hilen, swap_get_other hji hjs]
          exact hsch j (by omega) hjlen
        · rw [swap_get_other hpj hjp, swap_get_other hji hjs]
          exact h1 j hj0 hjlen hpj
  · intro j hj0 hjlen hpj hs0
    rw [swapL_length] at hjlen
    rw [hps, swap_get_left hilen]
    have hjgt : downTarget q i < j := by omega
    rw [swap_get_other (by omega) (by omega)]
    have := h1 j hj0 hjlen (by omega)
    rw [hpj] at this
    exact le_trans (le_of_eq rfl) this

theorem downInv_terminal {q : List Qnode} {i : ℕ} (heq : downTarget q i = i)
    (hdown : downInv q i) : heapInv q := by
  intro j hj0 hjlen
  by_cases hpj : (j - 1) / 2 = i
  · rw [hpj]
    exact le_of_lt (downTarget_eq_spec heq j ⟨hpj, hj0⟩ hjlen)
  · exact hdown.1 j hj0 hjlen hpj

theorem siftDown_heapInv : ∀ (k : ℕ) (q : List Qnode) (i : ℕ), q.length - i ≤ k →
    downInv q i → heapInv (siftDown q i)
  | k, q, i, hk, hdown => by
    rw [siftDown]
    split
    · rename_i heq
      exact downInv_terminal heq hdown
    · rename_i hne
      obtain ⟨hchild, hslen, _, _⟩ := downTarget_ne_spec hne
      have his : i < downTarget q i := by omega
      have hk0 : 0 < k := by omega
      exact siftDown_heapInv (k - 1) _ _
        (by rw [swapL_length]; omega) (downInv_swap_step hne hdown)
  termination_by k => k

theorem siftDown_perm : ∀ (k : ℕ) (q : List Qnode) (i : ℕ), q.length - i ≤ k →
    (siftDown q i).Perm q
  | k, q, i, hk => by
    rw [siftDown]
    split
    · exact List.Perm.refl q
    · rename_i hne
      obtain ⟨hchild, hslen, _, _⟩ := downTarget_ne_spec hne
      have his : i < downTarget q i := by omega
      have hilen : i < q.length := lt_trans his hslen
      have hk0 : 0 < k := by omega
      exact (siftDown_perm (k - 1) _ _ (by rw [swapL_length]; omega)).trans
        (swapL_perm hilen hslen)
  termination_by k => k

theorem qget_dropLast {q : List Qnode} {j : ℕ} (h : j < q.length - 1) :
    qget q.dropLast j = qget q j := by
  rw [qget_lt (by simp; omega), qget_lt (by omega)]
  exact List.getElem_dropLast q j (by simp; omega)

theorem qpop_none_iff (q : List Qnode) : qpop q = none ↔ q = [] := by
  cases q <;> simp [qpop]

theorem qpop_some {q : List Qnode} {n : Qnode} {q2 : List Qnode}
    (h : qpop q = some (n, q2)) :
    q ≠ [] ∧ n = qget q 0 ∧
      q2 = siftDown ((q.set 0 (qget q (q.length - 1))).dropLast) 0 := by
  cases q with
  | nil => simp [qpop] at h
  | cons a t =>
    simp only [qpop, Option.some.injEq, Prod.mk.injEq] at h
    exact ⟨by simp, h.1.symm, h.2.symm⟩

theorem qpop_perm {q : List Qnode} {n : Qnode} {q2 : List Qnode}
    (h : qpop q = some (n, q2)) : q.Perm (n :: q2) := by
  obtain ⟨hne, hn, hq2⟩ := qpop_some h
  subst hn hq2
  cases q with
  | nil => exact absurd rfl hne
  | cons a t =>
    have hperm := siftDown_perm
      (((a :: t).set 0 (qget (a :: t) ((a :: t).length - 1))).dropLast.length)
      (((a :: t).set 0 (qget (a :: t) ((a :: t).length - 1))).dropLast) 0 (by omega)
    rcases List.eq_nil_or_concat t with ht | ⟨mid, z, ht⟩
    · subst ht
      simp only [qget, List.getD] at hperm ⊢
      simpa using hperm.cons a
    · rw [List.concat_eq_append] at ht
      subst ht
      have hget : qget (a :: (mid ++ [z])) ((a :: (mid ++ [z])).length - 1) = z := by
        rw [qget_lt (by simp)]
        simp only [List.length_cons, List.length_append, List.length_cons,
          List.length_nil]
        rw [show getElem (a :: (mid ++ [z])) (mid.length + 1 + 1 - 1) (by simp) =
          getElem (mid ++ [z]) mid.length (by simp) from by simp]
        simp
      have e1 : ((a :: (mid ++ [z])).set 0
          (qget (a :: (mid ++ [z])) ((a :: (mid ++ [z])).length - 1))).dropLast =
          z :: mid := by
        rw [hget]
        show (z :: (mid ++ [z])).dropLast = z :: mid
        rw [List.dropLast_cons_of_ne_nil (by simp)]
        simp
      have hperm2 := siftDown_perm (z :: mid).length (z :: mid) 0 (by omega)
      have key : (siftDown ((a :: (mid ++ [z])).set 0
          (qget (a :: (mid ++ [z])) ((a :: (mid ++ [z])).length - 1))).dropLast
            0).Perm (z :: mid) := by
        rw [e1]
        exact hperm2
      show (a :: (mid ++ [z])).Perm (qget (a :: (mid ++ [z])) 0 ::
        siftDown ((a :: (mid ++ [z])).set 0
          (qget (a :: (mid ++ [z])) ((a :: (mid ++ [z])).length - 1))).dropLast 0)
      have ha : qget (a :: (mid ++ [z])) 0 = a := rfl
      rw [ha]
      exact ((List.perm_append_singleton z mid).cons a).trans (key.symm.cons a)

theorem qpop_heapInv {q : List Qnode} {n : Qnode} {q2 : List Qnode}
    (hq : heapInv q) (h : qpop q = some (n, q2)) : heapInv q2 := by
  obtain ⟨hne, hn, hq2⟩ := qpop_some h
  subst hq2
  refine siftDown_heapInv _ _ 0 (le_refl _) ?_
  constructor
  · intro j hj0 hjlen hjp
    have hjlen2 : j < q.length - 1 := by
      simp only [List.length_dropLast, List.length_set] at hjlen
      omega
    rw [qget_dropLast (show (j - 1) / 2 < (q.set 0 (qget q (q.length - 1))).length - 1 by
        simp only [List.length_set]; omega),
      qget_dropLast (show j < (q.set 0 (qget q (q.length - 1))).length - 1 by
        simp only [List.length_set]; omega)]
    rw [qget_set_ne _ _ (show (0 : ℕ) ≠ (j - 1) / 2 by omega),
      qget_set_ne _ _ (show (0 : ℕ) ≠ j by omega)]
    exact hq j hj0 (by omega)
  · intro j hj0 hjlen hpj hp0
    exact absurd hp0 (lt_irrefl 0)

theorem qpop_min {q : List Qnode} {n : Qnode} {q2 : List Qnode}
    (hq : heapInv q) (h : qpop q = some (n, q2)) :
    ∀ m ∈ q2, n.dist ≤ m.dist := by
  obtain ⟨hne, hn, hq2⟩ := qpop_some h
  intro m hm
  have hmem : m ∈ q := by
    subst hq2
    have h1 : m ∈ (q.set 0 (qget q (q.length - 1))).dropLast :=
      (siftDown_perm _ _ 0 (le_refl _)).mem_iff.mp hm
    have h2 := List.mem_of_mem_dropLast h1
    rcases List.mem_or_eq_of_mem_set h2 with h3 | h3
    · exact h3
    · subst h3
      have hlen : 0 < q.length := List.length_pos.mpr hne
      rw [qget_lt (by omega : q.length - 1 < q.length)]
      exact List.getElem_mem _
  obtain ⟨i, hilt, hie⟩ := List.mem_iff_getElem.mp hmem
  subst hn
  rw [← qget_lt hilt] at hie
  rw [← hie]
  exact heapInv_root_min hq i hilt

theorem perm_flatMap {α β : Type _} {l1 l2 : List α} (f : α → List β)
    (h : l1.Perm l2) : (l1.flatMap f).Perm (l2.flatMap f) := by
  induction h with
  | nil => exact List.Perm.refl _
  | cons a _ ih => simpa only [List.flatMap_cons] using ih.append_left (f a)
  | swap a b l =>
    simp only [List.flatMap_cons]
    rw [← List.append_assoc, ← List.append_assoc]
    exact (List.perm_append_comm.append_right _)
  | trans _ _ ih1 ih2 => exact ih1.trans ih2

theorem size_node (nb : Box) (cs : List Rect) :
    (Rect.node nb cs).size = 1 + (cs.map Rect.size).sum := by
  rw [Rect.size]
  simp

theorem itemRects_node (nb : Box) (cs : List Rect) :
    itemRects (.node nb cs) = cs.flatMap itemRects := by
  rw [itemRects]
  simp

theorem subnodesS_node (nb : Box) (cs : List Rect) :
    subnodesS (.node nb cs) = .node nb cs :: cs.flatMap subnodesS := by
  rw [subnodesS]
  simp

theorem size_pos : ∀ r : Rect, 0 < r.size
  | .item _ _ => by rw [Rect.size]; omega
  | .node nb cs => by rw [size_node]; omega

/-- The monotonicity precondition of `Nearby`, specialized to a subtree:
the value of `algo` on every node of the subtree is at most its value on
every leaf item below that node. -/
def monOn (algo : Rect → ℚ) (r : Rect) : Prop :=
  ∀ nd ∈ subnodesS r, ∀ it ∈ itemRects nd, algo nd ≤ algo it

theorem monOn_self {algo : Rect → ℚ} {r : Rect} (h : monOn algo r) :
    ∀ it ∈ itemRects r, algo r ≤ algo it := by
  intro it hit
  cases r with
  | item b d =>
    rw [itemRects] at hit
    simp at hit
    subst hit
    exact le_refl _
  | node nb cs =>
    exact h _ (by rw [subnodesS_node]; exact List.mem_cons_self _ _) it hit

theorem monOn_child {algo : Rect → ℚ} {nb : Box} {cs : List Rect}
    (h : monOn algo (.node nb cs)) {c : Rect} (hc : c ∈ cs) : monOn algo c := by
  intro nd hnd it hit
  refine h nd ?_ it hit
  rw [subnodesS_node]
  exact List.mem_cons_of_mem _ (List.mem_flatMap.mpr ⟨c, hc, hnd⟩)

/-- Total size of the subtrees held in the queue: the termination
measure of the `Nearby` loop. -/
def qsize (q : List Qnode) : ℕ := (q.map (fun n => n.child.size)).sum

theorem qsize_perm {q q2 : List Qnode} (h : q.Perm q2) : qsize q = qsize q2 :=
  (h.map _).sum_eq

/-- The push loop of `Nearby` (part_001 lines 128-133): push every
child of the expanded parent with its `algo` distance. -/
def qpushChildren (algo : Rect → ℚ) (q : List Qnode) (cs : List Rect) : List Qnode :=
  cs.foldl (fun acc c => qpush acc ⟨algo c, c⟩) q

theorem qpushChildren_perm (algo : Rect → ℚ) :
    ∀ (cs : List Rect) (q : List Qnode),
      (qpushChildren algo q cs).Perm ((cs.map (fun c => ⟨algo c, c⟩)) ++ q)
  | [], q => by simp [qpushChildren]
  | c :: cs, q => by
    have ih := qpushChildren_perm algo cs (qpush q ⟨algo c, c⟩)
    refine ih.trans ?_
    have h2 : ((qpush q ⟨algo c, c⟩) : List Qnode).Perm (⟨algo c, c⟩ :: q) :=
      qpush_perm q _
    refine (h2.append_left _).trans ?_
    simp only [List.map_cons]
    exact List.perm_middle

theorem qpushChildren_heapInv (algo : Rect → ℚ) :
    ∀ (cs : List Rect) (q : List Qnode), heapInv q →
      heapInv (qpushChildren algo q cs)
  | [], _, hq => hq
  | c :: cs, q, hq =>
    qpushChildren_heapInv algo cs _ (qpush_heapInv _ hq)

theorem qsize_qpushChildren (algo : Rect → ℚ) (cs : List Rect) (q : List Qnode) :
    qsize (qpushChildren algo q cs) = qsize q + (cs.map Rect.size).sum := by
  have h := qsize_perm (qpushChildren_perm algo cs q)
  rw [h]
  unfold qsize
  rw [List.map_append, List.sum_append, List.map_map]
  have h2 : ((fun n : Qnode => n.child.size) ∘ fun c => Qnode.mk (algo c) c) =
    Rect.size := rfl
  rw [h2, Nat.add_comm]

theorem qpop_qsize {q : List Qnode} {n : Qnode} {q2 : List Qnode}
    (h : qpop q = some (n, q2)) : qsize q = n.child.size + qsize q2 :=
  qsize_perm (qpop_perm h)

/-- `Index.Nearby` (part_001 lines 117-152): the interleaved
gather/pop loop.  Popping an item invokes `iter` (recording the
invocation) and stops when `iter` returns false; popping a node pushes
that node's children and continues; an empty queue ends the traversal.
The returned list is the sequence of `iter` invocations. -/
def nearbyLoop {σ : Type _} (algo : Rect → ℚ) (iter : σ → Box → ℕ → ℚ → σ × Bool)
    (q : List Qnode) (s : σ) : List (Box × ℕ × ℚ) :=
  match hpop : qpop q with
  | none => []
  | some (n, q2) =>
    match hchild : n.child with
    | .item b d =>
      (b, d, n.dist) ::
        (if (iter s b d n.dist).2 then nearbyLoop algo iter q2 (iter s b d n.dist).1
         else [])
    | .node nb cs => nearbyLoop algo iter (qpushChildren algo q2 cs) s
  termination_by qsize q
  decreasing_by
    · have := qpop_qsize hpop
      have := size_pos n.child
      omega
    · have h1 := qpop_qsize hpop
      rw [qsize_qpushChildren]
      rw [hchild, size_node] at h1
      omega

theorem nearbyLoop_pop_none {σ : Type _} (algo : Rect → ℚ)
    (iter : σ → Box → ℕ → ℚ → σ × Bool) (q : List Qnode) (s : σ)
    (h : qpop q = none) : nearbyLoop algo iter q s = [] := by
  rw [nearbyLoop]
  split
  · rfl
  · rename_i heq
    rw [h] at heq
    cases heq

theorem nearbyLoop_pop_item {σ : Type _} (algo : Rect → ℚ)
    (iter : σ → Box → ℕ → ℚ → σ × Bool) {q : List Qnode} (s : σ)
    {n : Qnode} {q2 : List Qnode} {b : Box} {d : ℕ}
    (h : qpop q = some (n, q2)) (hc : n.child = .item b d) :
    nearbyLoop algo iter q s =
      (b, d, n.dist) ::
        (if (iter s b d n.dist).2 then nearbyLoop algo iter q2 (iter s b d n.dist).1
         else []) := by
  rw [nearbyLoop]
  split
  · rename_i heq
    rw [h] at heq
    cases heq
  · rename_i n2 q22 heq
    rw [h] at heq
    cases heq
    split
    · rename_i b2 d2 hc2
      rw [hc] at hc2
      cases hc2
      rfl
    · rename_i nb2 cs2 hc2
      rw [hc] at hc2
      cases hc2

theorem nearbyLoop_pop_node {σ : Type _} (algo : Rect → ℚ)
    (iter : σ → Box → ℕ → ℚ → σ × Bool) {q : List Qnode} (s : σ)
    {n : Qnode} {q2 : List Qnode} {nb : Box} {cs : List Rect}
    (h : qpop q = some (n, q2)) (hc : n.child = .node nb cs) :
    nearbyLoop algo iter q s = nearbyLoop algo iter (qpushChildren algo q2 cs) s := by
  rw [nearbyLoop]
  split
  · rename_i heq
    rw [h] at heq
    cases heq
  · rename_i n2 q22 heq
    rw [h] at heq
    cases heq
    split
    · rename_i b2 d2 hc2
      rw [hc] at hc2
      cases hc2
    · rename_i nb2 cs2 hc2
      rw [hc] at hc2
      cases hc2
      rfl

/-- `Index.Nearby` at the tree level: the root is gathered via
`Children(nil)` (the root entry when the tree is non-empty) and pushed,
then the loop runs. -/
def RTree.NearbyRun {σ : Type _} (tr : RTree) (algo : Rect → ℚ)
    (iter : σ → Box → ℕ → ℚ → σ × Bool) (s : σ) : List (Box × ℕ × ℚ) :=
  match tr.root with
  | none => []
  | some root => nearbyLoop algo iter (qpush [] ⟨algo root, root⟩) s

/-- Items stored under the queue's frontier. -/
def qItems (q : List Qnode) : List Rect := q.flatMap (fun m => itemRects m.child)

theorem qsize_zero_nil {q : List Qnode} (hk : qsize q = 0) : q = [] := by
  cases q with
  | nil => rfl
  | cons a t =>
    exfalso
    have := size_pos a.child
    simp [qsize] at hk
    omega

/-- Master lemma for the `Nearby` loop: with a heap holding correct
`algo` distances over monotone subtrees whose items all lie at or above
`lo`, the emitted distance sequence chains upward from `lo`, and with a
never-stopping iterator the emitted (box, data) pairs are exactly the
items of the queue's subtrees. -/
theorem nearbyLoop_spec {σ : Type _} (algo : Rect → ℚ)
    (iter : σ → Box → ℕ → ℚ → σ × Bool) :
    ∀ (k : ℕ) (q : List Qnode) (s : σ) (lo : ℚ), qsize q ≤ k →
      heapInv q →
      (∀ m ∈ q, m.dist = algo m.child) →
      (∀ m ∈ q, monOn algo m.child) →
      (∀ m ∈ q, ∀ it ∈ itemRects m.child, lo ≤ algo it) →
      List.Chain (· ≤ ·) lo ((nearbyLoop algo iter q s).map (fun e => e.2.2)) ∧
      ((∀ s2 b d dist, (iter s2 b d dist).2 = true) →
        ((nearbyLoop algo iter q s).map (fun e => (e.1, e.2.1))).Perm
          ((qItems q).map (fun r => (r.box, r.dataD)))) := by
  intro k
  induction k with
  | zero =>
    intro q s lo hk hq hdist hmon hlo
    have hqnil := qsize_zero_nil (Nat.le_zero.mp hk)
    subst hqnil
    rw [nearbyLoop_pop_none _ _ _ _ (by rw [qpop_none_iff])]
    exact ⟨List.Chain.nil, fun _ => by simp [qItems]⟩
  | succ k ih =>
    intro q s lo hk hq hdist hmon hlo
    cases hpop : qpop q with
    | none =>
      have hqnil := (qpop_none_iff q).mp hpop
      subst hqnil
      rw [nearbyLoop_pop_none _ _ _ _ hpop]
      exact ⟨List.Chain.nil, fun _ => by simp [qItems]⟩
    | some p =>
      obtain ⟨n, q2⟩ := p
      have hperm := qpop_perm hpop
      have hnq : n ∈ q := hperm.mem_iff.mpr (List.mem_cons_self _ _)
      have hndist : n.dist = algo n.child := hdist n hnq
      have hnmon : monOn algo n.child := hmon n hnq
      have hq2inv : heapInv q2 := qpop_heapInv hq hpop
      have hq2mem : ∀ m ∈ q2, m ∈ q := fun m hm =>
        hperm.mem_iff.mpr (List.mem_cons_of_mem _ hm)
      have hmin := qpop_min hq hpop
      have hqI : (qItems q).Perm (itemRects n.child ++ qItems q2) := by
        have h1 : (qItems q).Perm (qItems (n :: q2)) := perm_flatMap _ hperm
        simpa only [qItems, List.flatMap_cons] using h1
      cases hchild : n.child with
      | item b d =>
        rw [nearbyLoop_pop_item algo iter s hpop hchild]
        have hlon : lo ≤ n.dist := by
          have h1 : lo ≤ algo (.item b d) := by
            refine hlo n hnq (.item b d) ?_
            rw [hchild, itemRects]
            exact List.mem_singleton_self _
          rw [hndist, hchild]
          exact h1
        have hlo2 : ∀ m ∈ q2, ∀ it ∈ itemRects m.child, n.dist ≤ algo it := by
          intro m hm it hit
          have h1 : m.dist = algo m.child := hdist m (hq2mem m hm)
          have h2 := monOn_self (hmon m (hq2mem m hm)) it hit
          have h3 := hmin m hm
          rw [h1] at h3
          exact le_trans h3 h2
        have hksz : qsize q2 ≤ k := by
          have := qpop_qsize hpop
          have := size_pos n.child
          omega
        obtain ⟨ihchain, ihperm⟩ := ih q2 (iter s b d n.dist).1 n.dist hksz hq2inv
          (fun m hm => hdist m (hq2mem m hm)) (fun m hm => hmon m (hq2mem m hm)) hlo2
        constructor
        · by_cases hcont : (iter s b d n.dist).2 = true
          · rw [if_pos hcont]
            simp only [List.map_cons]
            exact List.Chain.cons hlon ihchain
          · rw [if_neg hcont]
            simp only [List.map_cons, List.map_nil]
            exact List.Chain.cons hlon List.Chain.nil
        · intro hiter
          rw [if_pos (hiter s b d n.dist)]
          simp only [List.map_cons]
          refine (List.Perm.cons _ (ihperm hiter)).trans ?_
          have hI2 : itemRects n.child = [Rect.item b d] := by
            rw [hchild, itemRects]
          rw [hI2] at hqI
          have : ((Rect.item b d :: qItems q2).map
              (fun r => (r.box, r.dataD))).Perm
              ((qItems q).map (fun r => (r.box, r.dataD))) := (hqI.map _).symm
          simpa [Rect.box, Rect.dataD] using this
      | node nb cs =>
        rw [nearbyLoop_pop_node algo iter s hpop hchild]
        have hq3perm := qpushChildren_perm algo cs q2
        have hksz : qsize (qpushChildren algo q2 cs) ≤ k := by
          have h1 := qpop_qsize hpop
          rw [hchild, size_node] at h1
          rw [qsize_qpushChildren]
          omega
        have hmem3 : ∀ m ∈ qpushChildren algo q2 cs,
            (∃ c ∈ cs, m = ⟨algo c, c⟩) ∨ m ∈ q2 := by
          intro m hm
          have := hq3perm.mem_iff.mp hm
          rcases List.mem_append.mp this with h1 | h1
          · obtain ⟨c, hc, hce⟩ := List.mem_map.mp h1
            exact Or.inl ⟨c, hc, hce.symm⟩
          · exact Or.inr h1
        have hdist3 : ∀ m ∈ qpushChildren algo q2 cs, m.dist = algo m.child := by
          intro m hm
          rcases hmem3 m hm with ⟨c, _, hce⟩ | h1
          · subst hce
            rfl
          · exact hdist m (hq2mem m h1)
        have hmon3 : ∀ m ∈ qpushChildren algo q2 cs, monOn algo m.child := by
          intro m hm
          rcases hmem3 m hm with ⟨c, hc, hce⟩ | h1
          · subst hce
            exact monOn_child (hchild ▸ hnmon) hc
          · exact hmon m (hq2mem m h1)
        have hlo3 : ∀ m ∈ qpushChildren algo q2 cs,
            ∀ it ∈ itemRects m.child, lo ≤ algo it := by
          intro m hm it hit
          rcases hmem3 m hm with ⟨c, hc, hce⟩ | h1
          · subst hce
            refine hlo n hnq it ?_
            rw [hchild, itemRects_node]
            exact List.mem_flatMap.mpr ⟨c, hc, hit⟩
          · exact hlo m (hq2mem m h1) it hit
        obtain ⟨ihchain, ihperm⟩ := ih (qpushChildren algo q2 cs) s lo hksz
          (qpushChildren_heapInv algo cs q2 hq2inv) hdist3 hmon3 hlo3
        refine ⟨ihchain, fun hiter => (ihperm hiter).trans ?_⟩
        have hq3I : (qItems (qpushChildren algo q2 cs)).Perm (qItems q) := by
          have h1 : (qItems (qpushChildren algo q2 cs)).Perm
              (qItems ((cs.map (fun c => ⟨algo c, c⟩)) ++ q2)) :=
            perm_flatMap _ hq3perm
          simp only [qItems, List.flatMap_append, List.flatMap_map] at h1
          have h2 : (cs.flatMap fun c =>
              itemRects ((⟨algo c, c⟩ : Qnode).child)) = cs.flatMap itemRects := rfl
          rw [h2] at h1
          refine h1.trans ?_
          have h3 : itemRects n.child = cs.flatMap itemRects := by
            rw [hchild, itemRects_node]
          rw [h3] at hqI
          exact (hqI.symm.trans (List.Perm.refl _))
        exact hq3I.map _

/-! ## Bounding-box toolkit: tight bounds and `recalc` -/

/-- `b` contains the box of every entry in `cs`. -/
def boundedBy (cs : List Rect) (b : Box) : Prop :=
  ∀ c ∈ cs, b.containsB c.box = true

/-- `b` is the tight minimal bounding box of the entry boxes in `cs`:
it bounds them and each of its four bounds is attained by some entry. -/
def tightFor (cs : List Rect) (b : Box) : Prop :=
  boundedBy cs b ∧
    (∃ c ∈ cs, c.box.min.1 = b.min.1) ∧ (∃ c ∈ cs, c.box.max.1 = b.max.1) ∧
    (∃ c ∈ cs, c.box.min.2 = b.min.2) ∧ (∃ c ∈ cs, c.box.max.2 = b.max.2)

theorem expand_min1 (r b : Box) : (r.expand b).min.1 = min r.min.1 b.min.1 := by
  unfold Box.expand
  rw [min_def]
  dsimp only
  split_ifs <;> linarith

theorem expand_min2 (r b : Box) : (r.expand b).min.2 = min r.min.2 b.min.2 := by
  unfold Box.expand
  rw [min_def]
  dsimp only
  split_ifs <;> linarith

theorem expand_max1 (r b : Box) : (r.expand b).max.1 = max r.max.1 b.max.1 := by
  unfold Box.expand
  rw [max_def]
  dsimp only
  split_ifs <;> linarith

theorem expand_max2 (r b : Box) : (r.expand b).max.2 = max r.max.2 b.max.2 := by
  unfold Box.expand
  rw [max_def]
  dsimp only
  split_ifs <;> linarith

theorem containsB_refl (b : Box) : b.containsB b = true := by
  rw [containsB_iff]
  exact ⟨le_refl _, le_refl _, le_refl _, le_refl _⟩

theorem containsB_trans {a b c : Box} (h1 : a.containsB b = true)
    (h2 : b.containsB c = true) : a.containsB c = true := by
  rw [containsB_iff] at *
  obtain ⟨x1, x2, x3, x4⟩ := h1
  obtain ⟨y1, y2, y3, y4⟩ := h2
  exact ⟨le_trans x1 y1, le_trans y2 x2, le_trans x3 y3, le_trans y4 x4⟩

theorem containsB_expand_left (r b : Box) : (r.expand b).containsB r = true := by
  rw [containsB_iff, expand_min1, expand_min2, expand_max1, expand_max2]
  exact ⟨min_le_left _ _, le_max_left _ _, min_le_left _ _, le_max_left _ _⟩

theorem containsB_expand_right (r b : Box) : (r.expand b).containsB b = true := by
  rw [containsB_iff, expand_min1, expand_min2, expand_max1, expand_max2]
  exact ⟨min_le_right _ _, le_max_right _ _, min_le_right _ _, le_max_right _ _⟩

theorem expand_of_contains {r b : Box} (h : r.containsB b = true) : r.expand b = r := by
  rw [containsB_iff] at h
  obtain ⟨h1, h2, h3, h4⟩ := h
  have e1 := expand_min1 r b
  have e2 := expand_min2 r b
  have e3 := expand_max1 r b
  have e4 := expand_max2 r b
  cases hr : r.expand b with
  | mk mn mx =>
    rw [hr] at e1 e2 e3 e4
    cases r with
    | mk rmn rmx =>
      simp only at e1 e2 e3 e4 ⊢
      congr 1
      · cases mn
        cases rmn
        simp only [Prod.mk.injEq] at e1 e2 ⊢
        constructor
        · rw [e1]; exact min_eq_left h1
        · rw [e2]; exact min_eq_left h3
      · cases mx
        cases rmx
        simp only [Prod.mk.injEq] at e3 e4 ⊢
        constructor
        · rw [e3]; exact max_eq_left h2
        · rw [e4]; exact max_eq_left h4

theorem expand_contains_mono {a b x : Box} (h : a.containsB b = true) :
    (a.expand x).containsB (b.expand x) = true := by
  rw [containsB_iff] at h ⊢
  obtain ⟨h1, h2, h3, h4⟩ := h
  rw [expand_min1, expand_min2, expand_max1, expand_max2,
    expand_min1, expand_min2, expand_max1, expand_max2]
  exact ⟨min_le_min h1 (le_refl _), max_le_max h2 (le_refl _),
    min_le_min h3 (le_refl _), max_le_max h4 (le_refl _)⟩

theorem boundedBy_expand {cs : List Rect} {b : Box} (hb : boundedBy cs b) (x : Box) :
    boundedBy cs (b.expand x) := fun c hc =>
  containsB_trans (containsB_expand_left b x) (hb c hc)

/-! `recalc` computes the tight bound: componentwise fold lemmas. -/

theorem foldl_expand_min1 : ∀ (cs : List Rect) (a : Box),
    (cs.foldl (fun b x => b.expand x.box) a).min.1 =
      cs.foldl (fun v x => min v x.box.min.1) a.min.1
  | [], _ => rfl
  | c :: cs, a => by
    rw [List.foldl_cons, List.foldl_cons, foldl_expand_min1 cs (a.expand c.box),
      expand_min1]

theorem foldl_expand_min2 : ∀ (cs : List Rect) (a : Box),
    (cs.foldl (fun b x => b.expand x.box) a).min.2 =
      cs.foldl (fun v x => min v x.box.min.2) a.min.2
  | [], _ => rfl
  | c :: cs, a => by
    rw [List.foldl_cons, List.foldl_cons, foldl_expand_min2 cs (a.expand c.box),
      expand_min2]

theorem foldl_expand_max1 : ∀ (cs : List Rect) (a : Box),
    (cs.foldl (fun b x => b.expand x.box) a).max.1 =
      cs.foldl (fun v x => max v x.box.max.1) a.max.1
  | [], _ => rfl
  | c :: cs, a => by
    rw [List.foldl_cons, List.foldl_cons, foldl_expand_max1 cs (a.expand c.box),
      expand_max1]

theorem foldl_expand_max2 : ∀ (cs : List Rect) (a : Box),
    (cs.foldl (fun b x => b.expand x.box) a).max.2 =
      cs.foldl (fun v x => max v x.box.max.2) a.max.2
  | [], _ => rfl
  | c :: cs, a => by
    rw [List.foldl_cons, List.foldl_cons, foldl_expand_max2 cs (a.expand c.box),
      expand_max2]

theorem foldl_minf_le (f : Rect → ℚ) : ∀ (cs : List Rect) (a : ℚ),
    cs.foldl (fun v x => min v (f x)) a ≤ a ∧
      ∀ c ∈ cs, cs.foldl (fun v x => min v (f x)) a ≤ f c
  | [], a => ⟨le_refl _, by simp⟩
  | c :: cs, a => by
    obtain ⟨h1, h2⟩ := foldl_minf_le f cs (min a (f c))
    refine ⟨le_trans h1 (min_le_left _ _), ?_⟩
    intro x hx
    rcases List.mem_cons.mp hx with hx | hx
    · subst hx
      exact le_trans h1 (min_le_right _ _)
    · exact h2 x hx

theorem foldl_minf_mem (f : Rect → ℚ) : ∀ (cs : List Rect) (a : ℚ),
    cs.foldl (fun v x => min v (f x)) a = a ∨
      ∃ c ∈ cs, cs.foldl (fun v x => min v (f x)) a = f c
  | [], a => Or.inl rfl
  | c :: cs, a => by
    rcases foldl_minf_mem f cs (min a (f c)) with h | ⟨x, hx, he⟩
    · rw [List.foldl_cons, h, min_def]
      split_ifs with hle
      · exact Or.inl rfl
      · exact Or.inr ⟨c, List.mem_cons_self _ _, rfl⟩
    · exact Or.inr ⟨x, List.mem_cons_of_mem _ hx, he⟩

theorem foldl_maxf_ge (f : Rect → ℚ) : ∀ (cs : List Rect) (a : ℚ),
    a ≤ cs.foldl (fun v x => max v (f x)) a ∧
      ∀ c ∈ cs, f c ≤ cs.foldl (fun v x => max v (f x)) a
  | [], a => ⟨le_refl _, by simp⟩
  | c :: cs, a => by
    obtain ⟨h1, h2⟩ := foldl_maxf_ge f cs (max a (f c))
    refine ⟨le_trans (le_max_left _ _) h1, ?_⟩
    intro x hx
    rcases List.mem_cons.mp hx with hx | hx
    · subst hx
      exact le_trans (le_max_right _ _) h1
    · exact h2 x hx

theorem foldl_maxf_mem (f : Rect → ℚ) : ∀ (cs : List Rect) (a : ℚ),
    cs.foldl (fun v x => max v (f x)) a = a ∨
      ∃ c ∈ cs, cs.foldl (fun v x => max v (f x)) a = f c
  | [], a => Or.inl rfl
  | c :: cs, a => by
    rcases foldl_maxf_mem f cs (max a (f c)) with h | ⟨x, hx, he⟩
    · rw [List.foldl_cons, h, max_def]
      split_ifs with hle
      · exact Or.inr ⟨c, List.mem_cons_self _ _, rfl⟩
      · exact Or.inl rfl
    · exact Or.inr ⟨x, List.mem_cons_of_mem _ hx, he⟩

theorem recalcBox_tightFor : ∀ {cs : List Rect}, cs ≠ [] → tightFor cs (recalcBox cs)
  | [], h => absurd rfl h
  | c0 :: cs, _ => by
    rw [recalcBox]
    constructor
    · intro c hc
      rw [containsB_iff, foldl_expand_min1, foldl_expand_min2, foldl_expand_max1,
        foldl_expand_max2]
      rcases List.mem_cons.mp hc with hc | hc
      · subst hc
        exact ⟨(foldl_minf_le _ cs _).1, (foldl_maxf_ge _ cs _).1,
          (foldl_minf_le _ cs _).1, (foldl_maxf_ge _ cs _).1⟩
      · exact ⟨(foldl_minf_le _ cs _).2 c hc, (foldl_maxf_ge _ cs _).2 c hc,
          (foldl_minf_le _ cs _).2 c hc, (foldl_maxf_ge _ cs _).2 c hc⟩
    · refine ⟨?_, ?_, ?_, ?_⟩
      · rw [foldl_expand_min1]
        rcases foldl_minf_mem (fun x => x.box.min.1) cs c0.box.min.1 with h | ⟨x, hx, he⟩
        · exact ⟨c0, List.mem_cons_self _ _, h.symm⟩
        · exact ⟨x, List.mem_cons_of_mem _ hx, he.symm⟩
      · rw [foldl_expand_max1]
        rcases foldl_maxf_mem (fun x => x.box.max.1) cs c0.box.max.1 with h | ⟨x, hx, he⟩
        · exact ⟨c0, List.mem_cons_self _ _, h.symm⟩
        · exact ⟨x, List.mem_cons_of_mem _ hx, he.symm⟩
      · rw [foldl_expand_min2]
        rcases foldl_minf_mem (fun x => x.box.min.2) cs c0.box.min.2 with h | ⟨x, hx, he⟩
        · exact ⟨c0, List.mem_cons_self _ _, h.symm⟩
        · exact ⟨x, List.mem_cons_of_mem _ hx, he.symm⟩
      · rw [foldl_expand_max2]
        rcases foldl_maxf_mem (fun x => x.box.max.2) cs c0.box.max.2 with h | ⟨x, hx, he⟩
        · exact ⟨c0, List.mem_cons_self _ _, h.symm⟩
        · exact ⟨x, List.mem_cons_of_mem _ hx, he.symm⟩

theorem tightFor_unique {cs : List Rect} {b1 b2 : Box}
    (h1 : tightFor cs b1) (h2 : tightFor cs b2) : b1 = b2 := by
  obtain ⟨hb1, ⟨a1, ha1, he1⟩, ⟨a2, ha2, he2⟩, ⟨a3, ha3, he3⟩, ⟨a4, ha4, he4⟩⟩ := h1
  obtain ⟨hb2, ⟨c1, hc1, hf1⟩, ⟨c2, hc2, hf2⟩, ⟨c3, hc3, hf3⟩, ⟨c4, hc4, hf4⟩⟩ := h2
  have k1 : b1.min.1 = b2.min.1 := by
    have x1 := (containsB_iff _ _).mp (hb2 a1 ha1)
    have x2 := (containsB_iff _ _).mp (hb1 c1 hc1)
    have := x1.1
    have := x2.1
    rw [he1] at *
    rw [hf1] at *
    linarith
  have k2 : b1.max.1 = b2.max.1 := by
    have x1 := (containsB_iff _ _).mp (hb2 a2 ha2)
    have x2 := (containsB_iff _ _).mp (hb1 c2 hc2)
    have := x1.2.1
    have := x2.2.1
    rw [he2] at *
    rw [hf2] at *
    linarith
  have k3 : b1.min.2 = b2.min.2 := by
    have x1 := (containsB_iff _ _).mp (hb2 a3 ha3)
    have x2 := (containsB_iff _ _).mp (hb1 c3 hc3)
    have := x1.2.2.1
    have := x2.2.2.1
    rw [he3] at *
    rw [hf3] at *
    linarith
  have k4 : b1.max.2 = b2.max.2 := by
    have x1 := (containsB_iff _ _).mp (hb2 a4 ha4)
    have x2 := (containsB_iff _ _).mp (hb1 c4 hc4)
    have := x1.2.2.2
    have := x2.2.2.2
    rw [he4] at *
    rw [hf4] at *
    linarith
  cases b1 with
  | mk mn1 mx1 =>
    cases b2 with
    | mk mn2 mx2 =>
      simp only at k1 k2 k3 k4
      congr 1
      · exact Prod.ext k1 k3
      · exact Prod.ext k2 k4

theorem tightFor_perm {cs cs2 : List Rect} {b : Box} (hp : cs.Perm cs2)
    (h : tightFor cs b) : tightFor cs2 b := by
  obtain ⟨hb, e1, e2, e3, e4⟩ := h
  refine ⟨fun c hc => hb c (hp.mem_iff.mpr hc), ?_, ?_, ?_, ?_⟩
  · obtain ⟨c, hc, he⟩ := e1
    exact ⟨c, hp.mem_iff.mp hc, he⟩
  · obtain ⟨c, hc, he⟩ := e2
    exact ⟨c, hp.mem_iff.mp hc, he⟩
  · obtain ⟨c, hc, he⟩ := e3
    exact ⟨c, hp.mem_iff.mp hc, he⟩
  · obtain ⟨c, hc, he⟩ := e4
    exact ⟨c, hp.mem_iff.mp hc, he⟩

theorem tightFor_recalcBox_eq {cs : List Rect} {b : Box} (hne : cs ≠ [])
    (h : tightFor cs b) : recalcBox cs = b :=
  tightFor_unique (recalcBox_tightFor hne) h

theorem tightFor_nonempty {cs : List Rect} {b : Box} (h : tightFor cs b) : cs ≠ [] := by
  obtain ⟨_, ⟨c, hc, _⟩, _⟩ := h
  intro he
  subst he
  cases hc

theorem tightFor_single {c : Rect} {b : Box} (h : c.box = b) : tightFor [c] b := by
  subst h
  exact ⟨fun x hx => by
    rcases List.mem_singleton.mp hx with rfl
    exact containsB_refl _,
    ⟨c, List.mem_singleton_self _, rfl⟩, ⟨c, List.mem_singleton_self _, rfl⟩,
    ⟨c, List.mem_singleton_self _, rfl⟩, ⟨c, List.mem_singleton_self _, rfl⟩⟩

theorem tightFor_expand_append {cs : List Rect} {b : Box} (h : tightFor cs b)
    (it : Rect) : tightFor (cs ++ [it]) (b.expand it.box) := by
  obtain ⟨hb, e1, e2, e3, e4⟩ := h
  constructor
  · intro c hc
    rcases List.mem_append.mp hc with hc | hc
    · exact containsB_trans (containsB_expand_left b it.box) (hb c hc)
    · have hce := List.mem_singleton.mp hc
      rw [hce]
      exact containsB_expand_right b it.box
  · refine ⟨?_, ?_, ?_, ?_⟩
    · rw [expand_min1, min_def]
      split_ifs with hle
      · obtain ⟨c, hc, he⟩ := e1
        exact ⟨c, List.mem_append_left _ hc, he⟩
      · exact ⟨it, List.mem_append_right _ (List.mem_singleton_self _), rfl⟩
    · rw [expand_max1, max_def]
      split_ifs with hle
      · exact ⟨it, List.mem_append_right _ (List.mem_singleton_self _), rfl⟩
      · obtain ⟨c, hc, he⟩ := e2
        exact ⟨c, List.mem_append_left _ hc, he⟩
    · rw [expand_min2, min_def]
      split_ifs with hle
      · obtain ⟨c, hc, he⟩ := e3
        exact ⟨c, List.mem_append_left _ hc, he⟩
      · exact ⟨it, List.mem_append_right _ (List.mem_singleton_self _), rfl⟩
    · rw [expand_max2, max_def]
      split_ifs with hle
      · exact ⟨it, List.mem_append_right _ (List.mem_singleton_self _), rfl⟩
      · obtain ⟨c, hc, he⟩ := e4
        exact ⟨c, List.mem_append_left _ hc, he⟩

theorem perm_getElem_eraseIdx {α : Type _} :
    ∀ (l : List α) (i : ℕ) (h : i < l.length), l.Perm (l[i] :: l.eraseIdx i)
  | _ :: _, 0, _ => by simp
  | a :: t, i + 1, h => by
    simp only [List.eraseIdx_cons_succ, List.getElem_cons_succ]
    exact ((perm_getElem_eraseIdx t i (by simpa using h)).cons a).trans
      (List.Perm.swap _ _ _)

theorem set_perm_eraseIdx {α : Type _} :
    ∀ (l : List α) (x : α) (i : ℕ), i < l.length →
      (l.set i x).Perm (x :: l.eraseIdx i)
  | _ :: _, x, 0, _ => by simp
  | a :: t, x, i + 1, h => by
    simp only [List.set_cons_succ, List.eraseIdx_cons_succ]
    exact ((set_perm_eraseIdx t x i (by simpa using h)).cons a).trans
      (List.Perm.swap _ _ _)

/-- Replacing one entry of a tight collection by a collection that is
tight for the entry's box expanded by `nb` keeps the whole collection
tight for the aggregate box expanded by `nb`.  This is the key step of
both the in-place child update and the child split during `insert`. -/
theorem tightFor_union_replace {child : Rect} {rest ds : List Rect} {b nb : Box}
    (ht : tightFor (child :: rest) b)
    (hds : tightFor ds (child.box.expand nb)) :
    tightFor (ds ++ rest) (b.expand nb) := by
  obtain ⟨hb, e1, e2, e3, e4⟩ := ht
  obtain ⟨hdb, f1, f2, f3, f4⟩ := hds
  have hcb : b.containsB child.box = true := hb child (List.mem_cons_self _ _)
  have hcbi := (containsB_iff _ _).mp hcb
  constructor
  · intro c hc
    rcases List.mem_append.mp hc with hc | hc
    · exact containsB_trans (expand_contains_mono hcb) (hdb c hc)
    · exact containsB_trans (containsB_expand_left b nb)
        (hb c (List.mem_cons_of_mem _ hc))
  · refine ⟨?_, ?_, ?_, ?_⟩
    · rw [expand_min1]
      rcases le_or_lt nb.min.1 b.min.1 with hle | hlt
      · obtain ⟨a, ha, hae⟩ := f1
        refine ⟨a, List.mem_append_left _ ha, ?_⟩
        rw [hae, expand_min1, min_eq_right hle, min_eq_right (le_trans hle hcbi.1)]
      · rcases e1 with ⟨c0, hc0, hc0e⟩
        rcases List.mem_cons.mp hc0 with hc0h | hc0r
        · obtain ⟨a, ha, hae⟩ := f1
          refine ⟨a, List.mem_append_left _ ha, ?_⟩
          rw [hc0h] at hc0e
          rw [hae, expand_min1, hc0e]
        · exact ⟨c0, List.mem_append_right _ hc0r,
            by rw [hc0e, min_eq_left (le_of_lt hlt)]⟩
    · rw [expand_max1]
      rcases le_or_lt b.max.1 nb.max.1 with hle | hlt
      · obtain ⟨a, ha, hae⟩ := f2
        refine ⟨a, List.mem_append_left _ ha, ?_⟩
        rw [hae, expand_max1, max_eq_right hle, max_eq_right (le_trans hcbi.2.1 hle)]
      · rcases e2 with ⟨c0, hc0, hc0e⟩
        rcases List.mem_cons.mp hc0 with hc0h | hc0r
        · obtain ⟨a, ha, hae⟩ := f2
          refine ⟨a, List.mem_append_left _ ha, ?_⟩
          rw [hc0h] at hc0e
          rw [hae, expand_max1, hc0e]
        · exact ⟨c0, List.mem_append_right _ hc0r,
            by rw [hc0e, max_eq_left (le_of_lt hlt)]⟩
    · rw [expand_min2]
      rcases le_or_lt nb.min.2 b.min.2 with hle | hlt
      · obtain ⟨a, ha, hae⟩ := f3
        refine ⟨a, List.mem_append_left _ ha, ?_⟩
        rw [hae, expand_min2, min_eq_right hle, min_eq_right (le_trans hle hcbi.2.2.1)]
      · rcases e3 with ⟨c0, hc0, hc0e⟩
        rcases List.mem_cons.mp hc0 with hc0h | hc0r
        · obtain ⟨a, ha, hae⟩ := f3
          refine ⟨a, List.mem_append_left _ ha, ?_⟩
          rw [hc0h] at hc0e
          rw [hae, expand_min2, hc0e]
        · exact ⟨c0, List.mem_append_right _ hc0r,
            by rw [hc0e, min_eq_left (le_of_lt hlt)]⟩
    · rw [expand_max2]
      rcases le_or_lt b.max.2 nb.max.2 with hle | hlt
      · obtain ⟨a, ha, hae⟩ := f4
        refine ⟨a, List.mem_append_left _ ha, ?_⟩
        rw [hae, expand_max2, max_eq_right hle, max_eq_right (le_trans hcbi.2.2.2 hle)]
      · rcases e4 with ⟨c0, hc0, hc0e⟩
        rcases List.mem_cons.mp hc0 with hc0h | hc0r
        · obtain ⟨a, ha, hae⟩ := f4
          refine ⟨a, List.mem_append_left _ ha, ?_⟩
          rw [hc0h] at hc0e
          rw [hae, expand_max2, hc0e]
        · exact ⟨c0, List.mem_append_right _ hc0r,
            by rw [hc0e, max_eq_left (le_of_lt hlt)]⟩

/-! ## Well-formedness of the R-tree -/

/-- Well-formedness of a subtree rooted at a rect at the given height:
a node whose entry count lies in `[1, maxEntries]`, whose box is the
recomputed tight bound of its entries, and whose entries are items at
height 0 and recursively well-formed nodes otherwise. -/
def wfR : ℕ → Rect → Bool
  | _, .item _ _ => false
  | 0, .node b cs =>
    cs.all Rect.isItem && decide (1 ≤ cs.length) &&
      decide (cs.length ≤ maxEntries) && decide (b = recalcBox cs)
  | h + 1, .node b cs =>
    cs.all (fun c => wfR h c) && decide (1 ≤ cs.length) &&
      decide (cs.length ≤ maxEntries) && decide (b = recalcBox cs)

/-- Well-formedness of the entries of a node at the given height. -/
def childrenWF : ℕ → List Rect → Bool
  | 0, cs => cs.all Rect.isItem
  | h + 1, cs => cs.all (fun c => wfR h c)

theorem wfR_node_iff (h : ℕ) (b : Box) (cs : List Rect) :
    wfR h (.node b cs) = true ↔
      childrenWF h cs = true ∧ 1 ≤ cs.length ∧ cs.length ≤ maxEntries ∧
        b = recalcBox cs := by
  cases h <;>
    simp [wfR, childrenWF, Bool.and_eq_true, decide_eq_true_eq, and_assoc]

theorem wfR_not_item {h : ℕ} {b : Box} {d : ℕ} (hw : wfR h (.item b d) = true) :
    False := by
  cases h <;> simp [wfR] at hw

/-- Full well-formedness of the tree structure at a public-operation
boundary. -/
def WF (tr : RTree) : Prop :=
  match tr.root with
  | none => tr.height = 0 ∧ tr.count = 0
  | some r =>
    wfR tr.height r = true ∧ tr.count = ((scanList tr.height r).length : ℤ) ∧
      (0 < tr.height → 2 ≤ r.childCount)
/-! ## Split verification -/

/-- Distance of an entry's lower edge to the node's lower edge on the
split axis (`minDist` in the split loop). -/
def snapMinDist (nb : Box) (ax : Bool) (c : Rect) : ℚ := c.box.minA ax - nb.minA ax

/-- Distance of an entry's upper edge to the node's upper edge on the
split axis (`maxDist` in the split loop). -/
def snapMaxDist (nb : Box) (ax : Bool) (c : Rect) : ℚ := nb.maxA ax - c.box.maxA ax

theorem rotateLast_perm : ∀ l : List Rect, (rotateLast l).Perm l
  | [] => List.Perm.refl _
  | a :: as => by
    rw [rotateLast]
    refine ((List.perm_append_singleton _ _).symm).trans ?_
    rw [List.dropLast_append_getLast (by simp : a :: as ≠ [])]

theorem snapLoopF_spec (nb : Box) (ax : Bool) :
    ∀ (fuel : ℕ) (cs : List Rect), cs.length ≤ fuel →
      ((snapLoopF nb ax fuel cs).1 ++ ((snapLoopF nb ax fuel cs).2.1 ++
        (snapLoopF nb ax fuel cs).2.2)).Perm cs ∧
      (∀ c ∈ (snapLoopF nb ax fuel cs).1,
        snapMinDist nb ax c < snapMaxDist nb ax c) ∧
      (∀ c ∈ (snapLoopF nb ax fuel cs).2.1,
        snapMaxDist nb ax c < snapMinDist nb ax c) ∧
      (∀ c ∈ (snapLoopF nb ax fuel cs).2.2,
        snapMinDist nb ax c = snapMaxDist nb ax c)
  | fuel, [], _ => by
    rw [snapLoopF]
    exact ⟨List.Perm.refl _, by simp, by simp, by simp⟩
  | 0, c :: rest, hlen => by simp at hlen
  | fuel + 1, c :: rest, hlen => by
    rw [snapLoopF]
    dsimp only
    split_ifs with h1 h2
    · rcases hsnap : snapLoopF nb ax fuel rest with ⟨ls, rs, es⟩
      have hrec := snapLoopF_spec nb ax fuel rest (by simpa using hlen)
      rw [hsnap] at hrec
      obtain ⟨ihp, ihl, ihr, ihe⟩ := hrec
      dsimp only at ihp ihl ihr ihe ⊢
      refine ⟨by simpa using ihp.cons c, ?_, ihr, ihe⟩
      intro x hx
      rcases List.mem_cons.mp hx with hx | hx
      · subst hx
        exact h1
      · exact ihl x hx
    · rcases hsnap : snapLoopF nb ax fuel (rotateLast rest) with ⟨ls, rs, es⟩
      have hrec := snapLoopF_spec nb ax fuel (rotateLast rest)
        (by rw [rotateLast_length]; simpa using hlen)
      rw [hsnap] at hrec
      obtain ⟨ihp, ihl, ihr, ihe⟩ := hrec
      dsimp only at ihp ihl ihr ihe ⊢
      refine ⟨?_, ihl, ?_, ihe⟩
      · have e : ls ++ (c :: rs ++ es) = ls ++ c :: (rs ++ es) := by simp
        rw [e]
        exact List.perm_middle.trans ((ihp.cons c).trans
          ((rotateLast_perm rest).cons c))
      · intro x hx
        rcases List.mem_cons.mp hx with hx | hx
        · subst hx
          exact h2
        · exact ihr x hx
    · rcases hsnap : snapLoopF nb ax fuel (rotateLast rest) with ⟨ls, rs, es⟩
      have hrec := snapLoopF_spec nb ax fuel (rotateLast rest)
        (by rw [rotateLast_length]; simpa using hlen)
      rw [hsnap] at hrec
      obtain ⟨ihp, ihl, ihr, ihe⟩ := hrec
      dsimp only at ihp ihl ihr ihe ⊢
      refine ⟨?_, ihl, ihr, ?_⟩
      · refine (List.Perm.append_left ls List.perm_middle).trans ?_
        exact List.perm_middle.trans ((ihp.cons c).trans
          ((rotateLast_perm rest).cons c))
      · intro x hx
        rcases List.mem_cons.mp hx with hx | hx
        · subst hx
          exact le_antisymm (not_lt.mp h2) (not_lt.mp h1)
        · exact ihe x hx

theorem distribute_perm : ∀ (es ls rs : List Rect),
    ((distribute es ls rs).1 ++ (distribute es ls rs).2).Perm (ls ++ rs ++ es)
  | [], ls, rs => by simp [distribute]
  | b :: bs, ls, rs => by
    rw [distribute]
    split_ifs with h
    · refine (distribute_perm bs (ls ++ [b]) rs).trans ?_
      have e : ls ++ [b] ++ rs ++ bs = ls ++ (b :: (rs ++ bs)) := by simp
      rw [e]
      simp only [List.append_assoc]
      exact List.Perm.append_left ls (List.Perm.symm List.perm_middle)
    · refine (distribute_perm bs ls (rs ++ [b])).trans ?_
      simp [List.append_assoc]

theorem distribute_len_left : ∀ (es ls rs : List Rect),
    ls.length ≤ (distribute es ls rs).1.length
  | [], ls, rs => le_refl _
  | b :: bs, ls, rs => by
    rw [distribute]
    split_ifs with h
    · refine le_trans ?_ (distribute_len_left bs (ls ++ [b]) rs)
      simp
    · exact distribute_len_left bs ls (rs ++ [b])

theorem distribute_len_right : ∀ (es ls rs : List Rect),
    rs.length ≤ (distribute es ls rs).2.length
  | [], ls, rs => le_refl _
  | b :: bs, ls, rs => by
    rw [distribute]
    split_ifs with h
    · exact distribute_len_right bs (ls ++ [b]) rs
    · refine le_trans ?_ (distribute_len_right bs ls (rs ++ [b]))
      simp

theorem distribute_mem_left : ∀ (es ls rs : List Rect),
    ∀ c ∈ (distribute es ls rs).1, c ∈ ls ∨ c ∈ es
  | [], ls, rs, c, hc => Or.inl hc
  | b :: bs, ls, rs, c, hc => by
    rw [distribute] at hc
    split_ifs at hc with h
    · rcases distribute_mem_left bs (ls ++ [b]) rs c hc with h1 | h1
      · rcases List.mem_append.mp h1 with h2 | h2
        · exact Or.inl h2
        · exact Or.inr (List.mem_cons.mpr (Or.inl (List.mem_singleton.mp h2)))
      · exact Or.inr (List.mem_cons_of_mem _ h1)
    · rcases distribute_mem_left bs ls (rs ++ [b]) c hc with h1 | h1
      · exact Or.inl h1
      · exact Or.inr (List.mem_cons_of_mem _ h1)

theorem distribute_mem_right : ∀ (es ls rs : List Rect),
    ∀ c ∈ (distribute es ls rs).2, c ∈ rs ∨ c ∈ es
  | [], ls, rs, c, hc => Or.inl hc
  | b :: bs, ls, rs, c, hc => by
    rw [distribute] at hc
    split_ifs at hc with h
    · rcases distribute_mem_right bs (ls ++ [b]) rs c hc with h1 | h1
      · exact Or.inl h1
      · exact Or.inr (List.mem_cons_of_mem _ h1)
    · rcases distribute_mem_right bs ls (rs ++ [b]) c hc with h1 | h1
      · rcases List.mem_append.mp h1 with h2 | h2
        · exact Or.inl h2
        · exact Or.inr (List.mem_cons.mpr (Or.inl (List.mem_singleton.mp h2)))
      · exact Or.inr (List.mem_cons_of_mem _ h1)

theorem distribute_left_nonempty : ∀ (es ls rs : List Rect),
    (ls ≠ [] ∨ (es ≠ [] ∧ rs ≠ []) ∨ 2 ≤ es.length) →
      (distribute es ls rs).1 ≠ []
  | [], ls, rs, h => by
    rcases h with h | ⟨h, _⟩ | h
    · exact h
    · exact absurd rfl h
    · simp at h
  | b :: bs, ls, rs, h => by
    rw [distribute]
    split_ifs with hlt
    · exact distribute_left_nonempty bs (ls ++ [b]) rs (Or.inl (by simp))
    · rcases List.eq_nil_or_concat ls with hls | ⟨_, _, hls⟩
      · subst hls
        simp only [List.length_nil] at hlt
        have hrs : rs = [] := by
          cases rs with
          | nil => rfl
          | cons x xs => simp at hlt
        subst hrs
        have hbs : bs ≠ [] := by
          rcases h with h | ⟨_, h⟩ | h
          · exact absurd rfl h
          · exact absurd rfl h
          · cases bs with
            | nil => simp at h
            | cons _ _ => simp
        exact distribute_left_nonempty bs [] [b] (Or.inr (Or.inl ⟨hbs, by simp⟩))
      · exact distribute_left_nonempty bs ls (rs ++ [b])
          (Or.inl (by rw [hls]; simp))

theorem distribute_right_nonempty : ∀ (es ls rs : List Rect),
    (rs ≠ [] ∨ es ≠ []) → (distribute es ls rs).2 ≠ []
  | [], ls, rs, h => by
    rcases h with h | h
    · exact h
    · exact absurd rfl h
  | b :: bs, ls, rs, h => by
    rw [distribute]
    split_ifs with hlt
    · refine distribute_right_nonempty bs (ls ++ [b]) rs (Or.inl ?_)
      cases rs with
      | nil => simp at hlt
      | cons _ _ => simp
    · exact distribute_right_nonempty bs ls (rs ++ [b]) (Or.inl (by simp))

theorem distribute_balance : ∀ (es ls rs : List Rect), es ≠ [] →
    (((distribute es ls rs).1.length : ℤ) -
      ((distribute es ls rs).2.length : ℤ)).natAbs ≤
      max ((((ls.length : ℤ) - (rs.length : ℤ)).natAbs) - es.length) 1
  | [], _, _, h => absurd rfl h
  | b :: bs, ls, rs, _ => by
    rw [distribute]
    split_ifs with hlt
    · rcases List.eq_nil_or_concat bs with hbs | ⟨_, _, hbs⟩
      · subst hbs
        simp only [distribute]
        simp only [List.length_append, List.length_cons, List.length_nil]
        omega
      · have := distribute_balance bs (ls ++ [b]) rs (by rw [hbs]; simp)
        refine le_trans this ?_
        simp only [List.length_append, List.length_cons, List.length_nil]
        omega
    · rcases List.eq_nil_or_concat bs with hbs | ⟨_, _, hbs⟩
      · subst hbs
        simp only [distribute]
        simp only [List.length_append, List.length_cons, List.length_nil]
        omega
      · have := distribute_balance bs ls (rs ++ [b]) (by rw [hbs]; simp)
        refine le_trans this ?_
        simp only [List.length_append, List.length_cons, List.length_nil]
        omega

theorem minA_false (b : Box) : b.minA false = b.min.1 := rfl

theorem minA_true (b : Box) : b.minA true = b.min.2 := rfl

theorem maxA_false (b : Box) : b.maxA false = b.max.1 := rfl

theorem maxA_true (b : Box) : b.maxA true = b.max.2 := rfl

/-- Number of entries strictly nearer the min edge on the split axis. -/
def snapCountL (b : Box) (cs : List Rect) : ℕ :=
  cs.countP (fun c =>
    decide (snapMinDist b b.largestAxis c < snapMaxDist b b.largestAxis c))

/-- Number of entries strictly nearer the max edge on the split axis. -/
def snapCountR (b : Box) (cs : List Rect) : ℕ :=
  cs.countP (fun c =>
    decide (snapMaxDist b b.largestAxis c < snapMinDist b b.largestAxis c))

/-- Number of entries exactly equidistant from both edges. -/
def snapCountT (b : Box) (cs : List Rect) : ℕ :=
  cs.countP (fun c =>
    decide (snapMinDist b b.largestAxis c = snapMaxDist b b.largestAxis c))

/-- Full specification of `splitLargestAxisEdgeSnap` on a tight node
with at least two entries: the two halves partition the entries, both
are non-empty, their boxes are recomputed, entries are placed by the
strict edge-distance rule, and ties balance the two halves. -/
theorem splitLAES_full {b : Box} {cs : List Rect} (hlen : 2 ≤ cs.length)
    (ht : tightFor cs b) :
    ∃ ls2 rs2,
      splitLargestAxisEdgeSnap b cs =
        (Rect.node (recalcBox ls2) ls2, Rect.node (recalcBox rs2) rs2) ∧
      (ls2 ++ rs2).Perm cs ∧ ls2 ≠ [] ∧ rs2 ≠ [] ∧
      (∀ c ∈ ls2, ¬ snapMaxDist b b.largestAxis c < snapMinDist b b.largestAxis c) ∧
      (∀ c ∈ rs2, ¬ snapMinDist b b.largestAxis c < snapMaxDist b b.largestAxis c) ∧
      (∀ c ∈ cs, snapMinDist b b.largestAxis c < snapMaxDist b b.largestAxis c →
        c ∈ ls2) ∧
      (∀ c ∈ cs, snapMaxDist b b.largestAxis c < snapMinDist b b.largestAxis c →
        c ∈ rs2) ∧
      (0 < snapCountT b cs →
        (((ls2.length : ℤ) - (rs2.length : ℤ)).natAbs : ℕ) ≤
          max ((((snapCountL b cs : ℤ) - (snapCountR b cs : ℤ)).natAbs) -
            snapCountT b cs) 1) ∧
      (snapCountT b cs = 0 →
        ls2.length = snapCountL b cs ∧ rs2.length = snapCountR b cs) := by
  rcases hsnap : snapLoopF b b.largestAxis cs.length cs with ⟨ls, rsp⟩
  rcases rsp with ⟨rs, es⟩
  have hspec := snapLoopF_spec b b.largestAxis cs.length cs (le_refl _)
  rw [hsnap] at hspec
  obtain ⟨hperm, hl, hr, he⟩ := hspec
  dsimp only at hperm hl hr he
  have hmemsplit : ∀ c ∈ cs, c ∈ ls ∨ c ∈ rs ∨ c ∈ es := by
    intro c hc
    have := hperm.mem_iff.mpr hc
    rcases List.mem_append.mp this with h1 | h1
    · exact Or.inl h1
    · rcases List.mem_append.mp h1 with h2 | h2
      · exact Or.inr (Or.inl h2)
      · exact Or.inr (Or.inr h2)
  obtain ⟨hbnd, e1, e2, e3, e4⟩ := ht
  have hminatt : ∃ c ∈ cs, c.box.minA b.largestAxis = b.minA b.largestAxis := by
    cases hx : b.largestAxis with
    | false => simpa only [minA_false] using e1
    | true => simpa only [minA_true] using e3
  have hmaxatt : ∃ c ∈ cs, c.box.maxA b.largestAxis = b.maxA b.largestAxis := by
    cases hx : b.largestAxis with
    | false => simpa only [maxA_false] using e2
    | true => simpa only [maxA_true] using e4
  have hbndA : ∀ c ∈ cs,
      b.minA b.largestAxis ≤ c.box.minA b.largestAxis ∧
        c.box.maxA b.largestAxis ≤ b.maxA b.largestAxis := by
    intro c hc
    have := (containsB_iff _ _).mp (hbnd c hc)
    cases b.largestAxis with
    | false => exact ⟨this.1, this.2.1⟩
    | true => exact ⟨this.2.2.1, this.2.2.2⟩
  obtain ⟨cmin, hcmin, hcmine⟩ := hminatt
  obtain ⟨cmax, hcmax, hcmaxe⟩ := hmaxatt
  have hcmin_not_rs : cmin ∉ rs := by
    intro hmem
    have h1 := hr cmin hmem
    have h2 := (hbndA cmin hcmin).2
    unfold snapMinDist snapMaxDist at h1
    rw [hcmine] at h1
    linarith
  have hcmax_not_ls : cmax ∉ ls := by
    intro hmem
    have h1 := hl cmax hmem
    have h2 := (hbndA cmax hcmax).1
    unfold snapMinDist snapMaxDist at h1
    rw [hcmaxe] at h1
    linarith
  rcases hdist : distribute es ls rs with ⟨ls2, rs2⟩
  have hdperm : (ls2 ++ rs2).Perm (ls ++ rs ++ es) := by
    have := distribute_perm es ls rs
    rw [hdist] at this
    exact this
  have hperm2 : (ls2 ++ rs2).Perm cs := by
    refine hdperm.trans ?_
    simpa [List.append_assoc] using hperm
  have hlenne : ls.length + rs.length + es.length = cs.length := by
    have h1 := hperm.length_eq
    simp only [List.length_append] at h1
    omega
  have hcountl : snapCountL b cs = ls.length := by
    unfold snapCountL
    rw [← hperm.countP_eq]
    rw [List.countP_append, List.countP_append]
    have k1 : ls.countP (fun c => decide (snapMinDist b b.largestAxis c <
        snapMaxDist b b.largestAxis c)) = ls.length :=
      List.countP_eq_length.mpr (fun a ha => by simpa using hl a ha)
    have k2 : rs.countP (fun c => decide (snapMinDist b b.largestAxis c <
        snapMaxDist b b.largestAxis c)) = 0 :=
      List.countP_eq_zero.mpr (fun a ha => by
        have := hr a ha
        simp only [decide_eq_true_eq]
        intro hcon
        linarith)
    have k3 : es.countP (fun c => decide (snapMinDist b b.largestAxis c <
        snapMaxDist b b.largestAxis c)) = 0 :=
      List.countP_eq_zero.mpr (fun a ha => by
        have := he a ha
        simp only [decide_eq_true_eq]
        intro hcon
        linarith)
    omega
  have hcountr : snapCountR b cs = rs.length := by
    unfold snapCountR
    rw [← hperm.countP_eq]
    rw [List.countP_append, List.countP_append]
    have k1 : rs.countP (fun c => decide (snapMaxDist b b.largestAxis c <
        snapMinDist b b.largestAxis c)) = rs.length :=
      List.countP_eq_length.mpr (fun a ha => by simpa using hr a ha)
    have k2 : ls.countP (fun c => decide (snapMaxDist b b.largestAxis c <
        snapMinDist b b.largestAxis c)) = 0 :=
      List.countP_eq_zero.mpr (fun a ha => by
        have := hl a ha
        simp only [decide_eq_true_eq]
        intro hcon
        linarith)
    have k3 : es.countP (fun c => decide (snapMaxDist b b.largestAxis c <
        snapMinDist b b.largestAxis c)) = 0 :=
      List.countP_eq_zero.mpr (fun a ha => by
        have := he a ha
        simp only [decide_eq_true_eq]
        intro hcon
        linarith)
    omega
  have hcounte : snapCountT b cs = es.length := by
    unfold snapCountT
    rw [← hperm.countP_eq]
    rw [List.countP_append, List.countP_append]
    have k1 : es.countP (fun c => decide (snapMinDist b b.largestAxis c =
        snapMaxDist b b.largestAxis c)) = es.length :=
      List.countP_eq_length.mpr (fun a ha => by simpa using he a ha)
    have k2 : ls.countP (fun c => decide (snapMinDist b b.largestAxis c =
        snapMaxDist b b.largestAxis c)) = 0 :=
      List.countP_eq_zero.mpr (fun a ha => by
        have := hl a ha
        simp only [decide_eq_true_eq]
        intro hcon
        linarith)
    have k3 : rs.countP (fun c => decide (snapMinDist b b.largestAxis c =
        snapMaxDist b b.largestAxis c)) = 0 :=
      List.countP_eq_zero.mpr (fun a ha => by
        have := hr a ha
        simp only [decide_eq_true_eq]
        intro hcon
        linarith)
    omega
  refine ⟨ls2, rs2, ?_, hperm2, ?_, ?_, ?_, ?_, ?_, ?_, ?_, ?_⟩
  · simp only [splitLargestAxisEdgeSnap, snapLoop, hsnap, hdist]
  · have hd := distribute_left_nonempty es ls rs
    rw [hdist] at hd
    refine hd ?_
    rcases List.eq_nil_or_concat ls with hls | ⟨_, _, hls⟩
    · subst hls
      have hcmines : cmin ∈ es := by
        rcases hmemsplit cmin hcmin with h1 | h1 | h1
        · cases h1
        · exact absurd h1 hcmin_not_rs
        · exact h1
      rcases List.eq_nil_or_concat rs with hrs | ⟨_, _, hrs⟩
      · subst hrs
        refine Or.inr (Or.inr ?_)
        simp only [List.length_nil] at hlenne
        omega
      · exact Or.inr (Or.inl ⟨List.ne_nil_of_mem hcmines, by rw [hrs]; simp⟩)
    · exact Or.inl (by rw [hls]; simp)
  · have hd := distribute_right_nonempty es ls rs
    rw [hdist] at hd
    refine hd ?_
    rcases hmemsplit cmax hcmax with h1 | h1 | h1
    · exact absurd h1 hcmax_not_ls
    · exact Or.inl (List.ne_nil_of_mem h1)
    · exact Or.inr (List.ne_nil_of_mem h1)
  · intro c hc
    have hd := distribute_mem_left es ls rs
    rw [hdist] at hd
    rcases hd c hc with h1 | h1
    · have := hl c h1
      intro hcon
      linarith
    · have := he c h1
      intro hcon
      rw [this] at hcon
      exact absurd hcon (lt_irrefl _)
  · intro c hc
    have hd := distribute_mem_right es ls rs
    rw [hdist] at hd
    rcases hd c hc with h1 | h1
    · have := hr c h1
      intro hcon
      linarith
    · have := he c h1
      intro hcon
      rw [this] at hcon
      exact absurd hcon (lt_irrefl _)
  · intro c hc hstrict
    rcases List.mem_append.mp (hperm2.mem_iff.mpr hc) with h1 | h1
    · exact h1
    · exfalso
      have hd := distribute_mem_right es ls rs
      rw [hdist] at hd
      rcases hd c h1 with h2 | h2
      · have := hr c h2
        linarith
      · have := he c h2
        linarith
  · intro c hc hstrict
    rcases List.mem_append.mp (hperm2.mem_iff.mpr hc) with h1 | h1
    · exfalso
      have hd := distribute_mem_left es ls rs
      rw [hdist] at hd
      rcases hd c h1 with h2 | h2
      · have := hl c h2
        linarith
      · have := he c h2
        linarith
    · exact h1
  · intro htie
    rw [hcountl, hcountr, hcounte]
    have hesne : es ≠ [] := by
      rw [hcounte] at htie
      intro hc
      subst hc
      simp at htie
    have hb := distribute_balance es ls rs hesne
    rw [hdist] at hb
    exact hb
  · intro htie0
    have hesnil : es = [] := by
      rw [hcounte] at htie0
      exact List.eq_nil_of_length_eq_zero htie0
    subst hesnil
    rw [distribute] at hdist
    cases hdist
    exact ⟨hcountl.symm, hcountr.symm⟩

/-! ## Insert preservation -/

theorem childrenWF_zero_iff (cs : List Rect) :
    childrenWF 0 cs = true ↔ ∀ c ∈ cs, c.isItem = true := by
  simp [childrenWF, List.all_eq_true]

theorem childrenWF_succ_iff (h : ℕ) (cs : List Rect) :
    childrenWF (h + 1) cs = true ↔ ∀ c ∈ cs, wfR h c = true := by
  simp [childrenWF, List.all_eq_true]

theorem childrenWF_subset {h : ℕ} {cs cs2 : List Rect}
    (hw : childrenWF h cs = true) (hs : ∀ c ∈ cs2, c ∈ cs) :
    childrenWF h cs2 = true := by
  cases h with
  | zero =>
    rw [childrenWF_zero_iff] at *
    exact fun c hc => hw c (hs c hc)
  | succ h =>
    rw [childrenWF_succ_iff] at *
    exact fun c hc => hw c (hs c hc)

theorem childrenWF_mem {h : ℕ} {cs : List Rect} {c : Rect}
    (hw : childrenWF (h + 1) cs = true) (hc : c ∈ cs) : wfR h c = true :=
  (childrenWF_succ_iff h cs).mp hw c hc

theorem isItem_eq {c : Rect} (h : c.isItem = true) : c = .item c.box c.dataD := by
  cases c with
  | item b d => rfl
  | node b cs => simp [Rect.isItem] at h

theorem chooseContainLoop_lt (b : Box) :
    ∀ (cs : List Rect) (i0 : ℕ) (best : Option (ℕ × ℚ)),
      (∀ p, best = some p → p.1 < i0) →
      ∀ p, chooseContainLoop b cs i0 best = some p → p.1 < i0 + cs.length
  | [], i0, best, hbest, p, hp => by
    simp only [chooseContainLoop] at hp
    simpa using hbest p hp
  | c :: cs, i0, best, hbest, p, hp => by
    simp only [chooseContainLoop] at hp
    have hnext := chooseContainLoop_lt b cs (i0 + 1) _ ?_ p hp
    · simp only [List.length_cons]
      omega
    · intro q hq
      obtain ⟨q1, q2⟩ := q
      show q1 < i0 + 1
      split_ifs at hq with h1
      · rcases hbq : best with _ | ⟨j, a⟩
        · rw [hbq] at hq
          simp only [Option.some.injEq, Prod.mk.injEq] at hq
          omega
        · rw [hbq] at hq
          dsimp only at hq
          split_ifs at hq with h2
          · simp only [Option.some.injEq, Prod.mk.injEq] at hq
            omega
          · simp only [Option.some.injEq, Prod.mk.injEq] at hq
            have h3 : j < i0 := hbest (j, a) hbq
            omega
      · have h3 : q1 < i0 := hbest (q1, q2) hq
        omega

theorem chooseContain_lt {cs : List Rect} {b : Box} {i : ℕ}
    (h : chooseContain cs b = some i) : i < cs.length := by
  unfold chooseContain at h
  rcases hl : chooseContainLoop b cs 0 none with _ | ⟨j, a⟩
  · rw [hl] at h
    simp at h
  · rw [hl] at h
    simp at h
    have := chooseContainLoop_lt b cs 0 none (by simp) (j, a) hl
    simp at this
    omega

theorem cleLoop_isSome (b : Box) :
    ∀ (cs : List Rect) (i0 : ℕ) (best : Option (ℕ × ℚ × ℚ)),
      best.isSome = true ∨ cs ≠ [] → (cleLoop b cs i0 best).isSome = true
  | [], i0, best, h => by
    simp only [cleLoop]
    rcases h with h | h
    · exact h
    · exact absurd rfl h
  | c :: cs, i0, best, _ => by
    simp only [cleLoop]
    refine cleLoop_isSome b cs (i0 + 1) _ (Or.inl ?_)
    dsimp only
    rcases best with _ | ⟨j, je, ja⟩
    · simp
    · dsimp only
      split_ifs <;> simp

theorem cleLoop_lt (b : Box) :
    ∀ (cs : List Rect) (i0 : ℕ) (best : Option (ℕ × ℚ × ℚ)),
      (∀ p, best = some p → p.1 < i0) →
      ∀ p, cleLoop b cs i0 best = some p → p.1 < i0 + cs.length
  | [], i0, best, hbest, p, hp => by
    simp only [cleLoop] at hp
    simpa using hbest p hp
  | c :: cs, i0, best, hbest, p, hp => by
    simp only [cleLoop] at hp
    have hnext := cleLoop_lt b cs (i0 + 1) _ ?_ p hp
    · simp only [List.length_cons]
      omega
    · intro q hq
      obtain ⟨q1, q2⟩ := q
      show q1 < i0 + 1
      rcases hbq : best with _ | ⟨j, je, ja⟩
      · rw [hbq] at hq
        simp only [Option.some.injEq, Prod.mk.injEq] at hq
        omega
      · rw [hbq] at hq
        dsimp only at hq
        split_ifs at hq with h2
        · simp only [Option.some.injEq, Prod.mk.injEq] at hq
          omega
        · simp only [Option.some.injEq, Prod.mk.injEq] at hq
          have h3 : j < i0 := hbest (j, je, ja) hbq
          omega

theorem chooseLeastEnlargement_lt {cs : List Rect} (b : Box) (hne : cs ≠ []) :
    chooseLeastEnlargement cs b < cs.length := by
  unfold chooseLeastEnlargement
  rcases hl : cleLoop b cs 0 none with _ | ⟨j, je, ja⟩
  · have := cleLoop_isSome b cs 0 none (Or.inr hne)
    rw [hl] at this
    simp at this
  · have := cleLoop_lt b cs 0 none (by simp) (j, je, ja) hl
    simpa using this

theorem scanList_node_perm {h : ℕ} {b b2 : Box} {cs cs2 : List Rect}
    (hp : cs.Perm cs2) :
    (scanList h (.node b cs)).Perm (scanList h (.node b2 cs2)) := by
  cases h with
  | zero => exact hp.map _
  | succ h => exact perm_flatMap _ hp

theorem scanList_node_append (h : ℕ) (b b1 b2 : Box) (cs1 cs2 : List Rect) :
    scanList h (.node b (cs1 ++ cs2)) =
      scanList h (.node b1 cs1) ++ scanList h (.node b2 cs2) := by
  cases h with
  | zero => simp [scanList, Rect.children]
  | succ h => simp [scanList, Rect.children]

theorem scanList_pos : ∀ (h : ℕ) (r : Rect), wfR h r = true →
    0 < (scanList h r).length
  | 0, .item _ _, hw => absurd hw (by simp [wfR])
  | 0, .node b cs, hw => by
    rw [wfR_node_iff] at hw
    simp only [scanList, Rect.children, List.length_map]
    omega
  | h + 1, .item _ _, hw => absurd hw (by simp [wfR])
  | h + 1, .node b cs, hw => by
    rw [wfR_node_iff] at hw
    obtain ⟨hcw, hlen1, _, _⟩ := hw
    obtain ⟨c, hc⟩ := List.exists_mem_of_length_pos (by omega : 0 < cs.length)
    have hwc := childrenWF_mem hcw hc
    have := scanList_pos h c hwc
    have he : scanList (h + 1) (.node b cs) = cs.flatMap (scanList h) := rfl
    rw [he]
    obtain ⟨l1, l2, hsp⟩ := List.append_of_mem hc
    subst hsp
    rw [List.flatMap_append, List.flatMap_cons]
    simp only [List.length_append]
    omega

/-- The boxes of a split pair form a tight pair for the original box. -/
theorem tightFor_split_pair {all ls2 rs2 : List Rect} {B : Box}
    (ht : tightFor all B) (hp : (ls2 ++ rs2).Perm all)
    (hlne : ls2 ≠ []) (hrne : rs2 ≠ []) :
    tightFor [Rect.node (recalcBox ls2) ls2, Rect.node (recalcBox rs2) rs2] B := by
  obtain ⟨hbnd, e1, e2, e3, e4⟩ := ht
  have htl := recalcBox_tightFor hlne
  have htr := recalcBox_tightFor hrne
  have hmem : ∀ c ∈ ls2, c ∈ all := fun c hc =>
    hp.mem_iff.mp (List.mem_append_left _ hc)
  have hmem2 : ∀ c ∈ rs2, c ∈ all := fun c hc =>
    hp.mem_iff.mp (List.mem_append_right _ hc)
  have hsub : ∀ {ds : List Rect}, (∀ c ∈ ds, c ∈ all) → tightFor ds (recalcBox ds) →
      B.containsB (recalcBox ds) = true := by
    intro ds hds htd
    obtain ⟨hdb, ⟨a1, ha1, f1⟩, ⟨a2, ha2, f2⟩, ⟨a3, ha3, f3⟩, ⟨a4, ha4, f4⟩⟩ := htd
    rw [containsB_iff]
    refine ⟨?_, ?_, ?_, ?_⟩
    · rw [← f1]
      exact ((containsB_iff _ _).mp (hbnd a1 (hds a1 ha1))).1
    · rw [← f2]
      exact ((containsB_iff _ _).mp (hbnd a2 (hds a2 ha2))).2.1
    · rw [← f3]
      exact ((containsB_iff _ _).mp (hbnd a3 (hds a3 ha3))).2.2.1
    · rw [← f4]
      exact ((containsB_iff _ _).mp (hbnd a4 (hds a4 ha4))).2.2.2
  constructor
  · intro c hc
    rcases List.mem_cons.mp hc with hc1 | hc1
    · rw [hc1]
      exact hsub hmem htl
    · rcases List.mem_cons.mp hc1 with hc2 | hc2
      · rw [hc2]
        exact hsub hmem2 htr
      · cases hc2
  · have hattain : ∀ (f : Box → ℚ) (g : Rect → ℚ), (∀ x, g x = f x.box) →
        (∃ c ∈ all, g c = f B) →
        (∀ c ∈ ls2, f B ≤ g c) ∨ True →
        True := fun _ _ _ _ _ => trivial
    refine ⟨?_, ?_, ?_, ?_⟩
    · obtain ⟨c, hc, he⟩ := e1
      rcases List.mem_append.mp (hp.mem_iff.mpr hc) with h1 | h1
      · refine ⟨.node (recalcBox ls2) ls2, List.mem_cons_self _ _, ?_⟩
        show (recalcBox ls2).min.1 = B.min.1
        have hle : (recalcBox ls2).min.1 ≤ c.box.min.1 :=
          ((containsB_iff _ _).mp (htl.1 c h1)).1
        have hge : B.min.1 ≤ (recalcBox ls2).min.1 :=
          ((containsB_iff _ _).mp (hsub hmem htl)).1
        rw [he] at hle
        linarith
      · refine ⟨.node (recalcBox rs2) rs2,
          List.mem_cons_of_mem _ (List.mem_cons_self _ _), ?_⟩
        show (recalcBox rs2).min.1 = B.min.1
        have hle : (recalcBox rs2).min.1 ≤ c.box.min.1 :=
          ((containsB_iff _ _).mp (htr.1 c h1)).1
        have hge : B.min.1 ≤ (recalcBox rs2).min.1 :=
          ((containsB_iff _ _).mp (hsub hmem2 htr)).1
        rw [he] at hle
        linarith
    · obtain ⟨c, hc, he⟩ := e2
      rcases List.mem_append.mp (hp.mem_iff.mpr hc) with h1 | h1
      · refine ⟨.node (recalcBox ls2) ls2, List.mem_cons_self _ _, ?_⟩
        show (recalcBox ls2).max.1 = B.max.1
        have hle : c.box.max.1 ≤ (recalcBox ls2).max.1 :=
          ((containsB_iff _ _).mp (htl.1 c h1)).2.1
        have hge : (recalcBox ls2).max.1 ≤ B.max.1 :=
          ((containsB_iff _ _).mp (hsub hmem htl)).2.1
        rw [he] at hle
        linarith
      · refine ⟨.node (recalcBox rs2) rs2,
          List.mem_cons_of_mem _ (List.mem_cons_self _ _), ?_⟩
        show (recalcBox rs2).max.1 = B.max.1
        have hle : c.box.max.1 ≤ (recalcBox rs2).max.1 :=
          ((containsB_iff _ _).mp (htr.1 c h1)).2.1
        have hge : (recalcBox rs2).max.1 ≤ B.max.1 :=
          ((containsB_iff _ _).mp (hsub hmem2 htr)).2.1
        rw [he] at hle
        linarith
    · obtain ⟨c, hc, he⟩ := e3
      rcases List.mem_append.mp (hp.mem_iff.mpr hc) with h1 | h1
      · refine ⟨.node (recalcBox ls2) ls2, List.mem_cons_self _ _, ?_⟩
        show (recalcBox ls2).min.2 = B.min.2
        have hle : (recalcBox ls2).min.2 ≤ c.box.min.2 :=
          ((containsB_iff _ _).mp (htl.1 c h1)).2.2.1
        have hge : B.min.2 ≤ (recalcBox ls2).min.2 :=
          ((containsB_iff _ _).mp (hsub hmem htl)).2.2.1
        rw [he] at hle
        linarith
      · refine ⟨.node (recalcBox rs2) rs2,
          List.mem_cons_of_mem _ (List.mem_cons_self _ _), ?_⟩
        show (recalcBox rs2).min.2 = B.min.2
        have hle : (recalcBox rs2).min.2 ≤ c.box.min.2 :=
          ((containsB_iff _ _).mp (htr.1 c h1)).2.2.1
        have hge : B.min.2 ≤ (recalcBox rs2).min.2 :=
          ((containsB_iff _ _).mp (hsub hmem2 htr)).2.2.1
        rw [he] at hle
        linarith
    · obtain ⟨c, hc, he⟩ := e4
      rcases List.mem_append.mp (hp.mem_iff.mpr hc) with h1 | h1
      · refine ⟨.node (recalcBox ls2) ls2, List.mem_cons_self _ _, ?_⟩
        show (recalcBox ls2).max.2 = B.max.2
        have hle : c.box.max.2 ≤ (recalcBox ls2).max.2 :=
          ((containsB_iff _ _).mp (htl.1 c h1)).2.2.2
        have hge : (recalcBox ls2).max.2 ≤ B.max.2 :=
          ((containsB_iff _ _).mp (hsub hmem htl)).2.2.2
        rw [he] at hle
        linarith
      · refine ⟨.node (recalcBox rs2) rs2,
          List.mem_cons_of_mem _ (List.mem_cons_self _ _), ?_⟩
        show (recalcBox rs2).max.2 = B.max.2
        have hle : c.box.max.2 ≤ (recalcBox rs2).max.2 :=
          ((containsB_iff _ _).mp (htr.1 c h1)).2.2.2
        have hge : (recalcBox rs2).max.2 ≤ B.max.2 :=
          ((containsB_iff _ _).mp (hsub hmem2 htr)).2.2.2
        rw [he] at hle
        linarith

/-- One-step specification of `rect.insert` on a well-formed subtree:
the result is a node with the same box, well-formed entries, at most one
more entry than before, whose entries are tight for the grown box, and
whose stored items are the old items plus the new one; the `grown` flag
reports exactly whether the box had to grow. -/
theorem insertR_spec : ∀ (h : ℕ) (r : Rect) (ib : Box) (d : ℕ), wfR h r = true →
    ∃ cs2,
      Rect.insertR (.item ib d) h r = (.node r.box cs2, !(r.box.containsB ib)) ∧
      childrenWF h cs2 = true ∧
      r.childCount ≤ cs2.length ∧ cs2.length ≤ r.childCount + 1 ∧
      tightFor cs2 (r.box.expand ib) ∧
      (scanList h (.node r.box cs2)).Perm ((ib, d) :: scanList h r)
  | _, .item _ _, _, _, hw => (wfR_not_item hw).elim
  | 0, .node b cs, ib, d, hw => by
    rw [wfR_node_iff] at hw
    obtain ⟨hcw, hlen1, hlen32, hbox⟩ := hw
    have hcsne : cs ≠ [] := by
      intro hc
      rw [hc] at hlen1
      simp at hlen1
    have htight : tightFor cs b := by
      rw [hbox]
      exact recalcBox_tightFor hcsne
    refine ⟨cs ++ [Rect.item ib d], rfl, ?_, ?_, ?_, ?_, ?_⟩
    · rw [childrenWF_zero_iff] at hcw ⊢
      intro c hc
      rcases List.mem_append.mp hc with hc | hc
      · exact hcw c hc
      · rw [List.mem_singleton.mp hc]
        rfl
    · show cs.length ≤ (cs ++ [Rect.item ib d]).length
      simp
    · show (cs ++ [Rect.item ib d]).length ≤ cs.length + 1
      simp
    · exact tightFor_expand_append htight (.item ib d)
    · simp only [scanList, Rect.children, List.map_append, List.map_cons,
        List.map_nil, Rect.box, Rect.dataD]
      exact List.perm_append_singleton _ _
  | h + 1, .node b cs, ib, d, hw => by
    rw [wfR_node_iff] at hw
    obtain ⟨hcw, hlen1, hlen32, hbox⟩ := hw
    have hcsne : cs ≠ [] := by
      intro hc
      rw [hc] at hlen1
      simp at hlen1
    have htight : tightFor cs b := by
      rw [hbox]
      exact recalcBox_tightFor hcsne
    have hidxlt : insertIndex cs ib < cs.length := by
      unfold insertIndex
      rcases hcc : chooseContain cs ib with _ | i
      · exact chooseLeastEnlargement_lt ib hcsne
      · exact chooseContain_lt hcc
    have hchildmem : cs.getD (insertIndex cs ib) default ∈ cs := by
      rw [List.getD_eq_getElem cs default hidxlt]
      exact List.getElem_mem hidxlt
    have hchildwf : wfR h (cs.getD (insertIndex cs ib) default) = true :=
      childrenWF_mem hcw hchildmem
    obtain ⟨cb, ccs, hch⟩ :
        ∃ cb ccs, cs.getD (insertIndex cs ib) default = .node cb ccs := by
      cases hgd : cs.getD (insertIndex cs ib) default with
      | item b0 d0 =>
        rw [hgd] at hchildwf
        exact (wfR_not_item hchildwf).elim
      | node b0 cs0 => exact ⟨b0, cs0, rfl⟩
    have hboxc : (cs.getD (insertIndex cs ib) default).box = cb := by
      rw [hch]
      rfl
    have hcountc : (cs.getD (insertIndex cs ib) default).childCount = ccs.length := by
      rw [hch]
      rfl
    obtain ⟨cs2c, hIH, hcwc, hg1, hg2, htc, hscanc⟩ :=
      insertR_spec h (cs.getD (insertIndex cs ib) default) ib d hchildwf
    rw [hboxc] at hIH htc
    rw [hboxc, hch] at hscanc
    rw [hcountc] at hg1 hg2
    rw [hch, wfR_node_iff] at hchildwf
    obtain ⟨hccw, hc1, hc32, hcbox⟩ := hchildwf
    have hbcb : b.containsB cb = true := by
      have := htight.1 _ hchildmem
      rwa [hboxc] at this
    have hgetelem : cs[insertIndex cs ib] = Rect.node cb ccs := by
      rw [← List.getD_eq_getElem cs default hidxlt]
      exact hch
    have hcsperm : cs.Perm (Rect.node cb ccs :: cs.eraseIdx (insertIndex cs ib)) := by
      have := perm_getElem_eraseIdx cs (insertIndex cs ib) hidxlt
      rwa [hgetelem] at this
    have hm : maxEntries = 32 := rfl
    have hbirr : ∀ (h0 : ℕ) (X Y : Box) (l : List Rect),
        scanList h0 (.node X l) = scanList h0 (.node Y l) := by
      intro h0 X Y l
      cases h0 <;> rfl
    have hmain : Rect.insertR (.item ib d) (h + 1) (.node b cs) =
        (if cs2c.length = maxEntries + 1 then
          Rect.node b ((cs.set (insertIndex cs ib)
              (splitLargestAxisEdgeSnap (cb.expand ib) cs2c).1) ++
            [(splitLargestAxisEdgeSnap (cb.expand ib) cs2c).2])
        else
          Rect.node b (cs.set (insertIndex cs ib) (Rect.node (cb.expand ib) cs2c)),
          !(b.containsB ib)) := by
      rw [Rect.insertR]
      simp only [Rect.box]
      rw [hIH]
      dsimp only
      cases hgrown : cb.containsB ib with
      | true =>
        have hexp : cb.expand ib = cb := expand_of_contains hgrown
        have hbib : b.containsB ib = true := containsB_trans hbcb hgrown
        rw [hexp, hbib]
        simp [Rect.childCount, Rect.children, Rect.box]
        split_ifs <;> rfl
      | false =>
        simp [Rect.setBox, Rect.box, Rect.childCount, Rect.children]
        split_ifs <;> rfl
    by_cases hsplit : cs2c.length = maxEntries + 1
    · -- the updated child splits into two halves
      have hlen2 : 2 ≤ cs2c.length := by omega
      obtain ⟨ls2, rs2, heqsplit, hpermh, hlne, hrne, -, -, -, -, -, -⟩ :=
        splitLAES_full hlen2 htc
      have hlenls : ls2.length + rs2.length = cs2c.length := by
        have := hpermh.length_eq
        simpa using this
      have hlpos : 0 < ls2.length := List.length_pos.mpr hlne
      have hrpos : 0 < rs2.length := List.length_pos.mpr hrne
      have hsubl : ∀ c ∈ ls2, c ∈ cs2c := fun c hc =>
        hpermh.mem_iff.mp (List.mem_append_left _ hc)
      have hsubr : ∀ c ∈ rs2, c ∈ cs2c := fun c hc =>
        hpermh.mem_iff.mp (List.mem_append_right _ hc)
      refine ⟨(cs.set (insertIndex cs ib) (Rect.node (recalcBox ls2) ls2)) ++
        [Rect.node (recalcBox rs2) rs2], ?_, ?_, ?_, ?_, ?_, ?_⟩
      · rw [hmain, if_pos hsplit, heqsplit]
        rfl
      · rw [childrenWF_succ_iff]
        intro c hc
        rcases List.mem_append.mp hc with hc | hc
        · rcases List.mem_or_eq_of_mem_set hc with hc | hc
          · exact childrenWF_mem hcw hc
          · rw [hc, wfR_node_iff]
            exact ⟨childrenWF_subset hcwc hsubl, by omega, by omega, rfl⟩
        · rw [List.mem_singleton.mp hc, wfR_node_iff]
          exact ⟨childrenWF_subset hcwc hsubr, by omega, by omega, rfl⟩
      · simp only [Rect.childCount, Rect.children, List.length_append,
          List.length_set, List.length_cons, List.length_nil]
        omega
      · simp only [Rect.childCount, Rect.children, List.length_append,
          List.length_set, List.length_cons, List.length_nil]
        omega
      · have ht2 : tightFor (Rect.node cb ccs :: cs.eraseIdx (insertIndex cs ib)) b :=
          tightFor_perm hcsperm htight
        have hds : tightFor [Rect.node (recalcBox ls2) ls2,
            Rect.node (recalcBox rs2) rs2] ((Rect.node cb ccs).box.expand ib) :=
          tightFor_split_pair htc hpermh hlne hrne
        have hur := tightFor_union_replace ht2 hds
        have hsp := set_perm_eraseIdx cs (Rect.node (recalcBox ls2) ls2)
          (insertIndex cs ib) hidxlt
        have hp2 : ((cs.set (insertIndex cs ib) (Rect.node (recalcBox ls2) ls2)) ++
            [Rect.node (recalcBox rs2) rs2]).Perm
            ([Rect.node (recalcBox ls2) ls2, Rect.node (recalcBox rs2) rs2] ++
              cs.eraseIdx (insertIndex cs ib)) := by
          refine (hsp.append_right [Rect.node (recalcBox rs2) rs2]).trans ?_
          rw [List.cons_append]
          exact (List.perm_append_singleton _ _).cons _
        exact tightFor_perm hp2.symm hur
      · have hsp := set_perm_eraseIdx cs (Rect.node (recalcBox ls2) ls2)
          (insertIndex cs ib) hidxlt
        have hp2 : ((cs.set (insertIndex cs ib) (Rect.node (recalcBox ls2) ls2)) ++
            [Rect.node (recalcBox rs2) rs2]).Perm
            ([Rect.node (recalcBox ls2) ls2, Rect.node (recalcBox rs2) rs2] ++
              cs.eraseIdx (insertIndex cs ib)) := by
          refine (hsp.append_right [Rect.node (recalcBox rs2) rs2]).trans ?_
          rw [List.cons_append]
          exact (List.perm_append_singleton _ _).cons _
        show (scanList (h + 1) _).Perm _
        have hunf : ∀ l : List Rect,
            scanList (h + 1) (.node b l) = l.flatMap (scanList h) := fun l => rfl
        rw [hunf]
        refine (perm_flatMap _ hp2).trans ?_
        rw [List.flatMap_append]
        have hlfrt : ([Rect.node (recalcBox ls2) ls2,
            Rect.node (recalcBox rs2) rs2]).flatMap (scanList h) =
            scanList h (.node (cb.expand ib) (ls2 ++ rs2)) := by
          rw [scanList_node_append h (cb.expand ib) (recalcBox ls2) (recalcBox rs2)
            ls2 rs2]
          simp [List.flatMap_cons, List.flatMap_nil]
        rw [hlfrt]
        have hsc2 : (scanList h (.node (cb.expand ib) (ls2 ++ rs2))).Perm
            ((ib, d) :: scanList h (.node cb ccs)) :=
          (scanList_node_perm hpermh).trans hscanc
        refine (hsc2.append_right _).trans ?_
        rw [List.cons_append]
        refine List.Perm.cons _ ?_
        have hflat := perm_flatMap (scanList h) hcsperm
        rw [List.flatMap_cons] at hflat
        exact hflat.symm
    · -- the updated child fits in place
      have hne2 : cs2c ≠ [] := tightFor_nonempty htc
      refine ⟨cs.set (insertIndex cs ib) (Rect.node (cb.expand ib) cs2c),
        ?_, ?_, ?_, ?_, ?_, ?_⟩
      · rw [hmain, if_neg hsplit]
        rfl
      · rw [childrenWF_succ_iff]
        intro c hc
        rcases List.mem_or_eq_of_mem_set hc with hc | hc
        · exact childrenWF_mem hcw hc
        · rw [hc, wfR_node_iff]
          exact ⟨hcwc, by omega, by omega, (tightFor_recalcBox_eq hne2 htc).symm⟩
      · simp only [Rect.childCount, Rect.children, List.length_set]
        omega
      · simp only [Rect.childCount, Rect.children, List.length_set]
        omega
      · have ht2 : tightFor (Rect.node cb ccs :: cs.eraseIdx (insertIndex cs ib)) b :=
          tightFor_perm hcsperm htight
        have hds : tightFor [Rect.node (cb.expand ib) cs2c]
            ((Rect.node cb ccs).box.expand ib) := tightFor_single rfl
        have hur := tightFor_union_replace ht2 hds
        have hsp := set_perm_eraseIdx cs (Rect.node (cb.expand ib) cs2c)
          (insertIndex cs ib) hidxlt
        exact tightFor_perm hsp.symm hur
      · have hsp := set_perm_eraseIdx cs (Rect.node (cb.expand ib) cs2c)
          (insertIndex cs ib) hidxlt
        have hunf : ∀ l : List Rect,
            scanList (h + 1) (.node b l) = l.flatMap (scanList h) := fun l => rfl
        rw [hunf]
        refine (perm_flatMap _ hsp).trans ?_
        rw [List.flatMap_cons]
        have hFv : (scanList h (Rect.node (cb.expand ib) cs2c)).Perm
            ((ib, d) :: scanList h (.node cb ccs)) := by
          rw [hbirr h (cb.expand ib) cb cs2c]
          exact hscanc
        refine (hFv.append_right _).trans ?_
        rw [List.cons_append]
        refine List.Perm.cons _ ?_
        have hflat := perm_flatMap (scanList h) hcsperm
        rw [List.flatMap_cons] at hflat
        exact hflat.symm

/-- Reading off the four inequalities from a failed `onEdge` test. -/
theorem onEdgeB_false {r b : Box} (h : r.onEdgeB b = false) :
    r.min.1 ≠ b.min.1 ∧ r.max.1 ≠ b.max.1 ∧ r.min.2 ≠ b.min.2 ∧ r.max.2 ≠ b.max.2 := by
  unfold Box.onEdgeB at h
  split_ifs at h with h1 h2
  push_neg at h1 h2
  exact ⟨h1.1, h1.2, h2.1, h2.2⟩

/-- Removing an entry that does not touch the edge of a tight box keeps
the box tight: this is why `delete` skips `recalc` when `onEdge` fails. -/
theorem tightFor_cons_not_onEdge {c : Rect} {rest : List Rect} {b : Box}
    (ht : tightFor (c :: rest) b) (he : b.onEdgeB c.box = false) :
    tightFor rest b := by
  obtain ⟨hn1, hn2, hn3, hn4⟩ := onEdgeB_false he
  obtain ⟨hb, ⟨a1, ha1, f1⟩, ⟨a2, ha2, f2⟩, ⟨a3, ha3, f3⟩, ⟨a4, ha4, f4⟩⟩ := ht
  refine ⟨fun x hx => hb x (List.mem_cons_of_mem _ hx), ?_, ?_, ?_, ?_⟩
  · rcases List.mem_cons.mp ha1 with rfl | h1
    · exact absurd f1 (fun hh => hn1 hh.symm)
    · exact ⟨a1, h1, f1⟩
  · rcases List.mem_cons.mp ha2 with rfl | h1
    · exact absurd f2 (fun hh => hn2 hh.symm)
    · exact ⟨a2, h1, f2⟩
  · rcases List.mem_cons.mp ha3 with rfl | h1
    · exact absurd f3 (fun hh => hn3 hh.symm)
    · exact ⟨a3, h1, f3⟩
  · rcases List.mem_cons.mp ha4 with rfl | h1
    · exact absurd f4 (fun hh => hn4 hh.symm)
    · exact ⟨a4, h1, f4⟩

/-- Tightness only depends on the boxes of the entries. -/
theorem tightFor_boxes_congr {cs cs2 : List Rect} {b : Box}
    (hm : cs.map Rect.box = cs2.map Rect.box) (ht : tightFor cs b) :
    tightFor cs2 b := by
  obtain ⟨hb, e1, e2, e3, e4⟩ := ht
  have hfwd : ∀ c2 ∈ cs2, ∃ c ∈ cs, c.box = c2.box := by
    intro c2 hc2
    have : c2.box ∈ cs.map Rect.box := by
      rw [hm]
      exact List.mem_map_of_mem _ hc2
    obtain ⟨c, hc, he⟩ := List.mem_map.mp this
    exact ⟨c, hc, he⟩
  have hbwd : ∀ c ∈ cs, ∃ c2 ∈ cs2, c2.box = c.box := by
    intro c hc
    have : c.box ∈ cs2.map Rect.box := by
      rw [← hm]
      exact List.mem_map_of_mem _ hc
    obtain ⟨c2, hc2, he⟩ := List.mem_map.mp this
    exact ⟨c2, hc2, he⟩
  refine ⟨?_, ?_, ?_, ?_, ?_⟩
  · intro c2 hc2
    obtain ⟨c, hc, he⟩ := hfwd c2 hc2
    rw [← he]
    exact hb c hc
  · obtain ⟨a, ha, f⟩ := e1
    obtain ⟨a2, ha2, he⟩ := hbwd a ha
    exact ⟨a2, ha2, by rw [he, f]⟩
  · obtain ⟨a, ha, f⟩ := e2
    obtain ⟨a2, ha2, he⟩ := hbwd a ha
    exact ⟨a2, ha2, by rw [he, f]⟩
  · obtain ⟨a, ha, f⟩ := e3
    obtain ⟨a2, ha2, he⟩ := hbwd a ha
    exact ⟨a2, ha2, by rw [he, f]⟩
  · obtain ⟨a, ha, f⟩ := e4
    obtain ⟨a2, ha2, he⟩ := hbwd a ha
    exact ⟨a2, ha2, by rw [he, f]⟩

/-- A node with well-formed, non-empty entries stores at least one item. -/
theorem scanListD_pos (h : ℕ) (b : Box) (cs : List Rect)
    (hc : childrenWF h cs = true) (hne : cs ≠ []) :
    0 < (scanList h (.node b cs)).length := by
  cases h with
  | zero =>
    simp only [scanList, Rect.children, List.length_map]
    exact List.length_pos.mpr hne
  | succ h =>
    obtain ⟨c, hcm⟩ := List.exists_mem_of_length_pos (List.length_pos.mpr hne)
    have hwc := childrenWF_mem hc hcm
    have hp := scanList_pos h c hwc
    have he : scanList (h + 1) (.node b cs) = cs.flatMap (scanList h) := rfl
    rw [he]
    obtain ⟨l1, l2, hsp⟩ := List.append_of_mem hcm
    subst hsp
    rw [List.flatMap_append, List.flatMap_cons]
    simp only [List.length_append]
    omega

/-- `rect.recalc` is the identity on a well-formed rect. -/
theorem recalcSelf_wf {h : ℕ} {r : Rect} (hw : wfR h r = true) :
    r.recalcSelf = r := by
  cases r with
  | item b d => exact (wfR_not_item hw).elim
  | node b cs =>
    rw [wfR_node_iff] at hw
    rw [Rect.recalcSelf, ← hw.2.2.2]

/-- The inner fold of `rect.flatten` over a list of well-formed rects
appends exactly the stored items. -/
theorem flattenFold_spec (h : ℕ)
    (hrec : ∀ (r : Rect) (acc : List Rect), wfR h r = true →
      ∃ its, flattenR h r acc = acc ++ its ∧ its.all Rect.isItem = true ∧
        its.map (fun c => (c.box, c.dataD)) = scanList h r) :
    ∀ (cs : List Rect) (acc : List Rect), (∀ c ∈ cs, wfR h c = true) →
      ∃ its, cs.foldl (fun a c => flattenR h c a) acc = acc ++ its ∧
        its.all Rect.isItem = true ∧
        its.map (fun c => (c.box, c.dataD)) = cs.flatMap (scanList h)
  | [], acc, _ => ⟨[], by simp⟩
  | c :: rest, acc, hcs => by
    obtain ⟨its1, he1, hi1, hm1⟩ := hrec c acc (hcs c (List.mem_cons_self _ _))
    obtain ⟨its2, he2, hi2, hm2⟩ := flattenFold_spec h hrec rest (acc ++ its1)
      (fun x hx => hcs x (List.mem_cons_of_mem _ hx))
    refine ⟨its1 ++ its2, ?_, ?_, ?_⟩
    · rw [List.foldl_cons, he1, he2, List.append_assoc]
    · simp only [List.all_append, hi1, hi2, Bool.and_self]
    · rw [List.map_append, hm1, hm2, List.flatMap_cons]

/-- `rect.flatten` appends exactly the items stored in the subtree. -/
theorem flattenR_spec : ∀ (h : ℕ) (r : Rect) (acc : List Rect), wfR h r = true →
    ∃ its, flattenR h r acc = acc ++ its ∧ its.all Rect.isItem = true ∧
      its.map (fun c => (c.box, c.dataD)) = scanList h r
  | 0, .item b d, _, hw => (wfR_not_item hw).elim
  | 0, .node b cs, acc, hw => by
    rw [wfR_node_iff] at hw
    exact ⟨cs, rfl, hw.1, rfl⟩
  | h + 1, .item b d, _, hw => (wfR_not_item hw).elim
  | h + 1, .node b cs, acc, hw => by
    rw [wfR_node_iff] at hw
    obtain ⟨its, he, hi, hm⟩ := flattenFold_spec h (flattenR_spec h) cs acc
      ((childrenWF_succ_iff h cs).mp hw.1)
    exact ⟨its, he, hi, hm⟩

/-- The leaf loop of `rect.delete`: it either finds no entry with the
target payload, or removes the first such entry, reporting whether it
touched the edge of the node box. -/
theorem leafDel_spec (b : Box) (d : ℕ) : ∀ cs : List Rect,
    leafDel b d cs = none ∨
    ∃ c cs2, leafDel b d cs = some (cs2, b.onEdgeB c.box) ∧ c ∈ cs ∧
      c.dataEq d = true ∧ cs.Perm (c :: cs2)
  | [] => Or.inl rfl
  | c :: rest => by
    rw [leafDel]
    by_cases hc : c.dataEq d = true
    · refine Or.inr ⟨c, rotateLast rest, ?_, List.mem_cons_self _ _, hc, ?_⟩
      · rw [if_pos hc]
      · exact ((rotateLast_perm rest).cons c).symm
    · rw [if_neg hc]
      rcases leafDel_spec b d rest with h | ⟨c0, cs2, heq, hmem, hdq, hperm⟩
      · rw [h]
        exact Or.inl rfl
      · rw [heq]
        refine Or.inr ⟨c0, c :: cs2, rfl, List.mem_cons_of_mem _ hmem, hdq, ?_⟩
        exact (hperm.cons c).trans (List.Perm.swap _ _ _)

/-- Tightness is invariant under permuting the multiset of entry boxes. -/
theorem tightFor_box_perm {cs cs2 : List Rect} {b : Box}
    (hp : (cs2.map Rect.box).Perm (cs.map Rect.box)) (ht : tightFor cs b) :
    tightFor cs2 b := by
  obtain ⟨hb, e1, e2, e3, e4⟩ := ht
  have hfwd : ∀ c2 ∈ cs2, ∃ c ∈ cs, c.box = c2.box := by
    intro c2 hc2
    have : c2.box ∈ cs.map Rect.box :=
      hp.mem_iff.mp (List.mem_map_of_mem _ hc2)
    obtain ⟨c, hc, he⟩ := List.mem_map.mp this
    exact ⟨c, hc, he⟩
  have hbwd : ∀ c ∈ cs, ∃ c2 ∈ cs2, c2.box = c.box := by
    intro c hc
    have : c.box ∈ cs2.map Rect.box :=
      hp.mem_iff.mpr (List.mem_map_of_mem _ hc)
    obtain ⟨c2, hc2, he⟩ := List.mem_map.mp this
    exact ⟨c2, hc2, he⟩
  refine ⟨?_, ?_, ?_, ?_, ?_⟩
  · intro c2 hc2
    obtain ⟨c, hc, he⟩ := hfwd c2 hc2
    rw [← he]
    exact hb c hc
  · obtain ⟨a, ha, f⟩ := e1
    obtain ⟨a2, ha2, he⟩ := hbwd a ha
    exact ⟨a2, ha2, by rw [he, f]⟩
  · obtain ⟨a, ha, f⟩ := e2
    obtain ⟨a2, ha2, he⟩ := hbwd a ha
    exact ⟨a2, ha2, by rw [he, f]⟩
  · obtain ⟨a, ha, f⟩ := e3
    obtain ⟨a2, ha2, he⟩ := hbwd a ha
    exact ⟨a2, ha2, by rw [he, f]⟩
  · obtain ⟨a, ha, f⟩ := e4
    obtain ⟨a2, ha2, he⟩ := hbwd a ha
    exact ⟨a2, ha2, by rw [he, f]⟩

/-- Removing one entry box that does not touch the edge of a tight box
keeps the box tight, up to permutation of the remaining entry boxes. -/
theorem tightFor_box_removal {cs cs2 : List Rect} {rbox cr : Box}
    (hp : (cs.map Rect.box).Perm (cr :: cs2.map Rect.box))
    (he : rbox.onEdgeB cr = false) (ht : tightFor cs rbox) :
    tightFor cs2 rbox := by
  obtain ⟨hn1, hn2, hn3, hn4⟩ := onEdgeB_false he
  obtain ⟨hb, e1, e2, e3, e4⟩ := ht
  have hfwd : ∀ c2 ∈ cs2, ∃ c ∈ cs, c.box = c2.box := by
    intro c2 hc2
    have : c2.box ∈ cs.map Rect.box :=
      hp.mem_iff.mpr (List.mem_cons_of_mem _ (List.mem_map_of_mem _ hc2))
    obtain ⟨c, hc, hee⟩ := List.mem_map.mp this
    exact ⟨c, hc, hee⟩
  have hbwd : ∀ c ∈ cs, c.box = cr ∨ ∃ c2 ∈ cs2, c2.box = c.box := by
    intro c hc
    have : c.box ∈ cr :: cs2.map Rect.box :=
      hp.mem_iff.mp (List.mem_map_of_mem _ hc)
    rcases List.mem_cons.mp this with h1 | h1
    · exact Or.inl h1
    · obtain ⟨c2, hc2, hee⟩ := List.mem_map.mp h1
      exact Or.inr ⟨c2, hc2, hee⟩
  refine ⟨?_, ?_, ?_, ?_, ?_⟩
  · intro c2 hc2
    obtain ⟨c, hc, hee⟩ := hfwd c2 hc2
    rw [← hee]
    exact hb c hc
  · obtain ⟨a, ha, f⟩ := e1
    rcases hbwd a ha with h1 | ⟨a2, ha2, hee⟩
    · exact absurd (by rw [← h1, f]) hn1
    · exact ⟨a2, ha2, by rw [hee, f]⟩
  · obtain ⟨a, ha, f⟩ := e2
    rcases hbwd a ha with h1 | ⟨a2, ha2, hee⟩
    · exact absurd (by rw [← h1, f]) hn2
    · exact ⟨a2, ha2, by rw [hee, f]⟩
  · obtain ⟨a, ha, f⟩ := e3
    rcases hbwd a ha with h1 | ⟨a2, ha2, hee⟩
    · exact absurd (by rw [← h1, f]) hn3
    · exact ⟨a2, ha2, by rw [hee, f]⟩
  · obtain ⟨a, ha, f⟩ := e4
    rcases hbwd a ha with h1 | ⟨a2, ha2, hee⟩
    · exact absurd (by rw [← h1, f]) hn4
    · exact ⟨a2, ha2, by rw [hee, f]⟩

/-- `rect.flatten` on a node whose entries are well-formed (the node's
own box and occupancy play no role). -/
theorem flattenRD_spec (h : ℕ) (b : Box) (cs : List Rect) (acc : List Rect)
    (hc : childrenWF h cs = true) :
    ∃ its, flattenR h (.node b cs) acc = acc ++ its ∧
      its.all Rect.isItem = true ∧
      its.map (fun c => (c.box, c.dataD)) = scanList h (.node b cs) := by
  cases h with
  | zero => exact ⟨cs, rfl, hc, rfl⟩
  | succ h =>
    obtain ⟨its, he, hi, hm⟩ := flattenFold_spec h (flattenR_spec h) cs acc
      ((childrenWF_succ_iff h cs).mp hc)
    exact ⟨its, he, hi, hm⟩

/-- The internal loop of `rect.delete`, specified against an abstract
recursive delete and flatten obeying the height-`h` contracts: it either
removes nothing, or removes exactly one stored item with payload `d`,
keeps every surviving entry well-formed, drops at most one entry, moves
entry boxes only when `recalced` is reported, and accounts for every
stored item through the reinsertion list. -/
theorem nodeDelLoop_spec (h : ℕ) (ibox rbox : Box) (d : ℕ)
    (flat : Rect → List Rect → List Rect)
    (delChild : Rect → Option (Rect × Bool × List Rect))
    (hflat : ∀ (b2 : Box) (cs0 acc : List Rect), childrenWF h cs0 = true →
      ∃ its, flat (.node b2 cs0) acc = acc ++ its ∧
        its.all Rect.isItem = true ∧
        its.map (fun c => (c.box, c.dataD)) = scanList h (.node b2 cs0))
    (hdel : ∀ c : Rect, wfR h c = true →
      delChild c = none ∨
      ∃ cb2 ccs2 rcl rei rb,
        delChild c = some (.node cb2 ccs2, rcl, rei) ∧
        childrenWF h ccs2 = true ∧
        ccs2.length ≤ c.childCount ∧ c.childCount ≤ ccs2.length + 1 ∧
        (ccs2 ≠ [] → tightFor ccs2 cb2) ∧
        (rcl = false → cb2 = c.box) ∧
        rei.all Rect.isItem = true ∧
        (scanList h c).Perm
          ((rb, d) :: (scanList h (.node cb2 ccs2) ++
            rei.map (fun c => (c.box, c.dataD))))) :
    ∀ cs : List Rect, (∀ c ∈ cs, wfR h c = true) →
      nodeDelLoop ibox flat delChild rbox cs = none ∨
      ∃ cs2 rcl rei rb,
        nodeDelLoop ibox flat delChild rbox cs = some (cs2, rcl, rei) ∧
        (∀ c ∈ cs2, wfR h c = true) ∧
        cs2.length ≤ cs.length ∧ cs.length ≤ cs2.length + 1 ∧
        (rcl = false →
          (cs2.map Rect.box).Perm (cs.map Rect.box) ∨
          ∃ cr, rbox.onEdgeB cr = false ∧
            (cs.map Rect.box).Perm (cr :: cs2.map Rect.box)) ∧
        rei.all Rect.isItem = true ∧
        (cs.flatMap (scanList h)).Perm
          ((rb, d) :: (cs2.flatMap (scanList h) ++
            rei.map (fun c => (c.box, c.dataD))))
  | [], _ => Or.inl rfl
  | c :: rest, hcs => by
    have hwc : wfR h c = true := hcs c (List.mem_cons_self _ _)
    have hrest : ∀ x ∈ rest, wfR h x = true :=
      fun x hx => hcs x (List.mem_cons_of_mem _ hx)
    have hcc32 : c.childCount ≤ maxEntries := by
      cases c with
      | item b0 d0 => exact (wfR_not_item hwc).elim
      | node b0 cs0 =>
        rw [wfR_node_iff] at hwc
        simpa [Rect.childCount, Rect.children] using hwc.2.2.1
    have hrec :
        nodeDelLoop ibox flat delChild rbox rest = none ∨
        ∃ cs2 rcl rei rb,
          nodeDelLoop ibox flat delChild rbox rest = some (cs2, rcl, rei) ∧
          (∀ c ∈ cs2, wfR h c = true) ∧
          cs2.length ≤ rest.length ∧ rest.length ≤ cs2.length + 1 ∧
          (rcl = false →
            (cs2.map Rect.box).Perm (rest.map Rect.box) ∨
            ∃ cr, rbox.onEdgeB cr = false ∧
              (rest.map Rect.box).Perm (cr :: cs2.map Rect.box)) ∧
          rei.all Rect.isItem = true ∧
          (rest.flatMap (scanList h)).Perm
            ((rb, d) :: (cs2.flatMap (scanList h) ++
              rei.map (fun c => (c.box, c.dataD)))) :=
      nodeDelLoop_spec h ibox rbox d flat delChild hflat hdel rest hrest
    rw [nodeDelLoop]
    by_cases hcont : c.box.containsB ibox = true
    · rw [if_pos hcont]
      rcases hdel c hwc with hnone |
        ⟨cb2, ccs2, rcl, rei, rb, heq, hccw, hl1, hl2, htF, hbF, hreiI, hscanC⟩
      · rw [hnone]
        rcases hrec with hn | ⟨cs2, rcl, rei, rb, heq2, hwf2, hla, hlb, htp, hri, hsc⟩
        · rw [hn]
          exact Or.inl rfl
        · rw [heq2]
          refine Or.inr ⟨c :: cs2, rcl, rei, rb, rfl, ?_, ?_, ?_, ?_, hri, ?_⟩
          · intro x hx
            rcases List.mem_cons.mp hx with rfl | hx
            · exact hwc
            · exact hwf2 x hx
          · simp only [List.length_cons]
            omega
          · simp only [List.length_cons]
            omega
          · intro hf
            rcases htp hf with hL | ⟨cr, hcr, hR⟩
            · left
              simp only [List.map_cons]
              exact hL.cons _
            · right
              refine ⟨cr, hcr, ?_⟩
              simp only [List.map_cons]
              exact (hR.cons _).trans (List.Perm.swap _ _ _)
          · rw [List.flatMap_cons, List.flatMap_cons]
            rw [← Multiset.coe_eq_coe]
            simp only [← Multiset.coe_add, ← Multiset.cons_coe,
              ← Multiset.singleton_add]
            rw [Multiset.coe_eq_coe.mpr hsc]
            simp only [← Multiset.coe_add, ← Multiset.cons_coe,
              ← Multiset.singleton_add]
            simp only [add_comm, add_left_comm, add_assoc]
      · rw [heq]
        dsimp only
        by_cases hund : (Rect.node cb2 ccs2).childCount < minEntries
        · rw [if_pos hund]
          obtain ⟨its, hfe, hii, him⟩ := hflat cb2 ccs2 rei hccw
          rw [hfe]
          refine Or.inr ⟨rotateLast rest, rcl || rbox.onEdgeB cb2, rei ++ its, rb,
            rfl, ?_, ?_, ?_, ?_, ?_, ?_⟩
          · intro x hx
            exact hrest x ((rotateLast_perm rest).mem_iff.mp hx)
          · simp only [rotateLast_length, List.length_cons]
            omega
          · simp only [rotateLast_length, List.length_cons]
            omega
          · intro hf
            obtain ⟨hrclF, hedgeF⟩ := Bool.or_eq_false_iff.mp hf
            right
            refine ⟨cb2, hedgeF, ?_⟩
            simp only [List.map_cons]
            rw [hbF hrclF]
            exact ((rotateLast_perm rest).map Rect.box).symm.cons _
          · simp only [List.all_append, hreiI, hii, Bool.and_self]
          · rw [List.flatMap_cons, List.map_append, him]
            rw [← Multiset.coe_eq_coe]
            simp only [← Multiset.coe_add, ← Multiset.cons_coe,
              ← Multiset.singleton_add]
            rw [Multiset.coe_eq_coe.mpr hscanC,
              Multiset.coe_eq_coe.mpr (perm_flatMap (scanList h) (rotateLast_perm rest))]
            simp only [← Multiset.coe_add, ← Multiset.cons_coe,
              ← Multiset.singleton_add]
            simp only [add_comm, add_left_comm, add_assoc]
        · rw [if_neg hund]
          have hme : minEntries = 6 := rfl
          have hcnt : (Rect.node cb2 ccs2).childCount = ccs2.length := rfl
          rw [hcnt] at hund
          have hne2 : ccs2 ≠ [] := by
            intro hc0
            rw [hc0] at hund
            simp [hme] at hund
          refine Or.inr ⟨Rect.node cb2 ccs2 :: rest, rcl, rei, rb,
            rfl, ?_, ?_, ?_, ?_, hreiI, ?_⟩
          · intro x hx
            rcases List.mem_cons.mp hx with rfl | hx
            · rw [wfR_node_iff]
              refine ⟨hccw, ?_, ?_, (tightFor_recalcBox_eq hne2 (htF hne2)).symm⟩
              · have := List.length_pos.mpr hne2
                omega
              · omega
            · exact hrest x hx
          · simp only [List.length_cons]
            omega
          · simp only [List.length_cons]
            omega
          · intro hf
            left
            simp only [List.map_cons, Rect.box]
            rw [hbF hf]
            exact List.Perm.refl _
          · rw [List.flatMap_cons, List.flatMap_cons]
            rw [← Multiset.coe_eq_coe]
            simp only [← Multiset.coe_add, ← Multiset.cons_coe,
              ← Multiset.singleton_add]
            rw [Multiset.coe_eq_coe.mpr hscanC]
            simp only [← Multiset.coe_add, ← Multiset.cons_coe,
              ← Multiset.singleton_add]
            simp only [add_comm, add_left_comm, add_assoc]
    · rw [if_neg hcont]
      rcases hrec with hn | ⟨cs2, rcl, rei, rb, heq2, hwf2, hla, hlb, htp, hri, hsc⟩
      · rw [hn]
        exact Or.inl rfl
      · rw [heq2]
        refine Or.inr ⟨c :: cs2, rcl, rei, rb, rfl, ?_, ?_, ?_, ?_, hri, ?_⟩
        · intro x hx
          rcases List.mem_cons.mp hx with rfl | hx
          · exact hwc
          · exact hwf2 x hx
        · simp only [List.length_cons]
          omega
        · simp only [List.length_cons]
          omega
        · intro hf
          rcases htp hf with hL | ⟨cr, hcr, hR⟩
          · left
            simp only [List.map_cons]
            exact hL.cons _
          · right
            refine ⟨cr, hcr, ?_⟩
            simp only [List.map_cons]
            exact (hR.cons _).trans (List.Perm.swap _ _ _)
        · rw [List.flatMap_cons, List.flatMap_cons]
          rw [← Multiset.coe_eq_coe]
          simp only [← Multiset.coe_add, ← Multiset.cons_coe,
            ← Multiset.singleton_add]
          rw [Multiset.coe_eq_coe.mpr hsc]
          simp only [← Multiset.coe_add, ← Multiset.cons_coe,
            ← Multiset.singleton_add]
          simp only [add_comm, add_left_comm, add_assoc]

/-- Full specification of `rect.delete` on a well-formed subtree: it
either removes nothing, or removes exactly one stored item with payload
`d`, keeps the surviving entries well-formed, drops at most one entry,
keeps the node box (still tight) unless `recalced` is reported, and
hands every displaced item to the reinsertion list. -/
theorem deleteR_spec : ∀ (h : ℕ) (r : Rect) (ibox : Box) (d : ℕ), wfR h r = true →
    deleteR ibox d h r = none ∨
    ∃ cb2 ccs2 rcl rei rb,
      deleteR ibox d h r = some (.node cb2 ccs2, rcl, rei) ∧
      childrenWF h ccs2 = true ∧
      ccs2.length ≤ r.childCount ∧ r.childCount ≤ ccs2.length + 1 ∧
      (ccs2 ≠ [] → tightFor ccs2 cb2) ∧
      (rcl = false → cb2 = r.box) ∧
      rei.all Rect.isItem = true ∧
      (scanList h r).Perm
        ((rb, d) :: (scanList h (.node cb2 ccs2) ++
          rei.map (fun c => (c.box, c.dataD))))
  | _, .item _ _, _, _, hw => (wfR_not_item hw).elim
  | 0, .node b cs, ibox, d, hw => by
    rw [wfR_node_iff] at hw
    obtain ⟨hcw, hlen1, hlen32, hbox⟩ := hw
    have hcsne : cs ≠ [] := by
      intro hc
      rw [hc] at hlen1
      simp at hlen1
    have htight : tightFor cs b := by
      rw [hbox]
      exact recalcBox_tightFor hcsne
    rw [deleteR]
    rcases leafDel_spec b d cs with hn | ⟨c0, cs2, heql, hmem, hdq, hperm⟩
    · rw [hn]
      exact Or.inl rfl
    · rw [heql]
      have hlen := hperm.length_eq
      simp only [List.length_cons] at hlen
      have hd0 : c0.dataD = d := by
        have hi := (childrenWF_zero_iff cs).mp hcw c0 hmem
        cases c0 with
        | item bb dd => simpa [Rect.dataEq, Rect.dataD] using hdq
        | node bb cc => simp [Rect.isItem] at hi
      refine Or.inr ⟨if b.onEdgeB c0.box then recalcBox cs2 else b, cs2,
        b.onEdgeB c0.box, [], c0.box, rfl, ?_, ?_, ?_, ?_, ?_, rfl, ?_⟩
      · rw [childrenWF_zero_iff]
        intro x hx
        exact (childrenWF_zero_iff cs).mp hcw x
          (hperm.mem_iff.mpr (List.mem_cons_of_mem _ hx))
      · simp only [Rect.childCount, Rect.children]
        omega
      · simp only [Rect.childCount, Rect.children]
        omega
      · intro hne
        cases hedge : b.onEdgeB c0.box with
        | true =>
          rw [if_pos rfl]
          exact recalcBox_tightFor hne
        | false =>
          rw [if_neg (by simp)]
          exact tightFor_cons_not_onEdge (tightFor_perm hperm htight) hedge
      · intro hf
        rw [hf, if_neg (by simp)]
        rfl
      · have hp := hperm.map (fun c => (c.box, c.dataD))
        rw [List.map_cons, hd0] at hp
        have hu1 : scanList 0 (.node b cs) =
            cs.map (fun c => (c.box, c.dataD)) := rfl
        have hu2 : scanList 0 (.node (if b.onEdgeB c0.box then recalcBox cs2 else b)
            cs2) = cs2.map (fun c => (c.box, c.dataD)) := rfl
        rw [hu1, hu2, List.map_nil, List.append_nil]
        exact hp
  | h + 1, .node b cs, ibox, d, hw => by
    rw [wfR_node_iff] at hw
    obtain ⟨hcw, hlen1, hlen32, hbox⟩ := hw
    have hcsne : cs ≠ [] := by
      intro hc
      rw [hc] at hlen1
      simp at hlen1
    have htight : tightFor cs b := by
      rw [hbox]
      exact recalcBox_tightFor hcsne
    rw [deleteR]
    rcases nodeDelLoop_spec h ibox b d (fun c acc => flattenR h c acc)
        (deleteR ibox d h)
        (fun b2 cs0 acc hcw0 => flattenRD_spec h b2 cs0 acc hcw0)
        (fun c hc => deleteR_spec h c ibox d hc)
        cs ((childrenWF_succ_iff h cs).mp hcw) with
      hn | ⟨cs2, rcl, rei, rb, heq, hwf2, hla, hlb, htp, hri, hsc⟩
    · rw [hn]
      exact Or.inl rfl
    · rw [heq]
      refine Or.inr ⟨if rcl then recalcBox cs2 else b, cs2, rcl, rei, rb,
        rfl, ?_, ?_, ?_, ?_, ?_, hri, ?_⟩
      · rw [childrenWF_succ_iff]
        exact hwf2
      · simp only [Rect.childCount, Rect.children]
        omega
      · simp only [Rect.childCount, Rect.children]
        omega
      · intro hne
        cases hrcl : rcl with
        | true =>
          rw [if_pos rfl]
          exact recalcBox_tightFor hne
        | false =>
          rw [if_neg (by simp)]
          rcases htp hrcl with hL | ⟨cr, hcr, hR⟩
          · exact tightFor_box_perm hL htight
          · exact tightFor_box_removal hR hcr htight
      · intro hf
        rw [hf, if_neg (by simp)]
        rfl
      · exact hsc

/-- `RTree.insert` of an item rect preserves well-formedness, adds the
item to the stored multiset, and increments the count. -/
theorem insertRect_spec (tr : RTree) (ib : Box) (d : ℕ) (hwf : WF tr) :
    WF (tr.insertRect (.item ib d)) ∧
    (tr.insertRect (.item ib d)).scanAll.Perm ((ib, d) :: tr.scanAll) ∧
    (tr.insertRect (.item ib d)).count = tr.count + 1 := by
  obtain ⟨th, root, tc⟩ := tr
  cases root with
  | none =>
    obtain ⟨hh, hc⟩ : th = 0 ∧ tc = 0 := hwf
    subst hh
    subst hc
    have h1 : Rect.insertR (.item ib d) 0 (.node ib []) =
        (.node ib [.item ib d], false) := by
      rw [Rect.insertR]
      simp [Rect.box, containsB_refl]
    have h2 : RTree.insertRect ⟨0, none, 0⟩ (.item ib d) =
        ⟨0, some (.node ib [.item ib d]), 1⟩ := by
      rw [RTree.insertRect]
      dsimp only
      simp only [Rect.box]
      rw [h1]
      simp [Rect.childCount, Rect.children, maxEntries]
    rw [h2]
    refine ⟨⟨?_, ?_, ?_⟩, ?_, rfl⟩
    · simp [wfR, recalcBox, Rect.isItem, Rect.box, maxEntries]
    · simp [scanList, Rect.children]
    · intro hcon
      simp at hcon
    · simp [RTree.scanAll, scanList, Rect.children, Rect.box, Rect.dataD]
  | some r =>
    obtain ⟨hw, hcount, hmin2⟩ : _ ∧ _ ∧ _ := hwf
    dsimp only at hcount hmin2
    obtain ⟨rb, rcs, hr⟩ : ∃ rb rcs, r = .node rb rcs := by
      cases r with
      | item b0 d0 => exact (wfR_not_item hw).elim
      | node b0 cs0 => exact ⟨b0, cs0, rfl⟩
    subst hr
    rw [wfR_node_iff] at hw
    obtain ⟨hrcw, hr1, hr32, hrbox⟩ := hw
    have hw2 : wfR th (.node rb rcs) = true := by
      rw [wfR_node_iff]
      exact ⟨hrcw, hr1, hr32, hrbox⟩
    obtain ⟨cs2, hIH, hcwc, hg1, hg2, htc, hscanc⟩ := insertR_spec th _ ib d hw2
    simp only [Rect.box, Rect.childCount, Rect.children] at hIH hg1 hg2 htc hscanc
    have hm : maxEntries = 32 := rfl
    have hbirr : ∀ (h0 : ℕ) (X Y : Box) (l : List Rect),
        scanList h0 (.node X l) = scanList h0 (.node Y l) := by
      intro h0 X Y l
      cases h0 <;> rfl
    have hmain : RTree.insertRect ⟨th, some (.node rb rcs), tc⟩ (.item ib d) =
        (if cs2.length = maxEntries + 1 then
          (⟨th + 1, some (.node
            (recalcBox [(splitLargestAxisEdgeSnap (rb.expand ib) cs2).1,
              (splitLargestAxisEdgeSnap (rb.expand ib) cs2).2])
            [(splitLargestAxisEdgeSnap (rb.expand ib) cs2).1,
              (splitLargestAxisEdgeSnap (rb.expand ib) cs2).2]), tc + 1⟩ : RTree)
        else ⟨th, some (.node (rb.expand ib) cs2), tc + 1⟩) := by
      rw [RTree.insertRect]
      dsimp only
      simp only [Rect.box]
      rw [hIH]
      dsimp only
      cases hg : rb.containsB ib with
      | true =>
        have hexp : rb.expand ib = rb := expand_of_contains hg
        rw [hexp]
        simp [Rect.childCount, Rect.children, Rect.box]
      | false =>
        simp [Rect.setBox, Rect.box, Rect.childCount, Rect.children]
    have hscanOld : RTree.scanAll ⟨th, some (.node rb rcs), tc⟩ =
        scanList th (.node rb rcs) := rfl
    by_cases hsplit : cs2.length = maxEntries + 1
    · have hlen2 : 2 ≤ cs2.length := by omega
      obtain ⟨ls2, rs2, heqsplit, hpermh, hlne, hrne, -, -, -, -, -, -⟩ :=
        splitLAES_full hlen2 htc
      have hlenls : ls2.length + rs2.length = cs2.length := by
        have := hpermh.length_eq
        simpa using this
      have hlpos : 0 < ls2.length := List.length_pos.mpr hlne
      have hrpos : 0 < rs2.length := List.length_pos.mpr hrne
      have hsubl : ∀ c ∈ ls2, c ∈ cs2 := fun c hc =>
        hpermh.mem_iff.mp (List.mem_append_left _ hc)
      have hsubr : ∀ c ∈ rs2, c ∈ cs2 := fun c hc =>
        hpermh.mem_iff.mp (List.mem_append_right _ hc)
      rw [hmain, if_pos hsplit, heqsplit]
      dsimp only
      have hlfrt : ([Rect.node (recalcBox ls2) ls2,
          Rect.node (recalcBox rs2) rs2]).flatMap (scanList th) =
          scanList th (.node (rb.expand ib) (ls2 ++ rs2)) := by
        rw [scanList_node_append th (rb.expand ib) (recalcBox ls2) (recalcBox rs2)
          ls2 rs2]
        simp [List.flatMap_cons, List.flatMap_nil]
      have hscanT : ∀ BB : Box, (scanList (th + 1) (.node BB
          [Rect.node (recalcBox ls2) ls2, Rect.node (recalcBox rs2) rs2])).Perm
          ((ib, d) :: scanList th (.node rb rcs)) := by
        intro BB
        have h0 : scanList (th + 1) (.node BB
            [Rect.node (recalcBox ls2) ls2, Rect.node (recalcBox rs2) rs2]) =
            ([Rect.node (recalcBox ls2) ls2,
              Rect.node (recalcBox rs2) rs2]).flatMap (scanList th) := rfl
        rw [h0, hlfrt]
        exact (scanList_node_perm hpermh).trans hscanc
      have hlenT := (hscanT (recalcBox [Rect.node (recalcBox ls2) ls2,
        Rect.node (recalcBox rs2) rs2])).length_eq
      simp only [List.length_cons] at hlenT
      refine ⟨⟨?_, ?_, ?_⟩, ?_, rfl⟩
      · rw [wfR_node_iff]
        refine ⟨?_, by simp, by simp [hm], rfl⟩
        rw [childrenWF_succ_iff]
        intro c hc
        rcases List.mem_cons.mp hc with rfl | hc
        · rw [wfR_node_iff]
          exact ⟨childrenWF_subset hcwc hsubl, by omega, by omega, rfl⟩
        · rcases List.mem_singleton.mp hc with rfl
          rw [wfR_node_iff]
          exact ⟨childrenWF_subset hcwc hsubr, by omega, by omega, rfl⟩
      · show tc + 1 = _
        rw [hlenT, hcount]
        push_cast
        ring
      · intro h0
        simp [Rect.childCount, Rect.children]
      · exact hscanT _
    · rw [hmain, if_neg hsplit]
      have hne : cs2 ≠ [] := by
        intro hc0
        rw [hc0] at hg1
        simp only [List.length_nil] at hg1
        omega
      have hscanT : (scanList th (.node (rb.expand ib) cs2)).Perm
          ((ib, d) :: scanList th (.node rb rcs)) := by
        rw [hbirr th (rb.expand ib) rb cs2]
        exact hscanc
      have hlenT := hscanT.length_eq
      simp only [List.length_cons] at hlenT
      refine ⟨⟨?_, ?_, ?_⟩, ?_, rfl⟩
      · rw [wfR_node_iff]
        exact ⟨hcwc, by omega, by omega, (tightFor_recalcBox_eq hne htc).symm⟩
      · show tc + 1 = _
        rw [hlenT, hcount]
        push_cast
        ring
      · intro h0
        have h2 := hmin2 h0
        simp only [Rect.childCount, Rect.children] at h2 ⊢
        omega
      · exact hscanT

/-- Folding `RTree.insert` over a list of item rects (the reinsertion
pass of `Delete`) preserves well-formedness and adds exactly those
items. -/
theorem foldl_insert_spec : ∀ (l : List Rect) (tr : RTree),
    l.all Rect.isItem = true → WF tr →
    WF (l.foldl (fun acc r => acc.insertRect r) tr) ∧
    (l.foldl (fun acc r => acc.insertRect r) tr).scanAll.Perm
      (l.map (fun c => (c.box, c.dataD)) ++ tr.scanAll) ∧
    (l.foldl (fun acc r => acc.insertRect r) tr).count = tr.count + l.length
  | [], tr, _, hwf => ⟨hwf, by simp, by simp⟩
  | c :: rest, tr, hall, hwf => by
    simp only [List.all_cons, Bool.and_eq_true] at hall
    obtain ⟨hci, hrest⟩ := hall
    have hc := isItem_eq hci
    obtain ⟨hW, hS, hC⟩ := insertRect_spec tr c.box c.dataD hwf
    rw [← hc] at hW hS hC
    obtain ⟨hW2, hS2, hC2⟩ := foldl_insert_spec rest (tr.insertRect c) hrest hW
    rw [List.foldl_cons]
    refine ⟨hW2, ?_, ?_⟩
    · refine hS2.trans ?_
      rw [← Multiset.coe_eq_coe]
      simp only [List.map_cons, ← Multiset.coe_add, ← Multiset.cons_coe,
        ← Multiset.singleton_add]
      rw [Multiset.coe_eq_coe.mpr hS]
      simp only [← Multiset.coe_add, ← Multiset.cons_coe, ← Multiset.singleton_add]
      simp only [add_comm, add_left_comm, add_assoc]
    · rw [hC2, hC]
      simp only [List.length_cons]
      push_cast
      ring

/-- The root-collapse loop preserves well-formedness and the stored
items, and leaves a root with at least two entries at positive height. -/
theorem collapseLoop_spec : ∀ (h : ℕ) (r : Rect), wfR h r = true →
    wfR (collapseLoop h r).1 (collapseLoop h r).2 = true ∧
    scanList (collapseLoop h r).1 (collapseLoop h r).2 = scanList h r ∧
    (0 < (collapseLoop h r).1 → 2 ≤ (collapseLoop h r).2.childCount)
  | 0, r, hw => by
    rw [collapseLoop]
    exact ⟨hw, rfl, by omega⟩
  | h + 1, r, hw => by
    obtain ⟨b, cs, hr⟩ : ∃ b cs, r = .node b cs := by
      cases r with
      | item b0 d0 => exact (wfR_not_item hw).elim
      | node b0 cs0 => exact ⟨b0, cs0, rfl⟩
    subst hr
    rw [wfR_node_iff] at hw
    obtain ⟨hcw, hl1, hl32, hbox⟩ := hw
    rw [collapseLoop]
    by_cases h1 : (Rect.node b cs).childCount = 1
    · rw [if_pos h1]
      simp only [Rect.childCount, Rect.children] at h1
      obtain ⟨c, hc⟩ := List.length_eq_one.mp h1
      subst hc
      have hwc : wfR h c = true := childrenWF_mem hcw (List.mem_singleton_self _)
      have hhd : ((Rect.node b [c]).children.headD default).recalcSelf = c := by
        show c.recalcSelf = c
        exact recalcSelf_wf hwc
      rw [hhd]
      obtain ⟨hW, hSc, hCC⟩ := collapseLoop_spec h c hwc
      refine ⟨hW, ?_, hCC⟩
      rw [hSc]
      show scanList h c = scanList (h + 1) (.node b [c])
      have : scanList (h + 1) (.node b [c]) = scanList h c ++ [] := rfl
      rw [this, List.append_nil]
    · rw [if_neg h1]
      refine ⟨?_, rfl, ?_⟩
      · rw [wfR_node_iff]
        exact ⟨hcw, hl1, hl32, hbox⟩
      · intro h0
        simp only [Rect.childCount, Rect.children] at h1 ⊢
        omega

/-- `RTree.Delete` preserves well-formedness and either leaves the tree
untouched or removes exactly one stored item with the target payload,
decrementing the count. -/
theorem Delete_spec (tr : RTree) (dmin dmax : Pt) (d : ℕ) (hwf : WF tr) :
    WF (tr.Delete dmin dmax d) ∧
    (tr.Delete dmin dmax d = tr ∨
      ∃ rb, tr.scanAll.Perm ((rb, d) :: (tr.Delete dmin dmax d).scanAll) ∧
        (tr.Delete dmin dmax d).count = tr.count - 1) := by
  obtain ⟨th, root, tc⟩ := tr
  cases root with
  | none =>
    have hD : RTree.Delete ⟨th, none, tc⟩ dmin dmax d = ⟨th, none, tc⟩ := rfl
    rw [hD]
    exact ⟨hwf, Or.inl rfl⟩
  | some r =>
    obtain ⟨hw, hcount, hmin2⟩ : _ ∧ _ ∧ _ := hwf
    dsimp only at hcount hmin2
    obtain ⟨rb0, rcs, hr⟩ : ∃ rb0 rcs, r = .node rb0 rcs := by
      cases r with
      | item b0 d0 => exact (wfR_not_item hw).elim
      | node b0 cs0 => exact ⟨b0, cs0, rfl⟩
    subst hr
    have hr32 : (Rect.node rb0 rcs).childCount ≤ maxEntries := by
      rw [wfR_node_iff] at hw
      simpa [Rect.childCount, Rect.children] using hw.2.2.1
    rw [RTree.Delete]
    dsimp only
    cases hcont : (Rect.node rb0 rcs).box.containsB ⟨dmin, dmax⟩ with
    | false =>
      simp only [Bool.not_false, if_pos rfl]
      exact ⟨⟨hw, hcount, hmin2⟩, Or.inl rfl⟩
    | true =>
      simp only [Bool.not_true]
      rw [if_neg (by simp)]
      rcases deleteR_spec th (.node rb0 rcs) ⟨dmin, dmax⟩ d hw with hn |
        ⟨cb2, ccs2, rcl, rei, rb, heq, hccw, hl1, hl2, htF, hbF, hreiI, hscan⟩
      · rw [hn]
        exact ⟨⟨hw, hcount, hmin2⟩, Or.inl rfl⟩
      · rw [heq]
        dsimp only
        have hlenScan := hscan.length_eq
        simp only [List.length_cons, List.length_append, List.length_map] at hlenScan
        have hscanOld : RTree.scanAll ⟨th, some (.node rb0 rcs), tc⟩ =
            scanList th (.node rb0 rcs) := rfl
        by_cases h0 : tc - (↑rei.length + 1) = 0
        · rw [if_pos h0]
          have hlen0 : (scanList th (.node cb2 ccs2)).length = 0 := by omega
          have hth : th = 0 := by
            by_contra hth0
            have h2 := hmin2 (Nat.pos_of_ne_zero hth0)
            have hne : ccs2 ≠ [] := by
              intro hc0
              rw [hc0] at hl2
              simp only [List.length_nil] at hl2
              omega
            have := scanListD_pos th cb2 ccs2 hccw hne
            omega
          subst hth
          have hbase : WF ⟨0, none, (0 : ℤ)⟩ := ⟨rfl, rfl⟩
          obtain ⟨hW2, hS2, hC2⟩ := foldl_insert_spec rei _ hreiI hbase
          have heq0 : scanList 0 (.node cb2 ccs2) = [] :=
            List.length_eq_zero.mp hlen0
          refine ⟨hW2, Or.inr ⟨rb, ?_, ?_⟩⟩
          · rw [hscanOld]
            refine hscan.trans ?_
            rw [heq0]
            refine List.Perm.cons _ ?_
            have hS2b : (RTree.scanAll ⟨0, none, (0 : ℤ)⟩) = [] := rfl
            rw [hS2b, List.append_nil] at hS2
            simpa using hS2.symm
          · rw [hC2]
            dsimp only
            omega
        · rw [if_neg h0]
          have hne : ccs2 ≠ [] := by
            intro hc0
            subst hc0
            have hz : (scanList th (Rect.node cb2 ([] : List Rect))).length = 0 := by
              cases th <;> rfl
            omega
          have hwf1 : wfR th (.node cb2 ccs2) = true := by
            rw [wfR_node_iff]
            have hp := List.length_pos.mpr hne
            exact ⟨hccw, by omega, by omega,
              (tightFor_recalcBox_eq hne (htF hne)).symm⟩
          rcases hcol : collapseLoop th (.node cb2 ccs2) with ⟨H2, R2⟩
          obtain ⟨hWc, hScc, hCCc⟩ := collapseLoop_spec th _ hwf1
          rw [hcol] at hWc hScc hCCc
          dsimp only at hWc hScc hCCc
          have hroot3 : (if rcl then R2.recalcSelf else R2) = R2 := by
            cases rcl with
            | true => simpa using recalcSelf_wf hWc
            | false => rfl
          dsimp only
          rw [hroot3]
          have hbase : WF ⟨H2, some R2, tc - (↑rei.length + 1)⟩ := by
            refine ⟨hWc, ?_, hCCc⟩
            dsimp only
            rw [hScc]
            omega
          obtain ⟨hW2, hS2, hC2⟩ := foldl_insert_spec rei _ hreiI hbase
          refine ⟨hW2, Or.inr ⟨rb, ?_, ?_⟩⟩
          · rw [hscanOld]
            refine hscan.trans ?_
            refine List.Perm.cons _ ?_
            have hSb : RTree.scanAll ⟨H2, some R2, tc - (↑rei.length + 1)⟩ =
                scanList H2 R2 := rfl
            rw [hSb, hScc] at hS2
            exact List.perm_append_comm.trans hS2.symm
          · rw [hC2]
            dsimp only
            omega

/-- Every public operation preserves well-formedness. -/
theorem wf_applyOp (tr : RTree) (op : Op) (hwf : WF tr) : WF (applyOp tr op) := by
  cases op with
  | ins mn mx d => exact (insertRect_spec tr ⟨mn, mx⟩ d hwf).1
  | del mn mx d => exact (Delete_spec tr mn mx d hwf).1
  | rep omn omx od nmn nmx nd =>
    exact (insertRect_spec _ ⟨nmn, nmx⟩ nd (Delete_spec tr omn omx od hwf).1).1

theorem wf_foldl : ∀ (ops : List Op) (tr : RTree), WF tr →
    WF (ops.foldl applyOp tr)
  | [], _, hwf => hwf
  | op :: rest, tr, hwf => wf_foldl rest (applyOp tr op) (wf_applyOp tr op hwf)

/-- Every tree reachable from the empty tree by public operations is
well-formed. -/
theorem wf_run (ops : List Op) : WF (run ops) :=
  wf_foldl ops RTree.empty ⟨rfl, rfl⟩

/-- The items of a list of item rects are the rects themselves. -/
theorem flatMap_itemRects_items : ∀ cs : List Rect,
    (∀ c ∈ cs, c.isItem = true) → cs.flatMap itemRects = cs
  | [], _ => rfl
  | c :: rest, h0 => by
    rw [List.flatMap_cons]
    have hc := h0 c (List.mem_cons_self _ _)
    have hci : itemRects c = [c] := by
      rw [isItem_eq hc, itemRects]
    rw [hci, flatMap_itemRects_items rest
      (fun x hx => h0 x (List.mem_cons_of_mem _ hx))]
    rfl

/-- Inner fold of the item-listing agreement. -/
theorem flatMap_itemRects_scan (h : ℕ)
    (hrec : ∀ c : Rect, wfR h c = true →
      (itemRects c).map (fun c => (c.box, c.dataD)) = scanList h c) :
    ∀ cs : List Rect, (∀ c ∈ cs, wfR h c = true) →
      (cs.flatMap itemRects).map (fun c => (c.box, c.dataD)) =
        cs.flatMap (scanList h)
  | [], _ => rfl
  | c :: rest, h0 => by
    rw [List.flatMap_cons, List.flatMap_cons, List.map_append,
      hrec c (h0 c (List.mem_cons_self _ _)),
      flatMap_itemRects_scan h hrec rest
        (fun x hx => h0 x (List.mem_cons_of_mem _ hx))]

/-- On a well-formed subtree, the sizeOf-recursive item listing agrees
with the height-driven scan listing. -/
theorem itemRects_scan : ∀ (h : ℕ) (r : Rect), wfR h r = true →
    (itemRects r).map (fun c => (c.box, c.dataD)) = scanList h r
  | _, .item _ _, hw => (wfR_not_item hw).elim
  | 0, .node b cs, hw => by
    rw [wfR_node_iff] at hw
    have hitems := (childrenWF_zero_iff cs).mp hw.1
    rw [itemRects_node, flatMap_itemRects_items cs hitems]
    rfl
  | h + 1, .node b cs, hw => by
    rw [wfR_node_iff] at hw
    have hcw := (childrenWF_succ_iff h cs).mp hw.1
    rw [itemRects_node]
    have he : scanList (h + 1) (.node b cs) = cs.flatMap (scanList h) := rfl
    rw [he]
    exact flatMap_itemRects_scan h (fun c hc => itemRects_scan h c hc) cs hcw

/-- Every node listed by the height-driven node traversal of a
well-formed subtree is itself well-formed at its listed height. -/
theorem wfR_treeNodes : ∀ (h : ℕ) (r : Rect), wfR h r = true →
    ∀ p ∈ treeNodesH h r, wfR p.1 p.2 = true
  | 0, r, hw, p, hp => by
    rw [treeNodesH] at hp
    rcases List.mem_singleton.mp hp with rfl
    exact hw
  | h + 1, r, hw, p, hp => by
    rw [treeNodesH] at hp
    rcases List.mem_cons.mp hp with rfl | hp
    · exact hw
    · obtain ⟨c, hc, hpc⟩ := List.mem_flatMap.mp hp
      obtain ⟨b, cs, hr⟩ : ∃ b cs, r = .node b cs := by
        cases r with
        | item b0 d0 => exact (wfR_not_item hw).elim
        | node b0 cs0 => exact ⟨b0, cs0, rfl⟩
      subst hr
      rw [wfR_node_iff] at hw
      have hwc := childrenWF_mem hw.1 hc
      exact wfR_treeNodes h c hwc p hpc

/-- Every item stored in a well-formed subtree lies inside the
subtree's box. -/
theorem scan_contained : ∀ (h : ℕ) (r : Rect), wfR h r = true →
    ∀ e ∈ scanList h r, r.box.containsB e.1 = true
  | _, .item _ _, hw, _, _ => (wfR_not_item hw).elim
  | 0, .node b cs, hw, e, he => by
    rw [wfR_node_iff] at hw
    have htight : tightFor cs b := by
      rcases cs with _ | ⟨c, rest⟩
      · simp at hw
      · rw [hw.2.2.2]
        exact recalcBox_tightFor (by simp)
    obtain ⟨c, hc, hce⟩ := List.mem_map.mp he
    rw [← hce]
    exact htight.1 c hc
  | h + 1, .node b cs, hw, e, he => by
    rw [wfR_node_iff] at hw
    have htight : tightFor cs b := by
      rcases cs with _ | ⟨c, rest⟩
      · simp at hw
      · rw [hw.2.2.2]
        exact recalcBox_tightFor (by simp)
    have he2 : e ∈ cs.flatMap (scanList h) := he
    obtain ⟨c, hc, hce⟩ := List.mem_flatMap.mp he2
    have hwc := childrenWF_mem hw.1 hc
    have hin := scan_contained h c hwc e hce
    exact containsB_trans (htight.1 c hc) hin

/-- Intersection is monotone in the second argument under containment. -/
theorem intersectsB_mono {t b1 b2 : Box} (hc : b2.containsB b1 = true)
    (hi : t.intersectsB b1 = true) : t.intersectsB b2 = true := by
  rw [intersectsB_iff] at *
  rw [containsB_iff] at hc
  obtain ⟨c1, c2, c3, c4⟩ := hc
  obtain ⟨i1, i2, i3, i4⟩ := hi
  exact ⟨le_trans c1 i1, le_trans i2 c2, le_trans c3 i3, le_trans i4 c4⟩

/-- Running a visitor over an appended item list. -/
theorem runVisits_append {σ : Type _} (f : σ → Box → ℕ → σ × Bool) :
    ∀ (l1 l2 : List (Box × ℕ)) (s : σ),
      runVisits f (l1 ++ l2) s =
        (if (runVisits f l1 s).2 = true then runVisits f l2 (runVisits f l1 s).1
         else runVisits f l1 s)
  | [], l2, s => by
    rw [List.nil_append]
    have h0 : runVisits f [] s = (s, true) := rfl
    rw [h0]
    simp
  | e :: rest, l2, s => by
    rw [List.cons_append, runVisits, runVisits]
    rcases hfe : f s e.1 e.2 with ⟨s1, cont⟩
    dsimp only
    cases cont with
    | true =>
      simp only [if_pos rfl]
      exact runVisits_append f rest l2 s1
    | false =>
      simp

/-- The leaf loop of `rect.search` visits exactly the intersecting
entries, in order. -/
theorem searchLeafLoop_runVisits {σ : Type _} (target : Box)
    (f : σ → Box → ℕ → σ × Bool) :
    ∀ (cs : List Rect) (s : σ),
      searchLeafLoop target f cs s =
        runVisits f ((cs.filter (fun c => target.intersectsB c.box)).map
          (fun c => (c.box, c.dataD))) s
  | [], _ => rfl
  | c :: rest, s => by
    rw [searchLeafLoop]
    by_cases hi : target.intersectsB c.box = true
    · rw [if_pos hi, List.filter_cons_of_pos (by exact hi), List.map_cons,
        runVisits]
      rcases hfe : f s c.box c.dataD with ⟨s1, cont⟩
      dsimp only
      cases cont with
      | true =>
        simp only [if_pos rfl]
        exact searchLeafLoop_runVisits target f rest s1
      | false =>
        simp
    · rw [if_neg hi, List.filter_cons_of_neg (by exact hi)]
      exact searchLeafLoop_runVisits target f rest s

/-- The internal loop of `rect.search` against an abstract recursive
visit that itself runs the visitor on a known item list. -/
theorem searchNodeLoop_runVisits {σ : Type _} (target : Box)
    (f : σ → Box → ℕ → σ × Bool) (g : Rect → σ → σ × Bool)
    (L : Rect → List (Box × ℕ))
    (hg : ∀ (c : Rect) (s : σ), g c s = runVisits f (L c) s) :
    ∀ (cs : List Rect) (s : σ),
      searchNodeLoop target g cs s =
        runVisits f ((cs.filter (fun c => target.intersectsB c.box)).flatMap L) s
  | [], _ => rfl
  | c :: rest, s => by
    rw [searchNodeLoop]
    by_cases hi : target.intersectsB c.box = true
    · rw [if_pos hi, List.filter_cons_of_pos (by exact hi), List.flatMap_cons,
        runVisits_append f (L c) _ s]
      rcases hge : g c s with ⟨s1, cont⟩
      have hrv : runVisits f (L c) s = (s1, cont) := by
        rw [← hg c s, hge]
      rw [hrv]
      dsimp only
      cases cont with
      | true =>
        simp only [if_pos rfl]
        exact searchNodeLoop_runVisits target f g L hg rest s1
      | false =>
        simp
    · rw [if_neg hi, List.filter_cons_of_neg (by exact hi)]
      exact searchNodeLoop_runVisits target f g L hg rest s

/-- `rect.search` runs the visitor exactly on the search list. -/
theorem searchR_runVisits {σ : Type _} (target : Box)
    (f : σ → Box → ℕ → σ × Bool) :
    ∀ (h : ℕ) (r : Rect) (s : σ),
      searchR target f h r s = runVisits f (searchList target h r) s
  | 0, r, s => searchLeafLoop_runVisits target f r.children s
  | h + 1, r, s =>
    searchNodeLoop_runVisits target f (searchR target f h) (searchList target h)
      (fun c s0 => searchR_runVisits target f h c s0) r.children s

/-- `RTree.Search` runs the visitor exactly on the search list of the
whole tree. -/
theorem SearchSt_runVisits {σ : Type _} (tr : RTree) (mn mx : Pt)
    (f : σ → Box → ℕ → σ × Bool) (s : σ) :
    tr.SearchSt mn mx f s = (runVisits f (tr.searchAll mn mx) s).1 := by
  obtain ⟨th, root, tc⟩ := tr
  cases root with
  | none => rfl
  | some r =>
    rw [RTree.SearchSt, RTree.searchAll]
    dsimp only
    by_cases hi : (⟨mn, mx⟩ : Box).intersectsB r.box = true
    · rw [if_pos hi, if_pos hi, searchR_runVisits]
    · rw [if_neg hi, if_neg hi]
      rfl

/-- Filtering commutes with projecting leaf entries to items. -/
theorem filter_map_pair (target : Box) : ∀ cs : List Rect,
    (cs.filter (fun c => target.intersectsB c.box)).map
        (fun c => (c.box, c.dataD)) =
      (cs.map (fun c => (c.box, c.dataD))).filter
        (fun e => target.intersectsB e.1)
  | [] => rfl
  | c :: rest => by
    by_cases hi : target.intersectsB c.box = true
    · rw [List.map_cons, List.filter_cons_of_pos (by exact hi),
        List.filter_cons_of_pos (by exact hi), List.map_cons,
        filter_map_pair target rest]
    · rw [List.map_cons, List.filter_cons_of_neg (by exact hi),
        List.filter_cons_of_neg (by exact hi), filter_map_pair target rest]

/-- Inner fold of the search-list characterization. -/
theorem searchList_filter_fold (target : Box) (h : ℕ)
    (hrec : ∀ c : Rect, wfR h c = true →
      searchList target h c =
        (scanList h c).filter (fun e => target.intersectsB e.1)) :
    ∀ cs : List Rect, (∀ c ∈ cs, wfR h c = true) →
      (cs.filter (fun c => target.intersectsB c.box)).flatMap
          (searchList target h) =
        (cs.flatMap (scanList h)).filter (fun e => target.intersectsB e.1)
  | [], _ => rfl
  | c :: rest, h0 => by
    have hwc := h0 c (List.mem_cons_self _ _)
    have hrest := searchList_filter_fold target h hrec rest
      (fun x hx => h0 x (List.mem_cons_of_mem _ hx))
    by_cases hi : target.intersectsB c.box = true
    · rw [List.filter_cons_of_pos (by exact hi), List.flatMap_cons,
        List.flatMap_cons, List.filter_append, hrec c hwc, hrest]
    · rw [List.filter_cons_of_neg (by exact hi), List.flatMap_cons,
        List.filter_append, hrest]
      have hnil : (scanList h c).filter (fun e => target.intersectsB e.1) = [] := by
        rw [List.filter_eq_nil_iff]
        intro e he
        have hc := scan_contained h c hwc e he
        intro hQ
        exact hi (intersectsB_mono hc (by simpa using hQ))
      rw [hnil, List.nil_append]

/-- On a well-formed subtree the search list is exactly the scan list
restricted to entries intersecting the target. -/
theorem searchList_filter : ∀ (target : Box) (h : ℕ) (r : Rect),
    wfR h r = true →
    searchList target h r = (scanList h r).filter (fun e => target.intersectsB e.1)
  | _, _, .item _ _, hw => (wfR_not_item hw).elim
  | target, 0, .node b cs, _ => by
    have h1 : searchList target 0 (.node b cs) =
        (cs.filter (fun c => target.intersectsB c.box)).map
          (fun c => (c.box, c.dataD)) := rfl
    have h2 : scanList 0 (.node b cs) = cs.map (fun c => (c.box, c.dataD)) := rfl
    rw [h1, h2, filter_map_pair]
  | target, h + 1, .node b cs, hw => by
    rw [wfR_node_iff] at hw
    have h1 : searchList target (h + 1) (.node b cs) =
        (cs.filter (fun c => target.intersectsB c.box)).flatMap
          (searchList target h) := rfl
    have h2 : scanList (h + 1) (.node b cs) = cs.flatMap (scanList h) := rfl
    rw [h1, h2]
    exact searchList_filter_fold target h
      (fun c hc => searchList_filter target h c hc) cs
      ((childrenWF_succ_iff h cs).mp hw.1)

/-- A tight box is minimal: any box bounding the same entries contains it. -/
theorem tightFor_minimal {cs : List Rect} {b : Box} (ht : tightFor cs b) :
    ∀ b2, boundedBy cs b2 → b2.containsB b = true := by
  intro b2 hb2
  obtain ⟨hb, ⟨a1, ha1, f1⟩, ⟨a2, ha2, f2⟩, ⟨a3, ha3, f3⟩, ⟨a4, ha4, f4⟩⟩ := ht
  rw [containsB_iff]
  refine ⟨?_, ?_, ?_, ?_⟩
  · rw [← f1]
    exact ((containsB_iff _ _).mp (hb2 a1 ha1)).1
  · rw [← f2]
    exact ((containsB_iff _ _).mp (hb2 a2 ha2)).2.1
  · rw [← f3]
    exact ((containsB_iff _ _).mp (hb2 a3 ha3)).2.2.1
  · rw [← f4]
    exact ((containsB_iff _ _).mp (hb2 a4 ha4)).2.2.2

/-- The default head of a non-empty list is a member. -/
theorem headD_mem {α : Type _} (l : List α) (d : α) (h : 0 < l.length) :
    l.headD d ∈ l := by
  cases l with
  | nil => simp at h
  | cons a t => exact List.mem_cons_self _ _

/-- The subtree root occurs in its own node traversal. -/
theorem self_mem_treeNodesH : ∀ (h : ℕ) (r : Rect), (h, r) ∈ treeNodesH h r
  | 0, r => by
    rw [treeNodesH]
    exact List.mem_singleton_self _
  | h + 1, r => by
    rw [treeNodesH]
    exact List.mem_cons_self _ _

theorem axisGap_zero {alo ahi blo bhi : ℚ}
    (h1 : blo ≤ ahi) (h2 : alo ≤ bhi) (h3 : alo ≤ ahi) (h4 : blo ≤ bhi) :
    axisGap alo ahi blo bhi = 0 := by
  unfold axisGap
  dsimp only
  split_ifs <;> first | rfl | linarith

/-- C5: the claim as stated is false — `boxDist` is a squared quantity,
so it is not a lower bound on the (unsquared) Euclidean distance.  For
the point boxes A = {(10,0)} and B = {(0,0)}, `boxDist A B = 100` while
the Euclidean distance between the only points of A and B is 10. -/
theorem claim_C5_counterexample :
    ¬ ((boxDist (10, 0) (10, 0) (0, 0) (0, 0) : ℚ) : ℝ) ≤
      Real.sqrt (((10 : ℝ) - 0) ^ 2 + ((0 : ℝ) - 0) ^ 2) := by
  have h1 : boxDist (10, 0) (10, 0) ((0 : ℚ), (0 : ℚ)) ((0 : ℚ), (0 : ℚ)) = 100 := by decide
  have h2 : Real.sqrt (((10 : ℝ) - 0) ^ 2 + ((0 : ℝ) - 0) ^ 2) = 10 := by
    rw [show ((10 : ℝ) - 0) ^ 2 + ((0 : ℝ) - 0) ^ 2 = 10 ^ 2 by norm_num]
    exact Real.sqrt_sq (by norm_num)
  intro hle
  rw [h1, h2] at hle
  norm_num at hle

/-- C5 (amended): for all boxes A and B, `boxDist A B` is a true lower
bound on the SQUARED Euclidean distance between any point p drawn from A
and any point q drawn from B, and it equals 0 whenever A and B overlap
or touch. -/
theorem claim_C5_amended (amin amax bmin bmax p q : Pt)
    (hpA : amin.1 ≤ p.1 ∧ p.1 ≤ amax.1 ∧ amin.2 ≤ p.2 ∧ p.2 ≤ amax.2)
    (hqB : bmin.1 ≤ q.1 ∧ q.1 ≤ bmax.1 ∧ bmin.2 ≤ q.2 ∧ q.2 ≤ bmax.2) :
    boxDist amin amax bmin bmax ≤ (p.1 - q.1) ^ 2 + (p.2 - q.2) ^ 2 ∧
      (Box.intersectsB ⟨amin, amax⟩ ⟨bmin, bmax⟩ = true →
        boxDist amin amax bmin bmax = 0) := by
  obtain ⟨hp1, hp2, hp3, hp4⟩ := hpA
  obtain ⟨hq1, hq2, hq3, hq4⟩ := hqB
  constructor
  · rw [boxDist_eq_axisGap]
    have g1 := axisGap_le_sq hp1 hp2 hq1 hq2
    have g2 := axisGap_le_sq hp3 hp4 hq3 hq4
    linarith
  · intro hint
    rw [intersectsB_iff] at hint
    obtain ⟨i1, i2, i3, i4⟩ := hint
    dsimp only at i1 i2 i3 i4
    rw [boxDist_eq_axisGap]
    rw [axisGap_zero i1 i2 (by linarith) (by linarith),
      axisGap_zero i3 i4 (by linarith) (by linarith)]
    norm_num

theorem claim_C5_amended_witness :
    ((0 : ℚ) ≤ 1 ∧ (1 : ℚ) ≤ 2 ∧ (0 : ℚ) ≤ 0 ∧ (0 : ℚ) ≤ 3) ∧
      ((5 : ℚ) ≤ 5 ∧ (5 : ℚ) ≤ 6 ∧ (1 : ℚ) ≤ 1 ∧ (1 : ℚ) ≤ 1) ∧
      (boxDist (0, 0) (2, 3) (5, 1) (6, 1) ≤ ((1 : ℚ) - 5) ^ 2 + ((0 : ℚ) - 1) ^ 2 ∧
        (Box.intersectsB ⟨(0, 0), (2, 3)⟩ ⟨(5, 1), (6, 1)⟩ = true →
          boxDist (0, 0) (2, 3) (5, 1) (6, 1) = 0)) :=
  ⟨by norm_num, by norm_num,
    claim_C5_amended (0, 0) (2, 3) (5, 1) (6, 1) (1, 0) (5, 1)
      (by norm_num) (by norm_num)⟩

/-- C6: the bundled box-distance metric satisfies the `Nearby`
monotonicity precondition: when box C fully contains box B (in the sense
of `rect.contains`), the distance from any target box T to C is at most
the distance from T to B. -/
theorem claim_C6 (tmin tmax cmin cmax bmin bmax : Pt)
    (h : Box.containsB ⟨cmin, cmax⟩ ⟨bmin, bmax⟩ = true) :
    boxDist tmin tmax cmin cmax ≤ boxDist tmin tmax bmin bmax := by
  rw [containsB_iff] at h
  obtain ⟨h1, h2, h3, h4⟩ := h
  rw [boxDist_eq_axisGap, boxDist_eq_axisGap]
  have g1 : axisGap tmin.1 tmax.1 cmin.1 cmax.1 ≤ axisGap tmin.1 tmax.1 bmin.1 bmax.1 :=
    axisGap_mono h1 h2
  have g2 : axisGap tmin.2 tmax.2 cmin.2 cmax.2 ≤ axisGap tmin.2 tmax.2 bmin.2 bmax.2 :=
    axisGap_mono h3 h4
  linarith

theorem claim_C6_witness :
    Box.containsB ⟨((0 : ℚ), (0 : ℚ)), (10, 10)⟩ ⟨(4, 5), (6, 7)⟩ = true ∧
      boxDist (20, 20) (21, 21) (0, 0) (10, 10) ≤ boxDist (20, 20) (21, 21) (4, 5) (6, 7) :=
  ⟨by decide, claim_C6 (20, 20) (21, 21) (0, 0) (10, 10) (4, 5) (6, 7) (by decide)⟩

/-- C9: the claim as stated is false — the naive box-distance between
the point boxes at longitudes 170 and -170 is 115600, which is NOT
numerically identical to the naive box-distance 400 between the
pre-normalized box at longitude 170-360 and the box at -170. -/
theorem claim_C9_counterexample :
    boxDist (170, 33) (170, 33) (-170, 33) (-170, 33) ≠
      boxDist (170 - 360, 33) (170 - 360, 33) (-170, 33) (-170, 33) := by
  decide

/-- C9 (amended): the core performs no antimeridian wraparound: the
naive box-distance between the point boxes at longitudes 170 and -170 is
115600, strictly exceeding (rather than equalling) the naive
box-distance 400 obtained after shifting 170 by -360. -/
theorem claim_C9_amended :
    boxDist (170, 33) (170, 33) (-170, 33) (-170, 33) = 115600 ∧
      boxDist (170 - 360, 33) (170 - 360, 33) (-170, 33) (-170, 33) = 400 ∧
      boxDist (170 - 360, 33) (170 - 360, 33) (-170, 33) (-170, 33) <
        boxDist (170, 33) (170, 33) (-170, 33) (-170, 33) := by
  decide

/-- C10: in every reachable tree state with `Len() = 0` - including a
tree that previously held items and had them all deleted - `Bounds`
returns the zero box (min = (0,0), max = (0,0)) rather than retaining
the bounds of previously stored data. -/
theorem claim_C10 (ops : List Op) (hlen : (run ops).Len = 0) :
    (run ops).BoundsB = ⟨(0, 0), (0, 0)⟩ := by
  have hwf := wf_run ops
  rcases hroot : (run ops).root with _ | r
  · rw [RTree.BoundsB, hroot]
  · exfalso
    unfold WF at hwf
    rw [hroot] at hwf
    obtain ⟨hw, hc, -⟩ := hwf
    have hpos := scanList_pos (run ops).height r hw
    rw [RTree.Len] at hlen
    omega

/-- Witness for C10: insert one item, delete it; `Len` is 0 and
`Bounds` is the zero box. -/
theorem claim_C10_witness :
    (run [Op.ins (5, 5) (6, 6) 1, Op.del (5, 5) (6, 6) 1]).Len = 0 ∧
    (run [Op.ins (5, 5) (6, 6) 1, Op.del (5, 5) (6, 6) 1]).BoundsB =
      ⟨(0, 0), (0, 0)⟩ :=
  ⟨by decide, claim_C10 [Op.ins (5, 5) (6, 6) 1, Op.del (5, 5) (6, 6) 1]
    (by decide)⟩

/-- C3: in every reachable tree state, every node's aggregate box is
the tight minimal bounding box of its entries' boxes (it bounds them
and is contained in every box bounding them), and `Bounds` returns the
root node's box. -/
theorem claim_C3 (ops : List Op) (p : ℕ × Rect) (hp : p ∈ (run ops).nodesH)
    (b : Box) (cs : List Rect) (heq : p.2 = Rect.node b cs) :
    boundedBy cs b ∧ (∀ b2, boundedBy cs b2 → b2.containsB b = true) ∧
    (∀ root, (run ops).root = some root →
      (run ops).BoundsB = root.box ∧
      ((run ops).height, root) ∈ (run ops).nodesH) := by
  have hwf := wf_run ops
  have hwfp : wfR p.1 p.2 = true := by
    rw [RTree.nodesH] at hp
    rcases hroot : (run ops).root with _ | r
    · rw [hroot] at hp
      simp at hp
    · rw [hroot] at hp
      unfold WF at hwf
      rw [hroot] at hwf
      obtain ⟨hw, -, -⟩ := hwf
      exact wfR_treeNodes _ r hw p hp
  rw [heq, wfR_node_iff] at hwfp
  obtain ⟨hcw, h1, h32, hbox⟩ := hwfp
  have hne : cs ≠ [] := by
    intro h0
    rw [h0] at h1
    simp at h1
  have ht : tightFor cs b := by
    rw [hbox]
    exact recalcBox_tightFor hne
  refine ⟨ht.1, tightFor_minimal ht, ?_⟩
  intro root hroot
  constructor
  · rw [RTree.BoundsB, hroot]
  · rw [RTree.nodesH, hroot]
    exact self_mem_treeNodesH _ root

/-- Witness for C3 at a concrete one-item tree. -/
theorem claim_C3_witness :
    (run [Op.ins (0, 0) (1, 1) 4]).nodesH.headD default ∈
      (run [Op.ins (0, 0) (1, 1) 4]).nodesH ∧
    (boundedBy [Rect.item ⟨(0, 0), (1, 1)⟩ 4] ⟨(0, 0), (1, 1)⟩ ∧
      (∀ b2, boundedBy [Rect.item ⟨(0, 0), (1, 1)⟩ 4] b2 →
        b2.containsB ⟨(0, 0), (1, 1)⟩ = true) ∧
      (∀ root, (run [Op.ins (0, 0) (1, 1) 4]).root = some root →
        (run [Op.ins (0, 0) (1, 1) 4]).BoundsB = root.box ∧
        ((run [Op.ins (0, 0) (1, 1) 4]).height, root) ∈
          (run [Op.ins (0, 0) (1, 1) 4]).nodesH)) :=
  ⟨headD_mem _ default (by decide),
    claim_C3 [Op.ins (0, 0) (1, 1) 4]
      ((run [Op.ins (0, 0) (1, 1) 4]).nodesH.headD default)
      (headD_mem _ default (by decide))
      ⟨(0, 0), (1, 1)⟩ [Rect.item ⟨(0, 0), (1, 1)⟩ 4] rfl⟩

/-- C4 counterexample: the pair (box (2,2)-(3,3), data 1) is not
stored, yet `Delete` with that box removes the stored item with payload
1 and a different box: the leaf match compares payloads only. -/
theorem claim_C4_counterexample :
    (run [Op.ins (0, 0) (10, 10) 1]).scanAll = [(⟨(0, 0), (10, 10)⟩, 1)] ∧
    (⟨(2, 2), (3, 3)⟩, 1) ∉ (run [Op.ins (0, 0) (10, 10) 1]).scanAll ∧
    ((run [Op.ins (0, 0) (10, 10) 1]).Delete (2, 2) (3, 3) 1).Len = 0 ∧
    ((run [Op.ins (0, 0) (10, 10) 1]).Delete (2, 2) (3, 3) 1).scanAll = [] := by
  decide

/-- C4 amended: `Delete` matches stored entries by payload (the target
box only steers the traversal): whenever no stored item has the target
payload, `Delete` is a no-op. -/
theorem claim_C4_amended (ops : List Op) (dmin dmax : Pt) (d : ℕ)
    (habs : ∀ e ∈ (run ops).scanAll, e.2 ≠ d) :
    (run ops).Delete dmin dmax d = run ops := by
  rcases (Delete_spec (run ops) dmin dmax d (wf_run ops)).2 with heq | ⟨rb, hperm, -⟩
  · exact heq
  · exact absurd rfl
      (habs (rb, d) (hperm.mem_iff.mpr (List.mem_cons_self _ _)))

/-- Witness for the amended C4: payload 2 is absent, so `Delete` with
an overlapping box and payload 2 changes nothing. -/
theorem claim_C4_amended_witness :
    (∀ e ∈ (run [Op.ins (0, 0) (10, 10) 1]).scanAll, e.2 ≠ 2) ∧
    (run [Op.ins (0, 0) (10, 10) 1]).Delete (2, 2) (3, 3) 2 =
      run [Op.ins (0, 0) (10, 10) 1] :=
  ⟨by decide,
    claim_C4_amended [Op.ins (0, 0) (10, 10) 1] (2, 2) (3, 3) 2 (by decide)⟩

/-- C8 counterexample: after 32 coincident inserts and one distant
insert, the root split leaves a non-root node with a single entry -
fewer than `minEntries`. -/
theorem claim_C8_counterexample :
    ∃ p ∈ (run ((List.range 32).map (fun k => Op.ins (0, 0) (0, 0) k) ++
      [Op.ins (100, 0) (100, 0) 99])).nonRootNodes,
      p.2.childCount < minEntries := by
  decide

/-- C8 amended: in every reachable tree state, every non-root node
holds between 1 and `maxEntries` entries (the `minEntries` lower bound
is not maintained for split products). -/
theorem claim_C8_amended (ops : List Op) (p : ℕ × Rect)
    (hp : p ∈ (run ops).nonRootNodes) :
    1 ≤ p.2.childCount ∧ p.2.childCount ≤ maxEntries := by
  have hwf := wf_run ops
  rw [RTree.nonRootNodes] at hp
  rcases hroot : (run ops).root with _ | r
  · rw [hroot] at hp
    simp at hp
  · rw [hroot] at hp
    unfold WF at hwf
    rw [hroot] at hwf
    obtain ⟨hw, -, -⟩ := hwf
    rcases hh : (run ops).height with _ | h
    · rw [hh] at hp
      simp at hp
    · rw [hh] at hp
      rw [hh] at hw
      obtain ⟨c, hc, hpc⟩ := List.mem_flatMap.mp hp
      obtain ⟨b, cs, hr⟩ : ∃ b cs, r = .node b cs := by
        cases r with
        | item b0 d0 => exact (wfR_not_item hw).elim
        | node b0 cs0 => exact ⟨b0, cs0, rfl⟩
      subst hr
      rw [wfR_node_iff] at hw
      have hwc : wfR h c = true := childrenWF_mem hw.1 (by simpa using hc)
      have hwfp := wfR_treeNodes h c hwc p hpc
      obtain ⟨b2, cs2, hp2⟩ : ∃ b2 cs2, p.2 = .node b2 cs2 := by
        cases hsnd : p.2 with
        | item b0 d0 =>
          rw [hsnd] at hwfp
          exact (wfR_not_item hwfp).elim
        | node b0 cs0 => exact ⟨b0, cs0, rfl⟩
      rw [hp2, wfR_node_iff] at hwfp
      rw [hp2]
      simp only [Rect.childCount, Rect.children]
      omega

/-- Witness for the amended C8 at a concrete split tree. -/
theorem claim_C8_amended_witness :
    ((run ((List.range 32).map (fun k => Op.ins (0, 0) (0, 0) k) ++
        [Op.ins (100, 0) (100, 0) 99])).nonRootNodes.headD default ∈
      (run ((List.range 32).map (fun k => Op.ins (0, 0) (0, 0) k) ++
        [Op.ins (100, 0) (100, 0) 99])).nonRootNodes) ∧
    (1 ≤ ((run ((List.range 32).map (fun k => Op.ins (0, 0) (0, 0) k) ++
        [Op.ins (100, 0) (100, 0) 99])).nonRootNodes.headD default).2.childCount ∧
      ((run ((List.range 32).map (fun k => Op.ins (0, 0) (0, 0) k) ++
        [Op.ins (100, 0) (100, 0) 99])).nonRootNodes.headD
          default).2.childCount ≤ maxEntries) :=
  ⟨headD_mem _ default (by decide),
    claim_C8_amended ((List.range 32).map (fun k => Op.ins (0, 0) (0, 0) k) ++
        [Op.ins (100, 0) (100, 0) 99])
      ((run ((List.range 32).map (fun k => Op.ins (0, 0) (0, 0) k) ++
        [Op.ins (100, 0) (100, 0) 99])).nonRootNodes.headD default)
      (headD_mem _ default (by decide))⟩

/-- C2: in every reachable tree state, `Search` visits exactly the
stored items whose box intersects the query box (boundary touching
counts), without omission or duplication, stopping at the first `false`
from the visitor: the visit list is the scan list filtered by
intersection, and the stateful search runs the visitor over exactly
that list. -/
theorem claim_C2 {σ : Type _} (ops : List Op) (mn mx : Pt)
    (f : σ → Box → ℕ → σ × Bool) (s : σ) :
    (run ops).searchAll mn mx =
      ((run ops).scanAll).filter (fun e => (⟨mn, mx⟩ : Box).intersectsB e.1) ∧
    (run ops).SearchSt mn mx f s =
      (runVisits f (((run ops).scanAll).filter
        (fun e => (⟨mn, mx⟩ : Box).intersectsB e.1)) s).1 := by
  have hwf := wf_run ops
  have h1 : (run ops).searchAll mn mx =
      ((run ops).scanAll).filter (fun e => (⟨mn, mx⟩ : Box).intersectsB e.1) := by
    rw [RTree.searchAll, RTree.scanAll]
    rcases hroot : (run ops).root with _ | r
    · rfl
    · dsimp only
      unfold WF at hwf
      rw [hroot] at hwf
      obtain ⟨hw, -, -⟩ := hwf
      by_cases hi : (⟨mn, mx⟩ : Box).intersectsB r.box = true
      · rw [if_pos hi]
        exact searchList_filter _ _ r hw
      · rw [if_neg hi]
        refine (List.filter_eq_nil_iff.mpr ?_).symm
        intro e he hQ
        exact hi (intersectsB_mono (scan_contained _ r hw e he) (by simpa using hQ))
  refine ⟨h1, ?_⟩
  rw [SearchSt_runVisits, h1]

/-- C7: the edge-snap split of an overflowing tight node partitions the
entries with none shared or lost into two non-empty halves with
recomputed tight boxes; each strictly-nearer entry goes to the side of
its nearer edge on the largest axis, and exact ties are balanced toward
the smaller half. -/
theorem claim_C7 (b : Box) (cs : List Rect) (hlen : cs.length = maxEntries + 1)
    (ht : tightFor cs b) :
    ∃ ls2 rs2,
      splitLargestAxisEdgeSnap b cs =
        (Rect.node (recalcBox ls2) ls2, Rect.node (recalcBox rs2) rs2) ∧
      (ls2 ++ rs2).Perm cs ∧ ls2 ≠ [] ∧ rs2 ≠ [] ∧
      tightFor ls2 (recalcBox ls2) ∧ tightFor rs2 (recalcBox rs2) ∧
      (∀ c ∈ cs, snapMinDist b b.largestAxis c < snapMaxDist b b.largestAxis c →
        c ∈ ls2) ∧
      (∀ c ∈ cs, snapMaxDist b b.largestAxis c < snapMinDist b b.largestAxis c →
        c ∈ rs2) ∧
      (∀ c ∈ ls2, ¬ snapMaxDist b b.largestAxis c < snapMinDist b b.largestAxis c) ∧
      (∀ c ∈ rs2, ¬ snapMinDist b b.largestAxis c < snapMaxDist b b.largestAxis c) ∧
      (snapCountT b cs = 0 →
        ls2.length = snapCountL b cs ∧ rs2.length = snapCountR b cs) ∧
      (0 < snapCountT b cs →
        (((ls2.length : ℤ) - (rs2.length : ℤ)).natAbs : ℕ) ≤
          max ((((snapCountL b cs : ℤ) - (snapCountR b cs : ℤ)).natAbs) -
            snapCountT b cs) 1) := by
  have hm : maxEntries = 32 := rfl
  have hlen2 : 2 ≤ cs.length := by omega
  obtain ⟨ls2, rs2, heq, hperm, hlne, hrne, hL, hR, hLs, hRs, hbal, hexact⟩ :=
    splitLAES_full hlen2 ht
  exact ⟨ls2, rs2, heq, hperm, hlne, hrne,
    recalcBox_tightFor hlne, recalcBox_tightFor hrne,
    hLs, hRs, hL, hR, hexact, hbal⟩

/-- Witness for C7: a tight node of 33 collinear point entries. -/
theorem claim_C7_witness :
    ((List.range 33).map
      (fun k : ℕ => Rect.item ⟨((k : ℚ), 0), ((k : ℚ), 0)⟩ k)).length =
      maxEntries + 1 ∧
    tightFor ((List.range 33).map
      (fun k : ℕ => Rect.item ⟨((k : ℚ), 0), ((k : ℚ), 0)⟩ k)) ⟨(0, 0), (32, 0)⟩ ∧
    (∃ ls2 rs2,
      splitLargestAxisEdgeSnap ⟨(0, 0), (32, 0)⟩
          ((List.range 33).map
            (fun k : ℕ => Rect.item ⟨((k : ℚ), 0), ((k : ℚ), 0)⟩ k)) =
        (Rect.node (recalcBox ls2) ls2, Rect.node (recalcBox rs2) rs2) ∧
      (ls2 ++ rs2).Perm ((List.range 33).map
        (fun k : ℕ => Rect.item ⟨((k : ℚ), 0), ((k : ℚ), 0)⟩ k)) ∧
      ls2 ≠ [] ∧ rs2 ≠ []) := by
  have hne : ((List.range 33).map
      (fun k : ℕ => Rect.item ⟨((k : ℚ), 0), ((k : ℚ), 0)⟩ k)) ≠ [] := by
    intro h0
    have := congrArg List.length h0
    simp at this
  have ht : tightFor ((List.range 33).map
      (fun k : ℕ => Rect.item ⟨((k : ℚ), 0), ((k : ℚ), 0)⟩ k)) ⟨(0, 0), (32, 0)⟩ := by
    have h := recalcBox_tightFor hne
    have hb : recalcBox ((List.range 33).map
        (fun k : ℕ => Rect.item ⟨((k : ℚ), 0), ((k : ℚ), 0)⟩ k)) =
        ⟨(0, 0), (32, 0)⟩ := by decide
    rwa [hb] at h
  refine ⟨by decide, ht, ?_⟩
  obtain ⟨ls2, rs2, heq, hperm, hlne, hrne, -⟩ :=
    claim_C7 ⟨(0, 0), (32, 0)⟩
      ((List.range 33).map (fun k : ℕ => Rect.item ⟨((k : ℚ), 0), ((k : ℚ), 0)⟩ k))
      (by decide) ht
  exact ⟨ls2, rs2, heq, hperm, hlne, hrne⟩

/-- C1: for every reachable tree and every `algo` satisfying the
monotonicity precondition (a node's value never exceeds any descendant
item's value), `Nearby` reports stored items in non-decreasing distance
order; and when the iterator never stops, it is invoked once per stored
item - `Len()` calls in total. -/
theorem claim_C1 {σ : Type _} (ops : List Op) (algo : Rect → ℚ)
    (iter : σ → Box → ℕ → ℚ → σ × Bool) (s : σ)
    (hmono : ∀ root, (run ops).root = some root → monOn algo root) :
    List.Chain' (· ≤ ·)
      (((run ops).NearbyRun algo iter s).map (fun e => e.2.2)) ∧
    ((∀ s2 b d2 dist, (iter s2 b d2 dist).2 = true) →
      (((run ops).NearbyRun algo iter s).map (fun e => (e.1, e.2.1))).Perm
        (run ops).scanAll ∧
      (((run ops).NearbyRun algo iter s).length : ℤ) = (run ops).Len) := by
  have hwf := wf_run ops
  have hscanA : (run ops).scanAll =
      (match (run ops).root with
        | none => []
        | some r => scanList (run ops).height r) := rfl
  rw [RTree.NearbyRun, RTree.Len, hscanA]
  rcases hroot : (run ops).root with _ | root
  · dsimp only
    unfold WF at hwf
    rw [hroot] at hwf
    refine ⟨by simp, fun _ => ⟨by simp, ?_⟩⟩
    simp only [List.length_nil, Nat.cast_zero]
    omega
  · dsimp only
    unfold WF at hwf
    rw [hroot] at hwf
    obtain ⟨hw, hcount, -⟩ := hwf
    have hmon : monOn algo root := hmono root hroot
    have hq0 : heapInv (qpush [] ⟨algo root, root⟩) :=
      qpush_heapInv _ (by intro i h1 h2; simp at h2)
    have hqmem : ∀ m ∈ qpush [] ⟨algo root, root⟩,
        m = (⟨algo root, root⟩ : Qnode) := by
      intro m hm
      have := (qpush_perm [] ⟨algo root, root⟩).mem_iff.mp hm
      simpa using this
    obtain ⟨hchain, hperm⟩ := nearbyLoop_spec algo iter
      (qsize (qpush [] ⟨algo root, root⟩)) (qpush [] ⟨algo root, root⟩) s
      (algo root) (le_refl _) hq0
      (fun m hm => by rw [hqmem m hm])
      (fun m hm => by rw [hqmem m hm]; exact hmon)
      (fun m hm it hit => by
        rw [hqmem m hm] at hit
        exact monOn_self hmon it hit)
    constructor
    · exact List.Chain'.tail (l := algo root :: _) hchain
    · intro hall
      have hp := hperm hall
      have hqi : (qItems (qpush [] ⟨algo root, root⟩)).Perm (itemRects root) := by
        have h1 : (qItems (qpush [] ⟨algo root, root⟩)).Perm
            (qItems [⟨algo root, root⟩]) :=
          perm_flatMap _ (qpush_perm [] ⟨algo root, root⟩)
        refine h1.trans ?_
        have h2 : qItems [(⟨algo root, root⟩ : Qnode)] = itemRects root ++ [] := rfl
        rw [h2, List.append_nil]
      have hitems := itemRects_scan (run ops).height root hw
      constructor
      · refine (hp.trans (hqi.map _)).trans ?_
        rw [hitems]
      · have hlen := (hp.trans (hqi.map _)).length_eq
        rw [List.length_map, List.length_map] at hlen
        have hlen2 : (itemRects root).length =
            (scanList (run ops).height root).length := by
          rw [← hitems, List.length_map]
        omega

/-- Witness for C1: a constant metric is monotone; two stored items are
reported, in (trivially) non-decreasing order. -/
theorem claim_C1_witness :
    (∀ root, (run [Op.ins (0, 0) (0, 0) 5, Op.ins (3, 4) (3, 4) 7]).root =
      some root → monOn (fun _ => (0 : ℚ)) root) ∧
    (List.Chain' (· ≤ ·)
      (((run [Op.ins (0, 0) (0, 0) 5, Op.ins (3, 4) (3, 4) 7]).NearbyRun
        (fun _ => (0 : ℚ)) (fun s2 _ _ _ => (s2, true)) ()).map
          (fun e => e.2.2)) ∧
    ((∀ (s2 : Unit) (b : Box) (d2 : ℕ) (dist : ℚ),
        ((fun (s2 : Unit) (_ : Box) (_ : ℕ) (_ : ℚ) => (s2, true))
          s2 b d2 dist).2 = true) →
      (((run [Op.ins (0, 0) (0, 0) 5, Op.ins (3, 4) (3, 4) 7]).NearbyRun
        (fun _ => (0 : ℚ)) (fun s2 _ _ _ => (s2, true)) ()).map
          (fun e => (e.1, e.2.1))).Perm
        (run [Op.ins (0, 0) (0, 0) 5, Op.ins (3, 4) (3, 4) 7]).scanAll ∧
      (((run [Op.ins (0, 0) (0, 0) 5, Op.ins (3, 4) (3, 4) 7]).NearbyRun
        (fun _ => (0 : ℚ)) (fun s2 _ _ _ => (s2, true)) ()).length : ℤ) =
        (run [Op.ins (0, 0) (0, 0) 5, Op.ins (3, 4) (3, 4) 7]).Len)) :=
  ⟨fun root hr nd hnd it hit => le_refl 0,
    claim_C1 [Op.ins (0, 0) (0, 0) 5, Op.ins (3, 4) (3, 4) 7]
      (fun _ => (0 : ℚ)) (fun s2 _ _ _ => (s2, true)) ()
      (fun root hr nd hnd it hit => le_refl 0)⟩

end Geoindex
